import Mathlib

/-!
# libheif box parser (`src/libheif/box.h`, `src/libheif/box.cc`)

A shallow embedding of the bounded range reader, the primitive decoders, the
box header decoder, the dispatch engine and the box variant decoders, followed
by theorems about them.

Conventions of the embedding:

* machine integers are `Nat` / `Int` with explicit reductions: `uint64_t`
  values are naturals below `2^64`, `int` is a 32-bit two's complement integer
  and `std::streamoff` a 64-bit one; the implicit conversions that the C++
  performs at call sites are the functions `to_uint64`, `to_int`,
  `to_streamoff`;
* the `std::istream` shared by all ranges is the explicit state `IStream`;
* a `BitstreamRange` together with the ranges reachable through
  `m_parent_range` is a list: the head is the range itself, the tail is its
  chain of ancestors (`m_parent_range == nullptr` is the empty tail). A child
  range lives only while its box is parsed, and the parent is only touched
  through the child during that time, so the updated ancestors are read back
  from the tail when the child goes out of scope;
* `std::string` and `std::vector<uint8_t>` are lists of byte values.
-/

namespace heif

/-! ## Integer conversions -/

/-- Conversion of an `int` to `uint64_t` (value modulo `2^64`). -/
def to_uint64 (n : Int) : Nat := (n % 2 ^ 64).toNat

/-- Conversion of a `uint64_t` to a 32-bit `int` (two's complement truncation). -/
def to_int (x : Nat) : Int :=
  if x % 2 ^ 32 < 2 ^ 31 then ((x % 2 ^ 32 : Nat) : Int) else ((x % 2 ^ 32 : Nat) : Int) - 2 ^ 32

/-- Conversion of a `uint64_t` to `std::streamoff` (64-bit two's complement). -/
def to_streamoff (x : Nat) : Int :=
  if x % 2 ^ 64 < 2 ^ 63 then ((x % 2 ^ 64 : Nat) : Int) else ((x % 2 ^ 64 : Nat) : Int) - 2 ^ 64

/-! ## The byte source (`std::istream`) -/

/-- The state of the `std::istream` behind the ranges: the bytes of the source
(`data i` for `i < size`, taken modulo 256), the read cursor, the sticky fail
state (`fail()`; nothing in the program clears it), and whether the stream
buffer refuses to seek past the end of the source (a string buffer does, a file
buffer does not). -/
structure IStream where
  data : Nat → Nat
  size : Nat
  pos : Nat
  failbit : Bool
  strict_seek : Bool

namespace IStream

/-- The `n` bytes of the source starting at position `p`. -/
def bytes (s : IStream) (p n : Nat) : List Nat :=
  (List.range n).map (fun i => s.data (p + i) % 256)

/-- Model of `istr->read(buf, n)` into a zero-filled buffer: returns the buffer
and the new stream state. In the fail state nothing is read; a read of no
bytes changes nothing. When fewer than `n` bytes are left, the available ones
are read and the fail state is set. -/
def read (s : IStream) (n : Nat) : List Nat × IStream :=
  if s.failbit then (List.replicate n 0, s)
  else if n = 0 then ([], s)
  else if s.pos + n ≤ s.size then (s.bytes s.pos n, { s with pos := s.pos + n })
  else
    (s.bytes s.pos (s.size - s.pos) ++ List.replicate (n - (s.size - s.pos)) 0,
      { s with pos := s.pos + (s.size - s.pos), failbit := true })

/-- Model of `istr->seekg(off, std::ios::cur)`: no effect in the fail state; a
target before the start (or, for a strict buffer, past the end) sets the fail
state and leaves the cursor. -/
def seekg_cur (s : IStream) (off : Int) : IStream :=
  if s.failbit then s
  else if (s.pos : Int) + off < 0 then { s with failbit := true }
  else if s.strict_seek && decide ((s.size : Int) < (s.pos : Int) + off) then
    { s with failbit := true }
  else { s with pos := ((s.pos : Int) + off).toNat }

/-- Model of `istr->seekg(0, std::ios_base::end)`. -/
def seekg_end (s : IStream) : IStream :=
  if s.failbit then s else { s with pos := s.size }

end IStream

/-! ## `BitstreamRange` (box.h) -/

/-- The fields of one `BitstreamRange` object; `m_istr` is the shared
`IStream` and `m_parent_range` is the rest of the list the object heads. -/
structure BitstreamRange where
  m_remaining : Nat
  m_end_reached : Bool
  m_error : Bool
  deriving DecidableEq

namespace BitstreamRange

/-- The constructor `BitstreamRange(istr, length, parent)`. -/
def new (length : Nat) (parent : List BitstreamRange) : List BitstreamRange :=
  { m_remaining := length, m_end_reached := decide (length = 0), m_error := false } :: parent

/-- Model of `bool BitstreamRange::read(int n)` (box.h:62-88). The results of
the calls on the parent are discarded, as in the source. -/
def read : List BitstreamRange → Int → IStream → Bool × List BitstreamRange × IStream
  | [], _, s => (false, [], s)
  | r :: parent, n, s =>
    if to_uint64 n ≤ r.m_remaining then
      let p := (read parent n s).2
      (true,
        { m_remaining := r.m_remaining - to_uint64 n,
          m_end_reached := decide (r.m_remaining - to_uint64 n = 0),
          m_error := r.m_error } :: p.1,
        p.2)
    else if r.m_remaining = 0 then
      (false, { r with m_error := true } :: parent, s)
    else
      let p := (read parent (to_int r.m_remaining) s).2
      (false,
        { m_remaining := 0, m_end_reached := true, m_error := true } :: p.1,
        p.2.seekg_cur (to_streamoff r.m_remaining))

/-- Model of `skip_to_end_of_file()`. -/
def skip_to_end_of_file : List BitstreamRange → IStream → List BitstreamRange × IStream
  | [], s => ([], s)
  | r :: parent, s =>
    ({ r with m_remaining := 0, m_end_reached := true } :: parent, s.seekg_end)

/-- Model of `skip_to_end_of_box()`. -/
def skip_to_end_of_box : List BitstreamRange → IStream → List BitstreamRange × IStream
  | [], s => ([], s)
  | r :: parent, s =>
    if r.m_remaining ≠ 0 then
      ({ r with m_remaining := 0, m_end_reached := true } :: parent,
        s.seekg_cur (to_streamoff r.m_remaining))
    else ({ r with m_end_reached := true } :: parent, s)

/-- Model of `set_eof_reached()`: the range and all its ancestors. -/
def set_eof_reached : List BitstreamRange → List BitstreamRange
  | [] => []
  | r :: parent => { r with m_remaining := 0, m_end_reached := true } :: set_eof_reached parent

/-- Model of `eof()`. -/
def eof : List BitstreamRange → Bool
  | [] => true
  | r :: _ => r.m_end_reached

/-- Model of `error()`. -/
def error : List BitstreamRange → Bool
  | [] => true
  | r :: _ => r.m_error

/-- The remaining budget of the range heading the chain. -/
def remaining : List BitstreamRange → Nat
  | [] => 0
  | r :: _ => r.m_remaining

end BitstreamRange

/-- The error codes of `class Error`. -/
inductive Error where
  | Ok
  | ParseError
  | EndOfData
  deriving DecidableEq

/-- Model of `BitstreamRange::get_error()`. -/
def BitstreamRange.get_error (range : List BitstreamRange) : Error :=
  if BitstreamRange.error range then Error.EndOfData else Error.Ok

/-! ## Primitive decoders (box.cc:35-141) -/

/-- Modelled from the spec: the `fourcc` helper is used by box.cc but declared
elsewhere; the spec describes a four-character code as a 32-bit value of four
packed ASCII bytes, the first character in the top byte (the inverse of
`to_fourcc`). -/
def fourcc (s : String) : Nat :=
  match s.data with
  | [a, b, c, d] => a.toNat <<< 24 ||| b.toNat <<< 16 ||| c.toNat <<< 8 ||| d.toNat
  | _ => 0

/-- Model of `to_fourcc(code)`: the four characters of a code. -/
def to_fourcc (code : Nat) : List Nat :=
  [(code >>> 24) &&& 0xFF, (code >>> 16) &&& 0xFF, (code >>> 8) &&& 0xFF, (code >>> 0) &&& 0xFF]

/-- Model of `read8(range)`. -/
def read8 (range : List BitstreamRange) (istr : IStream) :
    Nat × List BitstreamRange × IStream :=
  let (ok, range, istr) := BitstreamRange.read range 1 istr
  if !ok then (0, range, istr)
  else
    let (buf, istr) := istr.read 1
    if istr.failbit then (0, BitstreamRange.set_eof_reached range, istr)
    else (buf.getD 0 0, range, istr)

/-- Model of `read16(range)`. -/
def read16 (range : List BitstreamRange) (istr : IStream) :
    Nat × List BitstreamRange × IStream :=
  let (ok, range, istr) := BitstreamRange.read range 2 istr
  if !ok then (0, range, istr)
  else
    let (buf, istr) := istr.read 2
    if istr.failbit then (0, BitstreamRange.set_eof_reached range, istr)
    else (((buf.getD 0 0 <<< 8) ||| buf.getD 1 0) % 2 ^ 16, range, istr)

/-- Model of `read32(range)`. -/
def read32 (range : List BitstreamRange) (istr : IStream) :
    Nat × List BitstreamRange × IStream :=
  let (ok, range, istr) := BitstreamRange.read range 4 istr
  if !ok then (0, range, istr)
  else
    let (buf, istr) := istr.read 4
    if istr.failbit then (0, BitstreamRange.set_eof_reached range, istr)
    else
      (((buf.getD 0 0 <<< 24) ||| (buf.getD 1 0 <<< 16) ||| (buf.getD 2 0 <<< 8) |||
          buf.getD 3 0) % 2 ^ 32, range, istr)

/-- The `for (;;)` loop of `read_string`; `str` is the string built so far.
Every pass that continues has debited the range by one, so `fuel` passes
suffice when `fuel` exceeds the remaining budget of the range. -/
def read_string_loop : Nat → List Nat → List BitstreamRange → IStream →
    List Nat × List BitstreamRange × IStream
  | 0, _, range, istr => ([], range, istr)
  | fuel + 1, str, range, istr =>
    let (ok, range, istr) := BitstreamRange.read range 1 istr
    if !ok then ([], range, istr)
    else
      let (buf, istr) := istr.read 1
      if istr.failbit then ([], BitstreamRange.set_eof_reached range, istr)
      else if buf.getD 0 0 = 0 then (str, range, istr)
      else read_string_loop fuel (str ++ [buf.getD 0 0]) range istr

/-- Model of `read_string(range)`. -/
def read_string (range : List BitstreamRange) (istr : IStream) :
    List Nat × List BitstreamRange × IStream :=
  read_string_loop (BitstreamRange.remaining range + 1) [] range istr

/-! ## `BoxHeader` (box.cc:144-266) -/

/-- The fields of `class BoxHeader`, with their default member initialisers. -/
structure BoxHeader where
  m_size : Nat := 0
  m_header_size : Nat := 0
  m_type : Nat := 0
  m_uuid_type : List Nat := []
  m_is_full_box : Bool := false
  m_version : Nat := 0
  m_flags : Nat := 0
  deriving DecidableEq

/-- Model of `operator<<` for an `int` between 0 and 255 on a stream in `std::hex`
mode with fill character `0` and field width `width`. -/
def hex_int (width : Nat) (v : Nat) : List Char :=
  List.replicate (width - (Nat.toDigits 16 v).length) (Char.ofNat 48) ++ Nat.toDigits 16 v

/-- The loop `for (int i=0;i<16;i++)` of `get_type_string`, from index `i`, for
`k` more passes; `width` is the field width of the stream, which `setw(2)` sets
once before the loop and every output operation resets to 0. A hyphen is
written when the byte index `i` is 8, 12, 16 or 20. An index past the end of
`m_uuid_type` (undefined in the source) reads as 0. -/
def get_type_string_loop (uuid : List Nat) : Nat → Nat → Nat → List Char
  | 0, _, _ => []
  | k + 1, i, width =>
    if i = 8 ∨ i = 12 ∨ i = 16 ∨ i = 20 then
      (List.replicate (width - 1) (Char.ofNat 48) ++ [Char.ofNat 45]) ++
        hex_int 0 (uuid.getD i 0) ++ get_type_string_loop uuid k (i + 1) 0
    else hex_int width (uuid.getD i 0) ++ get_type_string_loop uuid k (i + 1) 0

/-- Model of `BoxHeader::get_type_string()`. -/
def BoxHeader.get_type_string (hdr : BoxHeader) : String :=
  if hdr.m_type = fourcc "uuid" then String.mk (get_type_string_loop hdr.m_uuid_type 16 0 2)
  else String.mk ((to_fourcc hdr.m_type).map Char.ofNat)

/-- Model of `BoxHeader::parse(range)` (box.cc:186-211). -/
def BoxHeader.parse (hdr : BoxHeader) (range : List BitstreamRange) (istr : IStream) :
    Error × BoxHeader × List BitstreamRange × IStream :=
  let (m_size, range, istr) := read32 range istr
  let (m_type, range, istr) := read32 range istr
  let hdr := { hdr with m_size := m_size, m_type := m_type, m_header_size := 8 }
  let (hdr, range, istr) :=
    if m_size = 1 then
      let (high, range, istr) := read32 range istr
      let (low, range, istr) := read32 range istr
      ({ hdr with m_size := ((high <<< 32) ||| low) % 2 ^ 64,
                  m_header_size := hdr.m_header_size + 8 }, range, istr)
    else (hdr, range, istr)
  let (hdr, range, istr) :=
    if m_type = fourcc "uuid" then
      let (ok, range, istr) := BitstreamRange.read range 16 istr
      if ok then
        let (buf, istr) := istr.read 16
        ({ hdr with m_uuid_type := buf, m_header_size := hdr.m_header_size + 16 }, range, istr)
      else ({ hdr with m_header_size := hdr.m_header_size + 16 }, range, istr)
    else (hdr, range, istr)
  (BitstreamRange.get_error range, hdr, range, istr)

/-- Model of `BoxHeader::parse_full_box_header(range)`. -/
def BoxHeader.parse_full_box_header (hdr : BoxHeader) (range : List BitstreamRange)
    (istr : IStream) : Error × BoxHeader × List BitstreamRange × IStream :=
  let (data, range, istr) := read32 range istr
  (BitstreamRange.get_error range,
    { hdr with m_version := (data >>> 24) % 2 ^ 8, m_flags := data &&& 0x00FFFFFF,
               m_is_full_box := true, m_header_size := (hdr.m_header_size + 4) % 2 ^ 32 },
    range, istr)

/-- The content length `get_box_size() - get_header_size()`, in `uint64_t`
arithmetic. -/
def BoxHeader.content_size (hdr : BoxHeader) : Nat :=
  (hdr.m_size + 2 ^ 64 - hdr.m_header_size % 2 ^ 64) % 2 ^ 64

/-! ## Box variants (box.h:189-422, box.cc:235-866) -/

/-- Model of `Box::parse(range)` (box.cc:235-253), the body decoder of the
generic box: it skips the content. -/
def Box.parse (hdr : BoxHeader) (range : List BitstreamRange) (istr : IStream) :
    Error × List BitstreamRange × IStream :=
  if hdr.m_size = 0 then
    let (range, istr) := BitstreamRange.skip_to_end_of_file range istr
    (BitstreamRange.get_error range, range, istr)
  else
    let content_size := hdr.content_size
    let (ok, range, istr) := BitstreamRange.read range (to_int content_size) istr
    if ok then
      (BitstreamRange.get_error range, range, istr.seekg_cur (to_streamoff hdr.content_size))
    else (BitstreamRange.get_error range, range, istr)

/-- The fields of `Box_ftyp`. -/
structure Box_ftyp where
  hdr : BoxHeader
  m_major_brand : Nat
  m_minor_version : Nat
  m_compatible_brands : List Nat
  deriving DecidableEq

/-- The loop `for (int i=0;i<n_minor_brands;i++)` of `Box_ftyp::parse`, for `k`
more passes. -/
def Box_ftyp.parse_brands : Nat → List Nat → List BitstreamRange → IStream →
    List Nat × List BitstreamRange × IStream
  | 0, brands, range, istr => (brands, range, istr)
  | k + 1, brands, range, istr =>
    let (v, range, istr) := read32 range istr
    Box_ftyp.parse_brands k (brands ++ [v]) range istr

/-- Model of `Box_ftyp::parse(range)` (box.cc:399-411). The difference
`get_box_size()-get_header_size()-8` is taken in `uint64_t`, so it wraps below 8. -/
def Box_ftyp.parse (hdr : BoxHeader) (range : List BitstreamRange) (istr : IStream) :
    Error × Box_ftyp × List BitstreamRange × IStream :=
  let (m_major_brand, range, istr) := read32 range istr
  let (m_minor_version, range, istr) := read32 range istr
  let n_minor_brands : Int := to_int (to_uint64 ((hdr.content_size : Int) - 8) / 4)
  let (brands, range, istr) := Box_ftyp.parse_brands n_minor_brands.toNat [] range istr
  (BitstreamRange.get_error range,
    { hdr := hdr, m_major_brand := m_major_brand, m_minor_version := m_minor_version,
      m_compatible_brands := brands }, range, istr)

/-- The fields of `Box_hdlr`. -/
structure Box_hdlr where
  hdr : BoxHeader
  m_pre_defined : Nat
  m_handler_type : Nat
  m_reserved : List Nat
  m_name : List Nat
  deriving DecidableEq

/-- Model of `Box_hdlr::parse(range)` (box.cc:467-481). -/
def Box_hdlr.parse (hdr : BoxHeader) (range : List BitstreamRange) (istr : IStream) :
    Error × Box_hdlr × List BitstreamRange × IStream :=
  let (_, hdr, range, istr) := hdr.parse_full_box_header range istr
  let (m_pre_defined, range, istr) := read32 range istr
  let (m_handler_type, range, istr) := read32 range istr
  let (r0, range, istr) := read32 range istr
  let (r1, range, istr) := read32 range istr
  let (r2, range, istr) := read32 range istr
  let (m_name, range, istr) := read_string range istr
  (BitstreamRange.get_error range,
    { hdr := hdr, m_pre_defined := m_pre_defined, m_handler_type := m_handler_type,
      m_reserved := [r0, r1, r2], m_name := m_name }, range, istr)

/-- The fields of `Box_pitm`. -/
structure Box_pitm where
  hdr : BoxHeader
  m_item_ID : Nat
  deriving DecidableEq

/-- Model of `Box_pitm::parse(range)` (box.cc:496-503). -/
def Box_pitm.parse (hdr : BoxHeader) (range : List BitstreamRange) (istr : IStream) :
    Error × Box_pitm × List BitstreamRange × IStream :=
  let (_, hdr, range, istr) := hdr.parse_full_box_header range istr
  let (m_item_ID, range, istr) := read16 range istr
  (BitstreamRange.get_error range, { hdr := hdr, m_item_ID := m_item_ID }, range, istr)

/-- The fields of `Box_ispe`. -/
structure Box_ispe where
  hdr : BoxHeader
  m_image_width : Nat
  m_image_height : Nat
  deriving DecidableEq

/-- Model of `Box_ispe::parse(range)` (box.cc:776-784). -/
def Box_ispe.parse (hdr : BoxHeader) (range : List BitstreamRange) (istr : IStream) :
    Error × Box_ispe × List BitstreamRange × IStream :=
  let (_, hdr, range, istr) := hdr.parse_full_box_header range istr
  let (m_image_width, range, istr) := read32 range istr
  let (m_image_height, range, istr) := read32 range istr
  (BitstreamRange.get_error range,
    { hdr := hdr, m_image_width := m_image_width, m_image_height := m_image_height },
    range, istr)

/-- The fields of `Box_infe`; the strings are empty until assigned. -/
structure Box_infe where
  hdr : BoxHeader
  m_item_ID : Nat
  m_item_protection_index : Nat
  m_item_type : List Nat := []
  m_item_name : List Nat := []
  m_content_type : List Nat := []
  m_content_encoding : List Nat := []
  m_item_uri_type : List Nat := []
  deriving DecidableEq

/-- Model of `Box_infe::parse(range)` (box.cc:645-683). `m_item_ID` is a
`uint16_t`, so the 32-bit value read for version 3 and later is reduced. -/
def Box_infe.parse (hdr : BoxHeader) (range : List BitstreamRange) (istr : IStream) :
    Error × Box_infe × List BitstreamRange × IStream :=
  let (_, hdr, range, istr) := hdr.parse_full_box_header range istr
  if hdr.m_version ≤ 1 then
    let (m_item_ID, range, istr) := read16 range istr
    let (m_item_protection_index, range, istr) := read16 range istr
    let (m_item_name, range, istr) := read_string range istr
    let (m_content_type, range, istr) := read_string range istr
    let (m_content_encoding, range, istr) := read_string range istr
    (Error.Ok,
      { hdr := hdr, m_item_ID := m_item_ID, m_item_protection_index := m_item_protection_index,
        m_item_name := m_item_name, m_content_type := m_content_type,
        m_content_encoding := m_content_encoding }, range, istr)
  else
    let (m_item_ID, range, istr) :=
      if hdr.m_version = 2 then read16 range istr
      else
        let (v, range, istr) := read32 range istr
        (v % 2 ^ 16, range, istr)
    let (m_item_protection_index, range, istr) := read16 range istr
    let (item_type, range, istr) := read32 range istr
    let (m_item_type, range, istr) :=
      if item_type ≠ 0 then
        let (v, range, istr) := read32 range istr
        (to_fourcc v, range, istr)
      else ([], range, istr)
    let (m_item_name, range, istr) := read_string range istr
    if item_type = fourcc "mime" then
      let (m_content_type, range, istr) := read_string range istr
      let (m_content_encoding, range, istr) := read_string range istr
      (Error.Ok,
        { hdr := hdr, m_item_ID := m_item_ID,
          m_item_protection_index := m_item_protection_index, m_item_type := m_item_type,
          m_item_name := m_item_name, m_content_type := m_content_type,
          m_content_encoding := m_content_encoding }, range, istr)
    else if item_type = fourcc "uri " then
      let (m_item_uri_type, range, istr) := read_string range istr
      (Error.Ok,
        { hdr := hdr, m_item_ID := m_item_ID,
          m_item_protection_index := m_item_protection_index, m_item_type := m_item_type,
          m_item_name := m_item_name, m_item_uri_type := m_item_uri_type }, range, istr)
    else
      (Error.Ok,
        { hdr := hdr, m_item_ID := m_item_ID,
          m_item_protection_index := m_item_protection_index, m_item_type := m_item_type,
          m_item_name := m_item_name }, range, istr)

/-- An extent of an `iloc` item (`Box_iloc::Extent`). -/
structure Extent where
  offset : Nat
  length : Nat
  deriving DecidableEq

/-- An `iloc` item (`Box_iloc::Item`). -/
structure Item where
  item_ID : Nat
  data_reference_index : Nat
  base_offset : Nat
  extents : List Extent
  deriving DecidableEq

/-- The fields of `Box_iloc`. -/
structure Box_iloc where
  hdr : BoxHeader
  m_items : List Item
  deriving DecidableEq

/-- The field read that `Box_iloc::parse` repeats for the base offset, the
extent offset and the extent length: 32 bits for the width code 4, 64 bits (two
32-bit reads) for 8, and 0 without a read for any other code. -/
def Box_iloc.read_sized (size : Nat) (range : List BitstreamRange) (istr : IStream) :
    Nat × List BitstreamRange × IStream :=
  if size = 4 then read32 range istr
  else if size = 8 then
    let (high, range, istr) := read32 range istr
    let (low, range, istr) := read32 range istr
    (((high <<< 32) % 2 ^ 64) ||| low, range, istr)
  else (0, range, istr)

/-- The loop `for (int e=0;e<extent_count;e++)` of `Box_iloc::parse`. -/
def Box_iloc.parse_extents (offset_size length_size : Nat) :
    Nat → List Extent → List BitstreamRange → IStream →
    List Extent × List BitstreamRange × IStream
  | 0, extents, range, istr => (extents, range, istr)
  | k + 1, extents, range, istr =>
    let (offset, range, istr) := Box_iloc.read_sized offset_size range istr
    let (length, range, istr) := Box_iloc.read_sized length_size range istr
    Box_iloc.parse_extents offset_size length_size k
      (extents ++ [{ offset := offset, length := length }]) range istr

/-- The loop `for (int i=0;i<item_count;i++)` of `Box_iloc::parse`. -/
def Box_iloc.parse_items (offset_size length_size base_offset_size : Nat) :
    Nat → List Item → List BitstreamRange → IStream →
    List Item × List BitstreamRange × IStream
  | 0, m_items, range, istr => (m_items, range, istr)
  | k + 1, m_items, range, istr =>
    let (item_ID, range, istr) := read16 range istr
    let (data_reference_index, range, istr) := read16 range istr
    let (base_offset, range, istr) := Box_iloc.read_sized base_offset_size range istr
    let (extent_count, range, istr) := read16 range istr
    let (extents, range, istr) :=
      Box_iloc.parse_extents offset_size length_size extent_count [] range istr
    let item : Item :=
      { item_ID := item_ID, data_reference_index := data_reference_index,
        base_offset := base_offset, extents := extents }
    Box_iloc.parse_items offset_size length_size base_offset_size k
      (if !BitstreamRange.error range then m_items ++ [item] else m_items) range istr

/-- Model of `Box_iloc::parse(range)` (box.cc:516-584). -/
def Box_iloc.parse (hdr : BoxHeader) (range : List BitstreamRange) (istr : IStream) :
    Error × Box_iloc × List BitstreamRange × IStream :=
  let (_, hdr, range, istr) := hdr.parse_full_box_header range istr
  let (values4, range, istr) := read16 range istr
  let offset_size := (values4 >>> 12) &&& 0xF
  let length_size := (values4 >>> 8) &&& 0xF
  let base_offset_size := (values4 >>> 4) &&& 0xF
  let (item_count, range, istr) := read16 range istr
  let (m_items, range, istr) :=
    Box_iloc.parse_items offset_size length_size base_offset_size item_count [] range istr
  (Error.Ok, { hdr := hdr, m_items := m_items }, range, istr)

/-- A NAL unit array of `Box_hvcC` (`Box_hvcC::NalArray`). -/
structure NalArray where
  m_array_completeness : Nat
  m_NAL_unit_type : Nat
  m_nal_units : List (List Nat)
  deriving DecidableEq

/-- The fields of `Box_hvcC`. -/
structure Box_hvcC where
  hdr : BoxHeader
  m_configuration_version : Nat
  m_general_profile_space : Nat
  m_general_tier_flag : Bool
  m_general_profile_idc : Nat
  m_general_profile_compatibility_flags : Nat
  m_general_constraint_indicator_flags : List Bool
  m_general_level_idc : Nat
  m_min_spatial_segmentation_idc : Nat
  m_parallelism_type : Nat
  m_chroma_format : Nat
  m_bit_depth_luma : Nat
  m_bit_depth_chroma : Nat
  m_avg_frame_rate : Nat
  m_constant_frame_rate : Nat
  m_num_temporal_layers : Nat
  m_temporal_id_nested : Nat
  m_length_size : Nat
  m_nal_array : List NalArray
  deriving DecidableEq

/-- The loop `for (int i=0; i<6; i++)` of `Box_hvcC::parse` with its inner loop
over the bits: the flags `8*i .. 8*i+7` are the bits of byte `i`, the most
significant first. The array has 48 entries and all are assigned, in order. -/
def Box_hvcC.parse_constraint_flags : Nat → List Bool → List BitstreamRange → IStream →
    List Bool × List BitstreamRange × IStream
  | 0, flags, range, istr => (flags, range, istr)
  | k + 1, flags, range, istr =>
    let (v, range, istr) := read8 range istr
    let byte := v % 2 ^ 8
    Box_hvcC.parse_constraint_flags k
      (flags ++ (List.range 8).map (fun b => decide ((byte >>> (7 - b)) &&& 1 ≠ 0))) range istr

/-- The loop `for (int u=0; u<nUnits; u++)` of `Box_hvcC::parse`. -/
def Box_hvcC.parse_units : Nat → List (List Nat) → List BitstreamRange → IStream →
    List (List Nat) × List BitstreamRange × IStream
  | 0, units, range, istr => (units, range, istr)
  | k + 1, units, range, istr =>
    let (size, range, istr) := read16 range istr
    let (ok, range, istr) := BitstreamRange.read range (size : Int) istr
    if ok then
      let (nal_unit, istr) := istr.read size
      Box_hvcC.parse_units k (units ++ [nal_unit]) range istr
    else Box_hvcC.parse_units k (units ++ [[]]) range istr

/-- The loop `for (int i=0; i<nArrays; i++)` of `Box_hvcC::parse`. -/
def Box_hvcC.parse_arrays : Nat → List NalArray → List BitstreamRange → IStream →
    List NalArray × List BitstreamRange × IStream
  | 0, arrays, range, istr => (arrays, range, istr)
  | k + 1, arrays, range, istr =>
    let (v, range, istr) := read8 range istr
    let byte := v % 2 ^ 8
    let (nUnits, range, istr) := read16 range istr
    let (units, range, istr) := Box_hvcC.parse_units nUnits [] range istr
    Box_hvcC.parse_arrays k
      (arrays ++ [{ m_array_completeness := (byte >>> 6) &&& 1,
                    m_NAL_unit_type := byte &&& 0x3F, m_nal_units := units }]) range istr

/-- Model of `Box_hvcC::parse(range)` (box.cc:799-866). -/
def Box_hvcC.parse (hdr : BoxHeader) (range : List BitstreamRange) (istr : IStream) :
    Error × Box_hvcC × List BitstreamRange × IStream :=
  let (v, range, istr) := read8 range istr
  let m_configuration_version := v % 2 ^ 8
  let (v, range, istr) := read8 range istr
  let byte := v % 2 ^ 8
  let m_general_profile_space := (byte >>> 6) &&& 3
  let m_general_tier_flag := decide ((byte >>> 5) &&& 1 ≠ 0)
  let m_general_profile_idc := byte &&& 0x1F
  let (m_general_profile_compatibility_flags, range, istr) := read32 range istr
  let (flags, range, istr) := Box_hvcC.parse_constraint_flags 6 [] range istr
  let (v, range, istr) := read8 range istr
  let m_general_level_idc := v % 2 ^ 8
  let (v, range, istr) := read16 range istr
  let m_min_spatial_segmentation_idc := v &&& 0x0FFF
  let (v, range, istr) := read8 range istr
  let m_parallelism_type := v &&& 0x03
  let (v, range, istr) := read8 range istr
  let m_chroma_format := v &&& 0x03
  let (v, range, istr) := read8 range istr
  let m_bit_depth_luma := (v &&& 0x07) + 8
  let (v, range, istr) := read8 range istr
  let m_bit_depth_chroma := (v &&& 0x07) + 8
  let (m_avg_frame_rate, range, istr) := read16 range istr
  let (v, range, istr) := read8 range istr
  let byte := v % 2 ^ 8
  let m_constant_frame_rate := (byte >>> 6) &&& 0x03
  let m_num_temporal_layers := (byte >>> 3) &&& 0x07
  let m_temporal_id_nested := (byte >>> 2) &&& 1
  let m_length_size := (byte &&& 0x03) + 1
  let (nArrays, range, istr) := read8 range istr
  let (m_nal_array, range, istr) := Box_hvcC.parse_arrays nArrays [] range istr
  let (range, istr) := BitstreamRange.skip_to_end_of_box range istr
  (BitstreamRange.get_error range,
    { hdr := hdr, m_configuration_version := m_configuration_version,
      m_general_profile_space := m_general_profile_space,
      m_general_tier_flag := m_general_tier_flag,
      m_general_profile_idc := m_general_profile_idc,
      m_general_profile_compatibility_flags := m_general_profile_compatibility_flags,
      m_general_constraint_indicator_flags := flags,
      m_general_level_idc := m_general_level_idc,
      m_min_spatial_segmentation_idc := m_min_spatial_segmentation_idc,
      m_parallelism_type := m_parallelism_type, m_chroma_format := m_chroma_format,
      m_bit_depth_luma := m_bit_depth_luma, m_bit_depth_chroma := m_bit_depth_chroma,
      m_avg_frame_rate := m_avg_frame_rate, m_constant_frame_rate := m_constant_frame_rate,
      m_num_temporal_layers := m_num_temporal_layers,
      m_temporal_id_nested := m_temporal_id_nested, m_length_size := m_length_size,
      m_nal_array := m_nal_array }, range, istr)

/-- A decoded box: the object that `Box::read` creates for a header. The
containers own the child boxes that `read_children` collected; the list of
children of the other variants is never filled and is left out. -/
inductive Box where
  | generic (hdr : BoxHeader)
  | ftyp (box : Box_ftyp)
  | meta (hdr : BoxHeader) (m_children : List Box)
  | hdlr (box : Box_hdlr)
  | pitm (box : Box_pitm)
  | iloc (box : Box_iloc)
  | iinf (hdr : BoxHeader) (m_children : List Box)
  | infe (box : Box_infe)
  | iprp (hdr : BoxHeader) (m_children : List Box)
  | ipco (hdr : BoxHeader) (m_children : List Box)
  | ispe (box : Box_ispe)
  | hvcC (box : Box_hvcC)

/-- The result of a decoding step that may run out of recursion fuel (`none`):
a value, the range with its ancestors, and the stream. -/
abbrev Step (α : Type) : Type := Option (α × List BitstreamRange × IStream)

/-- Model of `Box_meta::parse(range)` (box.cc:437-454); `read_children` is the
member function, applied to the still empty list of children. -/
def Box_meta.parse (read_children : List BitstreamRange → IStream → Step (List Box))
    (hdr : BoxHeader) (range : List BitstreamRange) (istr : IStream) : Step Box :=
  let (_, hdr, range, istr) := hdr.parse_full_box_header range istr
  match read_children range istr with
  | none => none
  | some (m_children, range, istr) => some (Box.meta hdr m_children, range, istr)

/-- Model of `Box_iinf::parse(range)` (box.cc:703-720); the item count is read
and not used. -/
def Box_iinf.parse (read_children : List BitstreamRange → IStream → Step (List Box))
    (hdr : BoxHeader) (range : List BitstreamRange) (istr : IStream) : Step Box :=
  let (_, hdr, range, istr) := hdr.parse_full_box_header range istr
  let (_, range, istr) := if hdr.m_version > 0 then read32 range istr else read16 range istr
  match read_children range istr with
  | none => none
  | some (m_children, range, istr) => some (Box.iinf hdr m_children, range, istr)

/-- Model of `Box_iprp::parse(range)` (box.cc:734-741). -/
def Box_iprp.parse (read_children : List BitstreamRange → IStream → Step (List Box))
    (hdr : BoxHeader) (range : List BitstreamRange) (istr : IStream) : Step Box :=
  match read_children range istr with
  | none => none
  | some (m_children, range, istr) => some (Box.iprp hdr m_children, range, istr)

/-- Model of `Box_ipco::parse(range)` (box.cc:755-762). -/
def Box_ipco.parse (read_children : List BitstreamRange → IStream → Step (List Box))
    (hdr : BoxHeader) (range : List BitstreamRange) (istr : IStream) : Step Box :=
  match read_children range istr with
  | none => none
  | some (m_children, range, istr) => some (Box.ipco hdr m_children, range, istr)

/-- The `switch` of `Box::read` together with the virtual call `box->parse`:
the body decoder selected by the type code of the header, run on the range of
the box. -/
def Box.dispatch (read_children : List BitstreamRange → IStream → Step (List Box))
    (hdr : BoxHeader) (boxrange : List BitstreamRange) (istr : IStream) : Step Box :=
  if hdr.m_type = fourcc "ftyp" then
    let (_, box, boxrange, istr) := Box_ftyp.parse hdr boxrange istr
    some (Box.ftyp box, boxrange, istr)
  else if hdr.m_type = fourcc "meta" then Box_meta.parse read_children hdr boxrange istr
  else if hdr.m_type = fourcc "hdlr" then
    let (_, box, boxrange, istr) := Box_hdlr.parse hdr boxrange istr
    some (Box.hdlr box, boxrange, istr)
  else if hdr.m_type = fourcc "pitm" then
    let (_, box, boxrange, istr) := Box_pitm.parse hdr boxrange istr
    some (Box.pitm box, boxrange, istr)
  else if hdr.m_type = fourcc "iloc" then
    let (_, box, boxrange, istr) := Box_iloc.parse hdr boxrange istr
    some (Box.iloc box, boxrange, istr)
  else if hdr.m_type = fourcc "iinf" then Box_iinf.parse read_children hdr boxrange istr
  else if hdr.m_type = fourcc "infe" then
    let (_, box, boxrange, istr) := Box_infe.parse hdr boxrange istr
    some (Box.infe box, boxrange, istr)
  else if hdr.m_type = fourcc "iprp" then Box_iprp.parse read_children hdr boxrange istr
  else if hdr.m_type = fourcc "ipco" then Box_ipco.parse read_children hdr boxrange istr
  else if hdr.m_type = fourcc "ispe" then
    let (_, box, boxrange, istr) := Box_ispe.parse hdr boxrange istr
    some (Box.ispe box, boxrange, istr)
  else if hdr.m_type = fourcc "hvcC" then
    let (_, box, boxrange, istr) := Box_hvcC.parse hdr boxrange istr
    some (Box.hvcC box, boxrange, istr)
  else
    let (_, boxrange, istr) := Box.parse hdr boxrange istr
    some (Box.generic hdr, boxrange, istr)

mutual

/-- Model of `Box::read(range)` (box.cc:269-337): `none` inside the result is the
null pointer. The range of the box is created on top of `range` and dropped
when the body decoder returns. The first argument bounds the recursion. -/
def Box.read : Nat → List BitstreamRange → IStream → Step (Option Box)
  | 0, _, _ => none
  | fuel + 1, range, istr =>
    let (_, hdr, range, istr) := BoxHeader.parse {} range istr
    if BitstreamRange.error range then some (none, range, istr)
    else
      let boxrange := BitstreamRange.new hdr.content_size range
      match Box.dispatch (Box.read_children fuel []) hdr boxrange istr with
      | none => none
      | some (box, boxrange, istr) => some (some box, boxrange.tail, istr)

/-- Model of `Box::read_children(range)` (box.cc:362-373); the second argument
is `m_children`. -/
def Box.read_children : Nat → List Box → List BitstreamRange → IStream → Step (List Box)
  | 0, _, _, _ => none
  | fuel + 1, m_children, range, istr =>
    if BitstreamRange.eof range then some (m_children, range, istr)
    else
      match Box.read fuel range istr with
      | none => none
      | some (some box, range, istr) =>
        Box.read_children fuel (m_children ++ [box]) range istr
      | some (none, range, istr) => Box.read_children fuel m_children range istr

end

/-! ## Reconstruction of the elementary stream (box.cc:609-642, 933-948) -/

/-- Model of `Box_hvcC::get_headers()` (box.cc:933-948): the two nested loops
append to `data`, three `push_back` calls and one `insert` per unit. -/
def Box_hvcC.get_headers (box : Box_hvcC) : List Nat :=
  box.m_nal_array.foldl
    (fun data array =>
      array.m_nal_units.foldl (fun data unit => (((data ++ [0]) ++ [0]) ++ [1]) ++ unit) data)
    []

/-- Model of `istr.seekg(off, std::ios::beg)`: no effect in the fail state; a
negative target (or, for a strict buffer, one past the end) sets the fail
state and leaves the cursor. -/
def IStream.seekg_beg (s : IStream) (off : Int) : IStream :=
  if s.failbit then s
  else if off < 0 then { s with failbit := true }
  else if s.strict_seek && decide ((s.size : Int) < off) then { s with failbit := true }
  else { s with pos := off.toNat }

/-- One pass of the `for (;;)` loop of `Box_iloc::read_all_data` (box.cc:619-637)
up to the update of `bytes_read`: the start code, the 32-bit length, the
payload. No read is checked. `size32 + 4` is computed in 32-bit unsigned
arithmetic before it is added to the 64-bit counter. The buffer `size` is not
initialised in the source; after a failed read it is taken as zero here. -/
def Box_iloc.read_unit (data : List Nat) (istr : IStream) (bytes_read : Nat) :
    List Nat × IStream × Nat :=
  let data := ((data ++ [0]) ++ [0]) ++ [1]
  let (size, istr) := istr.read 4
  let size32 :=
    ((size.getD 0 0 <<< 24) ||| (size.getD 1 0 <<< 16) ||| (size.getD 2 0 <<< 8) |||
      size.getD 3 0) % 2 ^ 32
  let (payload, istr) := istr.read size32
  (data ++ payload, istr, (bytes_read + (size32 + 4) % 2 ^ 32) % 2 ^ 64)

/-- The `for (;;)` loop of `Box_iloc::read_all_data` for one extent of length
`length`; the first argument bounds the number of passes (`none`: more passes
are needed). -/
def Box_iloc.read_extent : Nat → Nat → List Nat → IStream → Nat → Option (List Nat × IStream)
  | 0, _, _, _, _ => none
  | fuel + 1, length, data, istr, bytes_read =>
    let (data, istr, bytes_read) := Box_iloc.read_unit data istr bytes_read
    if bytes_read ≥ length then some (data, istr)
    else Box_iloc.read_extent fuel length data istr bytes_read

/-- The loop over the extents of one item in `Box_iloc::read_all_data`. -/
def Box_iloc.read_extents (fuel : Nat) (item : Item) :
    List Extent → List Nat → IStream → Option (List Nat × IStream)
  | [], data, istr => some (data, istr)
  | extent :: extents, data, istr =>
    match Box_iloc.read_extent fuel extent.length data
        (istr.seekg_beg (to_streamoff ((extent.offset + item.base_offset) % 2 ^ 64))) 0 with
    | none => none
    | some (data, istr) => Box_iloc.read_extents fuel item extents data istr

/-- The loop over the items in `Box_iloc::read_all_data`. -/
def Box_iloc.read_items (fuel : Nat) :
    List Item → List Nat → IStream → Option (List Nat × IStream)
  | [], data, istr => some (data, istr)
  | item :: items, data, istr =>
    match Box_iloc.read_extents fuel item item.extents data istr with
    | none => none
    | some (data, istr) => Box_iloc.read_items fuel items data istr

/-- Model of `Box_iloc::read_all_data(istr)` (box.cc:609-642): the data and the
stream afterwards; `fuel` bounds the passes of the inner loop per extent. -/
def Box_iloc.read_all_data (fuel : Nat) (box : Box_iloc) (istr : IStream) :
    Option (List Nat × IStream) :=
  Box_iloc.read_items fuel box.m_items [] istr

/-! ## Definitions used to state the properties -/

/-- A range after `n` bytes were debited by a successful `read`. -/
def BitstreamRange.debit (n : Nat) (r : BitstreamRange) : BitstreamRange :=
  { m_remaining := r.m_remaining - n, m_end_reached := decide (r.m_remaining - n = 0),
    m_error := r.m_error }

/-- The range and every range enclosing it have a budget of at least `n`
bytes. -/
def BitstreamRange.covers (range : List BitstreamRange) (n : Nat) : Prop :=
  range ≠ [] ∧ ∀ q ∈ range, n ≤ q.m_remaining

instance (range : List BitstreamRange) (n : Nat) : Decidable (BitstreamRange.covers range n) := by
  unfold BitstreamRange.covers; infer_instance

/-- A sequence of `read` calls on the same range. -/
def BitstreamRange.read_seq : List BitstreamRange → List Int → IStream →
    List BitstreamRange × IStream
  | range, [], istr => (range, istr)
  | range, n :: ns, istr =>
    BitstreamRange.read_seq (BitstreamRange.read range n istr).2.1 ns
      (BitstreamRange.read range n istr).2.2

/-- The big-endian value of a sequence of bytes. -/
def be (l : List Nat) : Nat := l.foldl (fun acc b => acc * 256 + b) 0

/-- The stream with the cursor moved forward by `n`. -/
def IStream.advance (s : IStream) (n : Nat) : IStream := { s with pos := s.pos + n }

/-- The stream is not in the fail state and holds `n` more bytes at the cursor. -/
def IStream.avail (s : IStream) (n : Nat) : Prop :=
  s.failbit = false ∧ s.pos + n ≤ s.size

instance (s : IStream) (n : Nat) : Decidable (IStream.avail s n) := by
  unfold IStream.avail; infer_instance

/-- A source holding the bytes `l`, with the cursor at the start. -/
def IStream.of_list (l : List Nat) : IStream :=
  { data := fun i => l.getD i 0, size := l.length, pos := 0, failbit := false,
    strict_seek := false }

/-- The last step of `BoxHeader::parse`, the read of the extended type, on the
header built so far. -/
def BoxHeader.parse_uuid (hdr : BoxHeader) (range : List BitstreamRange) (istr : IStream) :
    Error × BoxHeader × List BitstreamRange × IStream :=
  if hdr.m_type = fourcc "uuid" then
    if (BitstreamRange.read range 16 istr).1 = true then
      (BitstreamRange.get_error (BitstreamRange.read range 16 istr).2.1,
        { hdr with m_uuid_type := ((BitstreamRange.read range 16 istr).2.2.read 16).1,
                   m_header_size := hdr.m_header_size + 16 },
        (BitstreamRange.read range 16 istr).2.1,
        ((BitstreamRange.read range 16 istr).2.2.read 16).2)
    else
      (BitstreamRange.get_error (BitstreamRange.read range 16 istr).2.1,
        { hdr with m_header_size := hdr.m_header_size + 16 },
        (BitstreamRange.read range 16 istr).2.1, (BitstreamRange.read range 16 istr).2.2)
  else (BitstreamRange.get_error range, hdr, range, istr)

/-- The length of the box header that starts at the cursor: 8 bytes, 8 more when
the size field is 1, 16 more when the type is `uuid`. -/
def BoxHeader.encoded_size (s : IStream) : Nat :=
  8 + (if be (s.bytes s.pos 4) = 1 then 8 else 0) +
    (if be (s.bytes (s.pos + 4) 4) = fourcc "uuid" then 16 else 0)

/-- The source holds the bytes `l` from position `p` on. -/
def IStream.holds (s : IStream) (p : Nat) (l : List Nat) : Prop :=
  s.bytes p l.length = l

instance (s : IStream) (p : Nat) (l : List Nat) : Decidable (IStream.holds s p l) := by
  unfold IStream.holds; infer_instance

/-- The children of a container box (`m_children`). -/
def Box.children : Box → List Box
  | .meta _ c => c
  | .iinf _ c => c
  | .iprp _ c => c
  | .ipco _ c => c
  | _ => []

/-- Whether the box is of the generic variant (class `Box` itself). -/
def Box.is_generic : Box → Bool
  | .generic _ => true
  | _ => false

/-- The compatible brands of an `ftyp` box. -/
def Box.compatible_brands : Box → List Nat
  | .ftyp b => b.m_compatible_brands
  | _ => []

/-- The item ID of a `pitm` box. -/
def Box.pitm_item_ID : Box → Option Nat
  | .pitm b => some b.m_item_ID
  | _ => none

/-- A file of 32 bytes: an `iprp` box of declared size 24 (bytes 0..23) whose
content is an `ftyp` box that also declares the size 24 and so claims the 8
bytes after the end of the `iprp` box; bytes 24..31 are the header of a
following top-level box of type `free` and size 8. -/
def file_nested_overrun : List Nat :=
  [0, 0, 0, 24, 105, 112, 114, 112,
   0, 0, 0, 24, 102, 116, 121, 112, 1, 2, 3, 4, 5, 6, 7, 8,
   0, 0, 0, 8, 102, 114, 101, 101]

/-- The same file with another box after the `iprp` box (type `skip`, size 9). -/
def file_nested_overrun_alt : List Nat :=
  [0, 0, 0, 24, 105, 112, 114, 112,
   0, 0, 0, 24, 102, 116, 121, 112, 1, 2, 3, 4, 5, 6, 7, 8,
   0, 0, 0, 9, 115, 107, 105, 112]

/-- A source of `2^31 + 16` bytes: a box of the unknown type `mdat` with the
declared size `2^31 + 8` (header `80 00 00 08 'mdat'`, content all zero),
followed by a box of type `free` and size 8. -/
def file_huge_box : IStream :=
  { data := fun i =>
      if i < 8 then [0x80, 0, 0, 8, 109, 100, 97, 116].getD i 0
      else if i < 2 ^ 31 + 8 then 0
      else [0, 0, 0, 8, 102, 114, 101, 101].getD (i - (2 ^ 31 + 8)) 0,
    size := 2 ^ 31 + 16, pos := 0, failbit := false, strict_seek := false }

/-- A file of 24 bytes: a `pitm` box of declared size 16 (full box header, item
ID 1, and two more content bytes), followed by a box of type `free` and size
8. -/
def file_pitm_trailing : List Nat :=
  [0, 0, 0, 16, 112, 105, 116, 109, 0, 0, 0, 0, 0, 1, 0xAA, 0xBB,
   0, 0, 0, 8, 102, 114, 101, 101]

/-- The content of an `infe` box of version 2: flags 0, item ID 1, protection
index 0, item type `hvc1`, item name `Name`. -/
def infe_body_v2 : List Nat :=
  [2, 0, 0, 0, 0, 1, 0, 0, 104, 118, 99, 49, 78, 97, 109, 101, 0]

/-- The header that a complete box header at the cursor stands for: the size
(from the 64-bit field when the 32-bit field is 1), the type, the extended type
of a `uuid` box, and the header length. -/
def BoxHeader.decoded (hdr0 : BoxHeader) (s : IStream) : BoxHeader :=
  { hdr0 with
    m_size :=
      if be (s.bytes s.pos 4) = 1 then
        be (s.bytes (s.pos + 8) 4) * 2 ^ 32 + be (s.bytes (s.pos + 12) 4)
      else be (s.bytes s.pos 4),
    m_type := be (s.bytes (s.pos + 4) 4),
    m_header_size := BoxHeader.encoded_size s,
    m_uuid_type :=
      if be (s.bytes (s.pos + 4) 4) = fourcc "uuid" then
        s.bytes (s.pos + (8 + (if be (s.bytes s.pos 4) = 1 then 8 else 0))) 16
      else hdr0.m_uuid_type }

/-- The type codes for which `Box::read` has a box class of its own. -/
def Box.known_types : List Nat :=
  [fourcc "ftyp", fourcc "meta", fourcc "hdlr", fourcc "pitm", fourcc "iloc", fourcc "iinf",
   fourcc "infe", fourcc "iprp", fourcc "ipco", fourcc "ispe", fourcc "hvcC"]

/-! ## Definitions used to state the properties (second part) -/

/-- The chain `range'` is the chain `range` after debits of `n` bytes in all:
every range has `n` bytes less and the same error flag. -/
def BitstreamRange.debited (n : Nat) (range range' : List BitstreamRange) : Prop :=
  List.Forall₂ (fun q q' => q'.m_remaining + n = q.m_remaining ∧ q'.m_error = q.m_error)
    range range'

/-- The bytes `l` are next at the cursor, the stream is not in the fail state,
and the budgets of the range and of the ranges enclosing it cover them. -/
def ready (range : List BitstreamRange) (s : IStream) (l : List Nat) : Prop :=
  BitstreamRange.covers range l.length ∧ s.avail l.length ∧ s.holds s.pos l

instance (range : List BitstreamRange) (s : IStream) (l : List Nat) :
    Decidable (ready range s l) := by
  unfold ready; infer_instance

/-- The first 6 bytes of a box header (size 24, type `ft..`): a source that ends
inside the type field. -/
def file_truncated_header : List Nat := [0, 0, 0, 24, 102, 116]

/-- The content of an `iloc` box with one item, cut off inside the last field of
the item: version and flags 0, width selectors `04 00` (32-bit length, no
offset, no base offset), item count 1, item ID 7, data reference index 0,
extent count 1, and the first 2 of the 4 bytes of the extent length 50. -/
def iloc_body_truncated : List Nat :=
  [0, 0, 0, 0, 0x04, 0x00, 0, 1, 0, 7, 0, 0, 0, 1, 0, 0]

/-- The number of bytes of an `iloc` field with width selector `size`: 4 for the
selector 4, 8 for the selector 8, none for any other selector. -/
def Box_iloc.field_width (size : Nat) : Nat :=
  if size = 4 then 4 else if size = 8 then 8 else 0

/-- The second part of `Box_hvcC::parse`, from the read of the array count on, for
the box `box0` that holds the fields decoded before. -/
def Box_hvcC.parse_arrays_part (box0 : Box_hvcC) (range : List BitstreamRange)
    (istr : IStream) : Error × Box_hvcC × List BitstreamRange × IStream :=
  let (nArrays, range, istr) := read8 range istr
  let (m_nal_array, range, istr) := Box_hvcC.parse_arrays nArrays [] range istr
  let (range, istr) := BitstreamRange.skip_to_end_of_box range istr
  (BitstreamRange.get_error range, { box0 with m_nal_array := m_nal_array }, range, istr)

/-- The eight flags that `Box_hvcC::parse` takes from one constraint byte, the
most significant bit first. -/
def Box_hvcC.byte_flags (byte : Nat) : List Bool :=
  (List.range 8).map (fun b => decide (byte / 2 ^ (7 - b) % 2 = 1))

/-- The layout of the NAL units of one array in an `hvcC` box: for each unit the
16-bit big-endian length, then the bytes of the unit. -/
def hvcC_units_layout (units : List (List Nat)) : List Nat :=
  units.flatMap (fun unit => [unit.length / 256, unit.length % 256] ++ unit)

/-- The layout of the NAL arrays of an `hvcC` box: for each array the header
byte, the 16-bit big-endian number of units, then the units. -/
def hvcC_arrays_layout (arrays : List (Nat × List (List Nat))) : List Nat :=
  arrays.flatMap (fun array =>
    [array.1] ++ ([array.2.length / 256, array.2.length % 256] ++ hvcC_units_layout array.2))

/-- The box that `Box_hvcC::parse` has built when it reaches the array count: the
fields computed from the 22 bytes of the fixed part (configuration version
`cv`, profile byte `b1`, the 4 compatibility bytes `pc`, the 6 constraint bytes
`cs`, level `lvl`, the 2 segmentation bytes `ms`, the bytes `par`, `cf`, `bl`,
`bc`, the 2 frame rate bytes `fr` and the byte `last`), and no array yet. -/
def Box_hvcC.after_fixed_part (hdr : BoxHeader) (cv b1 : Nat) (pc cs : List Nat) (lvl : Nat)
    (ms : List Nat) (par cf bl bc : Nat) (fr : List Nat) (last : Nat) : Box_hvcC :=
  { hdr := hdr, m_configuration_version := cv % 2 ^ 8,
    m_general_profile_space := ((b1 % 2 ^ 8) >>> 6) &&& 3,
    m_general_tier_flag := decide ((((b1 % 2 ^ 8) >>> 5) &&& 1) ≠ 0),
    m_general_profile_idc := (b1 % 2 ^ 8) &&& 0x1F,
    m_general_profile_compatibility_flags := be pc,
    m_general_constraint_indicator_flags := cs.flatMap Box_hvcC.byte_flags,
    m_general_level_idc := lvl % 2 ^ 8,
    m_min_spatial_segmentation_idc := be ms &&& 0x0FFF,
    m_parallelism_type := par &&& 0x03, m_chroma_format := cf &&& 0x03,
    m_bit_depth_luma := (bl &&& 0x07) + 8, m_bit_depth_chroma := (bc &&& 0x07) + 8,
    m_avg_frame_rate := be fr,
    m_constant_frame_rate := ((last % 2 ^ 8) >>> 6) &&& 0x03,
    m_num_temporal_layers := ((last % 2 ^ 8) >>> 3) &&& 0x07,
    m_temporal_id_nested := ((last % 2 ^ 8) >>> 2) &&& 1,
    m_length_size := ((last % 2 ^ 8) &&& 0x03) + 1,
    m_nal_array := [] }

/-- The 23 bytes of an `hvcC` content with the profile byte `b1` and the constraint
bytes `c`: configuration version 1, level 93, 8-bit depths, one temporal layer,
and no NAL array. -/
def hvcC_body (b1 c : Nat) : List Nat :=
  [1, b1, 0, 0, 0, 1, c, c, c, c, c, c, 93, 0xF0, 0, 0xFC, 0xFD, 0xF8, 0xF8, 0, 0, 0x0F, 0]

/-- The array a well-formed `hvcC` stream describes with the header byte `array.1` and
the units `array.2`. -/
def hvcC_array_of (array : Nat × List (List Nat)) : NalArray :=
  { m_array_completeness := array.1 / 64 % 2, m_NAL_unit_type := array.1 % 64,
    m_nal_units := array.2 }

/-- A source of `2^32` bytes holding one unit: the length prefix `FF FF FF FC` and
`2^32 - 4` payload bytes (all zero). -/
def iloc_source_4GiB : IStream :=
  { data := fun i => if i < 4 then [0xFF, 0xFF, 0xFF, 0xFC].getD i 0 else 0, size := 2 ^ 32,
    pos := 0, failbit := false, strict_seek := false }

/-- An `infe` content of version 3 with the item ID field `00 01 00 02`, the item
type `hvc1` and the name `A`. -/
def infe_body_v3 : List Nat :=
  [3, 0, 0, 0, 0, 1, 0, 2, 0, 0, 104, 118, 99, 49, 104, 118, 99, 49, 65, 0]

/-- A file of 40 bytes: an `hvcC` box of declared size 33 (8 header bytes, the 23
bytes of a content without NAL arrays, 2 trailing bytes) and 7 more bytes. -/
def file_hvcC_trailing : List Nat :=
  [0, 0, 0, 33, 104, 118, 99, 67] ++ hvcC_body 0xA5 0xFF ++ [0xEE, 0xEE] ++
    [0, 0, 0, 7, 102, 114, 101]

/-- The member functions of `BitstreamRange` that change the object. -/
inductive RangeCall where
  | read (n : Int)
  | skip_to_end_of_box
  | skip_to_end_of_file
  | set_eof_reached

/-- One call of a member function on the range heading the chain. -/
def BitstreamRange.call (c : RangeCall) (range : List BitstreamRange) (s : IStream) :
    List BitstreamRange × IStream :=
  match c with
  | .read n => (BitstreamRange.read range n s).2
  | .skip_to_end_of_box => BitstreamRange.skip_to_end_of_box range s
  | .skip_to_end_of_file => BitstreamRange.skip_to_end_of_file range s
  | .set_eof_reached => (BitstreamRange.set_eof_reached range, s)

/-- A sequence of calls on the range heading the chain, first call first. -/
def BitstreamRange.calls : List RangeCall → List BitstreamRange → IStream →
    List BitstreamRange × IStream
  | [], range, s => (range, s)
  | c :: cs, range, s =>
    BitstreamRange.calls cs (BitstreamRange.call c range s).1 (BitstreamRange.call c range s).2

/-- The flags of a range agree with its budget: `eof()` holds exactly when nothing
remains, and `error()` only when nothing remains. -/
def BitstreamRange.consistent (r : BitstreamRange) : Prop :=
  (r.m_end_reached = true ↔ r.m_remaining = 0) ∧ (r.m_error = true → r.m_remaining = 0)

instance (r : BitstreamRange) : Decidable (BitstreamRange.consistent r) := by
  unfold BitstreamRange.consistent; infer_instance

/-- A file of 47 bytes: the header of an `ipco` box of declared size 55, then an
`hvcC` box with the 64-bit size `2^64 - 8` (16 header bytes) and the 23 bytes of
a content without NAL arrays. -/
def file_nesting_cycle : List Nat :=
  [0, 0, 0, 55, 105, 112, 99, 111] ++
    [0, 0, 0, 1, 104, 118, 99, 67, 0xFF, 0xFF, 0xFF, 0xFF, 0xFF, 0xFF, 0xFF, 0xF8] ++
    hvcC_body 0xA5 0xFF

/-- The chain `front` on top of an exhausted range (nothing left, at EOF, error flag
`e`) with the ancestors `rest`. -/
def BitstreamRange.sealed (front : List BitstreamRange) (e : Bool)
    (rest : List BitstreamRange) : List BitstreamRange :=
  front ++ ({ m_remaining := 0, m_end_reached := true, m_error := e } :: rest)

/-- The bytes of a sequence of units of an extent: per unit a 32-bit big-endian length
and the payload. -/
def iloc_units_layout (units : List (List Nat)) : List Nat :=
  units.flatMap (fun unit =>
    [unit.length / 2 ^ 24 % 256, unit.length / 2 ^ 16 % 256, unit.length / 2 ^ 8 % 256,
      unit.length % 256] ++ unit)

/-- The elementary stream of a sequence of units: per unit the start code `00 00 01` and
the payload. -/
def iloc_units_output (units : List (List Nat)) : List Nat :=
  units.flatMap (fun unit => [0, 0, 1] ++ unit)

/-- The extent `extent` of `item` lies in the source `s` and consists of the units
`units`: one or more, each with a payload shorter than `2^32 - 4` bytes, of total size
`extent.length`. -/
def Box_iloc.extent_holds (s : IStream) (item : Item) (extent : Extent)
    (units : List (List Nat)) : Prop :=
  units ≠ [] ∧ (∀ unit ∈ units, unit.length < 2 ^ 32 - 4) ∧
  extent.length = (iloc_units_layout units).length ∧
  extent.offset + item.base_offset + extent.length ≤ s.size ∧
  s.holds (extent.offset + item.base_offset) (iloc_units_layout units)

/-! ## Integer conversions and the range reader -/

/-- A non-negative `int` keeps its value when converted to `uint64_t`. -/
theorem to_uint64_natCast (n : Nat) (h : n < 2 ^ 64) : to_uint64 (n : Int) = n := by
  unfold to_uint64
  have : ((n : Int) % 2 ^ 64) = (n : Int) := Int.emod_eq_of_lt (by omega) (by exact_mod_cast h)
  rw [this]; simp

/-- A `uint64_t` below `2^31` keeps its value when converted to `int`. -/
theorem to_int_of_lt (x : Nat) (h : x < 2 ^ 31) : to_int x = (x : Int) := by
  unfold to_int
  have h1 : x % 2 ^ 32 = x := Nat.mod_eq_of_lt (by omega)
  rw [h1, if_pos h]

/-- A `uint64_t` below `2^63` keeps its value when converted to `std::streamoff`. -/
theorem to_streamoff_of_lt (x : Nat) (h : x < 2 ^ 63) : to_streamoff x = (x : Int) := by
  unfold to_streamoff
  have h1 : x % 2 ^ 64 = x := Nat.mod_eq_of_lt (by omega)
  rw [h1, if_pos h]

/-- The first branch of `read`: the budget suffices. -/
theorem BitstreamRange.read_cons_le (r : BitstreamRange) (parent : List BitstreamRange)
    (n : Int) (s : IStream) (h : to_uint64 n ≤ r.m_remaining) :
    BitstreamRange.read (r :: parent) n s =
      (true,
        { m_remaining := r.m_remaining - to_uint64 n,
          m_end_reached := decide (r.m_remaining - to_uint64 n = 0),
          m_error := r.m_error } :: (BitstreamRange.read parent n s).2.1,
        (BitstreamRange.read parent n s).2.2) := by
  rw [BitstreamRange.read, if_pos h]

/-- The second branch of `read`: the budget is exhausted. -/
theorem BitstreamRange.read_cons_zero (r : BitstreamRange) (parent : List BitstreamRange)
    (n : Int) (s : IStream) (h : ¬ to_uint64 n ≤ r.m_remaining) (h0 : r.m_remaining = 0) :
    BitstreamRange.read (r :: parent) n s = (false, { r with m_error := true } :: parent, s) := by
  rw [BitstreamRange.read, if_neg h, if_pos h0]

/-- The third branch of `read`: the budget is positive and too small. -/
theorem BitstreamRange.read_cons_short (r : BitstreamRange) (parent : List BitstreamRange)
    (n : Int) (s : IStream) (h : ¬ to_uint64 n ≤ r.m_remaining) (h0 : r.m_remaining ≠ 0) :
    BitstreamRange.read (r :: parent) n s =
      (false,
        { m_remaining := 0, m_end_reached := true, m_error := true } ::
          (BitstreamRange.read parent (to_int r.m_remaining) s).2.1,
        (BitstreamRange.read parent (to_int r.m_remaining) s).2.2.seekg_cur
          (to_streamoff r.m_remaining)) := by
  rw [BitstreamRange.read, if_neg h, if_neg h0]

/-- When the range and all its ancestors have at least `n` bytes left, `read(n)` succeeds, debits each of them by `n` and leaves the stream alone. -/
theorem BitstreamRange.read_of_le (n : Nat) (hn : n < 2 ^ 64) (s : IStream) :
    ∀ (r : BitstreamRange) (parent : List BitstreamRange),
      (∀ q ∈ r :: parent, n ≤ q.m_remaining) →
      BitstreamRange.read (r :: parent) (n : Int) s
        = (true, (r :: parent).map (BitstreamRange.debit n), s) := by
  intro r parent
  induction parent generalizing r with
  | nil =>
    intro h
    have hr : n ≤ r.m_remaining := h r (by simp)
    simp [BitstreamRange.read, to_uint64_natCast n hn, hr, BitstreamRange.debit]
  | cons p ps ih =>
    intro h
    have hr : n ≤ r.m_remaining := h r (by simp)
    have ih2 := ih p (fun q hq => h q (List.mem_cons_of_mem _ hq))
    rw [BitstreamRange.read]
    simp only [to_uint64_natCast n hn, hr, if_true, ih2]
    simp [BitstreamRange.debit]

/-- One `read` on a chain of three nested budgets keeps the budgets nested, and debits all three by `n` when it succeeds. -/
theorem BitstreamRange.read_three_step (c p g : BitstreamRange) (n : Nat) (hn : n < 2 ^ 31)
    (s : IStream) (hcp : c.m_remaining ≤ p.m_remaining) (hpg : p.m_remaining ≤ g.m_remaining) :
    ∃ c2 p2 g2 : BitstreamRange,
      (BitstreamRange.read [c, p, g] (n : Int) s).2.1 = [c2, p2, g2] ∧
      c2.m_remaining ≤ p2.m_remaining ∧ p2.m_remaining ≤ g2.m_remaining ∧
      ((BitstreamRange.read [c, p, g] (n : Int) s).1 = true →
        c2.m_remaining + n = c.m_remaining ∧ p2.m_remaining + n = p.m_remaining ∧
        g2.m_remaining + n = g.m_remaining) := by
  have hu : to_uint64 (n : Int) = n := to_uint64_natCast n (by omega)
  by_cases h : n ≤ c.m_remaining
  · have hall : ∀ q ∈ [c, p, g], n ≤ q.m_remaining := by
      intro q hq
      simp only [List.mem_cons, List.mem_singleton, List.not_mem_nil, or_false] at hq
      rcases hq with rfl | rfl | rfl <;> omega
    rw [BitstreamRange.read_of_le n (by omega) s c [p, g] hall]
    refine ⟨BitstreamRange.debit n c, BitstreamRange.debit n p, BitstreamRange.debit n g,
      rfl, ?_, ?_, ?_⟩ <;> simp only [BitstreamRange.debit] <;> omega
  · by_cases h0 : c.m_remaining = 0
    · rw [BitstreamRange.read_cons_zero c [p, g] n s (by rw [hu]; exact h) h0]
      exact ⟨{ c with m_error := true }, p, g, rfl, hcp, hpg, fun hc => Bool.noConfusion hc⟩
    · rw [BitstreamRange.read_cons_short c [p, g] n s (by rw [hu]; exact h) h0]
      have hlt : c.m_remaining < 2 ^ 31 := by omega
      have hall : ∀ q ∈ [p, g], c.m_remaining ≤ q.m_remaining := by
        intro q hq
        simp only [List.mem_cons, List.mem_singleton, List.not_mem_nil, or_false] at hq
        rcases hq with rfl | rfl <;> omega
      rw [to_int_of_lt _ hlt, BitstreamRange.read_of_le c.m_remaining (by omega) s p [g] hall]
      refine ⟨⟨0, true, true⟩, BitstreamRange.debit c.m_remaining p,
        BitstreamRange.debit c.m_remaining g, rfl, ?_, ?_, fun hc => Bool.noConfusion hc⟩
      · exact Nat.zero_le _
      · simp only [BitstreamRange.debit]; omega

/-- Nested budgets: take a chain child -> parent -> grandparent in which the budget
of each range is at most the budget of its parent, and any sequence `ns` of
`read` calls on the child with counts below `2^31`. Then a further call
`read(n)` that succeeds debits the child, the parent and the grandparent by
exactly `n`. -/
theorem BitstreamRange.read_seq_nested (ns : List Nat) :
    ∀ (c p g : BitstreamRange) (s : IStream) (n : Nat),
      c.m_remaining ≤ p.m_remaining → p.m_remaining ≤ g.m_remaining →
      (∀ m ∈ ns, m < 2 ^ 31) → n < 2 ^ 31 →
      ∃ c1 p1 g1 c2 p2 g2 : BitstreamRange,
        (BitstreamRange.read_seq [c, p, g] (ns.map Int.ofNat) s).1 = [c1, p1, g1] ∧
        (BitstreamRange.read [c1, p1, g1] (n : Int)
            (BitstreamRange.read_seq [c, p, g] (ns.map Int.ofNat) s).2).2.1 = [c2, p2, g2] ∧
        ((BitstreamRange.read [c1, p1, g1] (n : Int)
            (BitstreamRange.read_seq [c, p, g] (ns.map Int.ofNat) s).2).1 = true →
          c2.m_remaining + n = c1.m_remaining ∧ p2.m_remaining + n = p1.m_remaining ∧
          g2.m_remaining + n = g1.m_remaining) := by
  induction ns with
  | nil =>
    intro c p g s n hcp hpg _ hn
    obtain ⟨c2, p2, g2, e, _, _, hd⟩ := BitstreamRange.read_three_step c p g n hn s hcp hpg
    exact ⟨c, p, g, c2, p2, g2, rfl, e, hd⟩
  | cons m ms ih =>
    intro c p g s n hcp hpg hms hn
    obtain ⟨c1, p1, g1, e, hcp1, hpg1, _⟩ :=
      BitstreamRange.read_three_step c p g m (hms m (List.mem_cons_self _ _)) s hcp hpg
    have hrec := ih c1 p1 g1 (BitstreamRange.read [c, p, g] (m : Int) s).2.2 n hcp1 hpg1
      (fun k hk => hms k (List.mem_cons_of_mem _ hk)) hn
    simp only [List.map_cons, BitstreamRange.read_seq]
    rw [show (Int.ofNat m) = (m : Int) from rfl, e]
    exact hrec

/-- An instance of `read_seq_nested`: the budgets 10, 20, 30 after the reads 4 and 2, for `n = 3`. -/
theorem BitstreamRange.read_seq_nested_example :
    ∃ c1 p1 g1 c2 p2 g2 : BitstreamRange,
      (BitstreamRange.read_seq [⟨10, false, false⟩, ⟨20, false, false⟩, ⟨30, false, false⟩]
          ([4, 2].map Int.ofNat) (IStream.of_list [])).1 = [c1, p1, g1] ∧
      (BitstreamRange.read [c1, p1, g1] ((3 : Nat) : Int)
          (BitstreamRange.read_seq [⟨10, false, false⟩, ⟨20, false, false⟩, ⟨30, false, false⟩]
            ([4, 2].map Int.ofNat) (IStream.of_list [])).2).2.1 = [c2, p2, g2] ∧
      ((BitstreamRange.read [c1, p1, g1] ((3 : Nat) : Int)
          (BitstreamRange.read_seq [⟨10, false, false⟩, ⟨20, false, false⟩, ⟨30, false, false⟩]
            ([4, 2].map Int.ofNat) (IStream.of_list [])).2).1 = true →
        c2.m_remaining + 3 = c1.m_remaining ∧ p2.m_remaining + 3 = p1.m_remaining ∧
        g2.m_remaining + 3 = g1.m_remaining) :=
  BitstreamRange.read_seq_nested [4, 2] ⟨10, false, false⟩ ⟨20, false, false⟩ ⟨30, false, false⟩
    (IStream.of_list []) 3 (by decide) (by decide) (by decide) (by decide)

theorem BitstreamRange.covers_debit (range : List BitstreamRange) (a k : Nat)
    (h : BitstreamRange.covers range (a + k)) :
    BitstreamRange.covers (range.map (BitstreamRange.debit a)) k := by
  refine ⟨by simpa using h.1, ?_⟩
  intro q hq
  simp only [List.mem_map] at hq
  obtain ⟨q0, hq0, rfl⟩ := hq
  have := h.2 q0 hq0
  simp only [BitstreamRange.debit]
  omega

theorem BitstreamRange.covers_mono (range : List BitstreamRange) (n m : Nat)
    (h : BitstreamRange.covers range n) (hm : m ≤ n) : BitstreamRange.covers range m :=
  ⟨h.1, fun q hq => Nat.le_trans hm (h.2 q hq)⟩

theorem BitstreamRange.covers_remaining (range : List BitstreamRange) (n : Nat)
    (h : BitstreamRange.covers range n) : n ≤ BitstreamRange.remaining range := by
  obtain ⟨hne, hall⟩ := h
  cases range with
  | nil => exact absurd rfl hne
  | cons r parent => exact hall r (List.mem_cons_self _ _)

theorem BitstreamRange.debit_debit (range : List BitstreamRange) (a b : Nat) :
    (range.map (BitstreamRange.debit a)).map (BitstreamRange.debit b)
      = range.map (BitstreamRange.debit (a + b)) := by
  rw [List.map_map]
  apply List.map_congr_left
  intro q _
  simp [BitstreamRange.debit, Nat.sub_sub]

/-- The form of `read_of_le` for a chain given by `covers`. -/
theorem BitstreamRange.read_covers (range : List BitstreamRange) (n : Nat) (hn : n < 2 ^ 64)
    (s : IStream) (h : BitstreamRange.covers range n) :
    BitstreamRange.read range (n : Int) s = (true, range.map (BitstreamRange.debit n), s) := by
  obtain ⟨hne, hall⟩ := h
  cases range with
  | nil => exact absurd rfl hne
  | cons r parent => exact BitstreamRange.read_of_le n hn s r parent hall

/-! ## The stream -/

theorem IStream.bytes_length (s : IStream) (p n : Nat) : (s.bytes p n).length = n := by
  simp [IStream.bytes]

theorem IStream.bytes_add (s : IStream) (p a b : Nat) :
    s.bytes p (a + b) = s.bytes p a ++ s.bytes (p + a) b := by
  unfold IStream.bytes
  rw [List.range_add, List.map_append, List.map_map]
  congr 1
  apply List.map_congr_left
  intro i _
  simp [Nat.add_assoc]

theorem IStream.bytes_lt (s : IStream) (p n : Nat) : ∀ b ∈ s.bytes p n, b < 256 := by
  intro b hb
  simp only [IStream.bytes, List.mem_map] at hb
  obtain ⟨i, _, rfl⟩ := hb
  exact Nat.mod_lt _ (by decide)

theorem IStream.bytes_four (s : IStream) (p : Nat) :
    s.bytes p 4 = [s.data p % 256, s.data (p + 1) % 256, s.data (p + 2) % 256,
      s.data (p + 3) % 256] := rfl

theorem IStream.bytes_two (s : IStream) (p : Nat) :
    s.bytes p 2 = [s.data p % 256, s.data (p + 1) % 256] := rfl

theorem IStream.bytes_one (s : IStream) (p : Nat) : s.bytes p 1 = [s.data p % 256] := rfl

theorem IStream.read_avail (s : IStream) (n : Nat) (hf : s.failbit = false)
    (h : s.pos + n ≤ s.size) : s.read n = (s.bytes s.pos n, s.advance n) := by
  unfold IStream.read
  rw [hf]
  by_cases h0 : n = 0
  · subst h0
    simp [IStream.bytes, IStream.advance]
  · simp [h0, h, hf, IStream.advance]

theorem IStream.avail_advance (s : IStream) (a k : Nat) (h : s.avail (a + k)) :
    (s.advance a).avail k := by
  refine ⟨h.1, ?_⟩
  have := h.2
  simp only [IStream.advance]
  omega

theorem IStream.avail_mono (s : IStream) (n m : Nat) (h : s.avail n) (hm : m ≤ n) :
    s.avail m := ⟨h.1, by have := h.2; omega⟩

theorem IStream.advance_advance (s : IStream) (a b : Nat) :
    (s.advance a).advance b = s.advance (a + b) := by
  simp [IStream.advance, Nat.add_assoc]

theorem IStream.bytes_advance (s : IStream) (a p n : Nat) :
    (s.advance a).bytes p n = s.bytes p n := rfl

theorem IStream.pos_advance (s : IStream) (a : Nat) : (s.advance a).pos = s.pos + a := rfl

theorem IStream.holds_append (s : IStream) (p : Nat) (l1 l2 : List Nat) :
    s.holds p (l1 ++ l2) ↔ s.holds p l1 ∧ s.holds (p + l1.length) l2 := by
  unfold IStream.holds
  rw [List.length_append, IStream.bytes_add]
  constructor
  · intro h
    exact List.append_inj h (by rw [IStream.bytes_length])
  · rintro ⟨h1, h2⟩
    rw [h1, h2]

theorem IStream.holds_lt (s : IStream) (p : Nat) (l : List Nat) (h : s.holds p l) :
    ∀ b ∈ l, b < 256 := by
  unfold IStream.holds at h
  rw [← h]
  exact IStream.bytes_lt s p l.length

theorem IStream.holds_advance (s : IStream) (a p : Nat) (l : List Nat) :
    (s.advance a).holds p l ↔ s.holds p l := Iff.rfl

/-! ## Big-endian values -/

theorem be_four (a b c d : Nat) (ha : a < 256) (hb : b < 256) (hc : c < 256) (hd : d < 256) :
    ((a <<< 24) ||| (b <<< 16) ||| (c <<< 8) ||| d) % 2 ^ 32 = be [a, b, c, d] := by
  have e1 : (a <<< 24) ||| (b <<< 16) = 2 ^ 16 * (2 ^ 8 * a + b) := by
    rw [Nat.shiftLeft_eq, Nat.shiftLeft_eq]
    have := Nat.mul_add_lt_is_or (show b * 2 ^ 16 < 2 ^ 24 by omega) a
    rw [Nat.mul_comm a, ← this]; ring
  have e2 : 2 ^ 16 * (2 ^ 8 * a + b) ||| (c <<< 8) = 2 ^ 8 * (2 ^ 8 * (2 ^ 8 * a + b) + c) := by
    rw [Nat.shiftLeft_eq]
    have := Nat.mul_add_lt_is_or (show c * 2 ^ 8 < 2 ^ 16 by omega) (2 ^ 8 * a + b)
    rw [← this]; ring
  have e3 : 2 ^ 8 * (2 ^ 8 * (2 ^ 8 * a + b) + c) ||| d
      = 2 ^ 8 * (2 ^ 8 * (2 ^ 8 * a + b) + c) + d :=
    (Nat.mul_add_lt_is_or (show d < 2 ^ 8 by omega) _).symm
  rw [e1, e2, e3]
  simp only [be, List.foldl]
  omega

theorem be_two (a b : Nat) (ha : a < 256) (hb : b < 256) :
    ((a <<< 8) ||| b) % 2 ^ 16 = be [a, b] := by
  have e1 : (a <<< 8) ||| b = 2 ^ 8 * a + b := by
    rw [Nat.shiftLeft_eq, Nat.mul_comm]
    exact (Nat.mul_add_lt_is_or (show b < 2 ^ 8 by omega) a).symm
  rw [e1]
  simp only [be, List.foldl]
  omega

theorem be_lt (l : List Nat) (h : ∀ b ∈ l, b < 256) : be l < 256 ^ l.length := by
  unfold be
  suffices H : ∀ (l : List Nat) (acc k : Nat), (∀ b ∈ l, b < 256) → acc < 256 ^ k →
      l.foldl (fun acc b => acc * 256 + b) acc < 256 ^ (k + l.length) by
    simpa using H l 0 0 h (by simp)
  intro l
  induction l with
  | nil => intro acc k _ hk; simpa using hk
  | cons x xs ih =>
    intro acc k hx hk
    have hx0 : x < 256 := hx x (List.mem_cons_self _ _)
    have := ih (acc * 256 + x) (k + 1) (fun b hb => hx b (List.mem_cons_of_mem _ hb))
      (by rw [pow_succ]; nlinarith)
    simpa [List.foldl, Nat.add_assoc, Nat.add_comm 1] using this

theorem be_shift (hi lo : Nat) (hlo : lo < 2 ^ 32) (hhi : hi < 2 ^ 32) :
    ((hi <<< 32) ||| lo) % 2 ^ 64 = hi * 2 ^ 32 + lo := by
  rw [Nat.shiftLeft_eq, Nat.mul_comm, ← Nat.mul_add_lt_is_or hlo hi]
  apply Nat.mod_eq_of_lt
  nlinarith

theorem be_bytes_lt (s : IStream) (p : Nat) : be (s.bytes p 4) < 2 ^ 32 := by
  have := be_lt (s.bytes p 4) (IStream.bytes_lt s p 4)
  rw [IStream.bytes_length] at this
  exact this

theorem be_version (a b c d : Nat) (hb : b < 256) (hc : c < 256) (hd : d < 256)
    (ha : a < 256) : (be [a, b, c, d] >>> 24) % 2 ^ 8 = a := by
  rw [Nat.shiftRight_eq_div_pow]
  simp only [be, List.foldl]
  omega

theorem be_flags (a b c d : Nat) (hb : b < 256) (hc : c < 256) (hd : d < 256) :
    be [a, b, c, d] &&& 0x00FFFFFF = be [b, c, d] := by
  rw [show (0x00FFFFFF : Nat) = 2 ^ 24 - 1 from rfl, Nat.and_pow_two_sub_one_eq_mod]
  simp only [be, List.foldl]
  omega

/-! ## The primitive decoders -/

/-- When budget and source hold four more bytes, `read32` returns their big-endian value. -/
theorem read32_covers (range : List BitstreamRange) (s : IStream)
    (hr : BitstreamRange.covers range 4) (hs : s.avail 4) :
    read32 range s
      = (be (s.bytes s.pos 4), range.map (BitstreamRange.debit 4), s.advance 4) := by
  have h1 := BitstreamRange.read_covers range 4 (by decide) s hr
  have h2 := IStream.read_avail s 4 hs.1 hs.2
  unfold read32
  rw [show ((4 : Int)) = ((4 : Nat) : Int) from rfl, h1]
  simp only [Bool.not_true, Bool.false_eq_true, if_false, h2]
  have hf2 : (s.advance 4).failbit = false := hs.1
  rw [hf2]
  simp only [Bool.false_eq_true, if_false]
  rw [IStream.bytes_four]
  simp only [List.getD_cons_zero, List.getD_cons_succ]
  rw [be_four _ _ _ _ (Nat.mod_lt _ (by decide)) (Nat.mod_lt _ (by decide))
    (Nat.mod_lt _ (by decide)) (Nat.mod_lt _ (by decide))]

/-- When budget and source hold two more bytes, `read16` returns their big-endian value. -/
theorem read16_covers (range : List BitstreamRange) (s : IStream)
    (hr : BitstreamRange.covers range 2) (hs : s.avail 2) :
    read16 range s
      = (be (s.bytes s.pos 2), range.map (BitstreamRange.debit 2), s.advance 2) := by
  have h1 := BitstreamRange.read_covers range 2 (by decide) s hr
  have h2 := IStream.read_avail s 2 hs.1 hs.2
  unfold read16
  rw [show ((2 : Int)) = ((2 : Nat) : Int) from rfl, h1]
  simp only [Bool.not_true, Bool.false_eq_true, if_false, h2]
  have hf2 : (s.advance 2).failbit = false := hs.1
  rw [hf2]
  simp only [Bool.false_eq_true, if_false]
  rw [IStream.bytes_two]
  simp only [List.getD_cons_zero, List.getD_cons_succ]
  rw [be_two _ _ (Nat.mod_lt _ (by decide)) (Nat.mod_lt _ (by decide))]

theorem read32_holds (range : List BitstreamRange) (s : IStream) (l : List Nat)
    (hl : l.length = 4) (hr : BitstreamRange.covers range 4) (hs : s.avail 4)
    (hh : s.holds s.pos l) :
    read32 range s = (be l, range.map (BitstreamRange.debit 4), s.advance 4) := by
  rw [read32_covers range s hr hs]
  unfold IStream.holds at hh
  rw [hl] at hh
  rw [hh]

theorem read16_holds (range : List BitstreamRange) (s : IStream) (l : List Nat)
    (hl : l.length = 2) (hr : BitstreamRange.covers range 2) (hs : s.avail 2)
    (hh : s.holds s.pos l) :
    read16 range s = (be l, range.map (BitstreamRange.debit 2), s.advance 2) := by
  rw [read16_covers range s hr hs]
  unfold IStream.holds at hh
  rw [hl] at hh
  rw [hh]

/-- The loop of `read_string` on a source that holds `str` and a NUL at the cursor. -/
theorem read_string_loop_holds (str : List Nat) :
    ∀ (fuel : Nat) (acc : List Nat) (range : List BitstreamRange) (s : IStream),
      (∀ b ∈ str, b ≠ 0) → s.holds s.pos (str ++ [0]) →
      BitstreamRange.covers range (str.length + 1) → s.avail (str.length + 1) →
      str.length + 1 ≤ fuel →
      read_string_loop fuel acc range s
        = (acc ++ str, range.map (BitstreamRange.debit (str.length + 1)),
            s.advance (str.length + 1)) := by
  induction str with
  | nil =>
    intro fuel acc range s _ hh hb hs hfuel
    obtain ⟨k, rfl⟩ : ∃ k, fuel = k + 1 := ⟨fuel - 1, by simp at hfuel; omega⟩
    have e1 := BitstreamRange.read_covers range 1 (by decide) s hb
    have e2 := IStream.read_avail s 1 hs.1 hs.2
    have hh1 : s.bytes s.pos 1 = [0] := hh
    unfold read_string_loop
    rw [show ((1 : Int)) = ((1 : Nat) : Int) from rfl, e1]
    dsimp only
    rw [e2, hh1]
    have hf : (s.advance 1).failbit = false := hs.1
    simp [hf]
  | cons c cs ih =>
    intro fuel acc range s hnz hh hb hs hfuel
    obtain ⟨k, rfl⟩ : ∃ k, fuel = k + 1 := ⟨fuel - 1, by simp at hfuel; omega⟩
    have hb1 : BitstreamRange.covers range (1 + (cs.length + 1)) := by
      simpa [Nat.add_comm, Nat.add_left_comm] using hb
    have hs1 : s.avail (1 + (cs.length + 1)) := by
      simpa [Nat.add_comm, Nat.add_left_comm] using hs
    have e1 := BitstreamRange.read_covers range 1 (by decide) s
      (BitstreamRange.covers_mono range _ _ hb1 (by omega))
    have e2 := IStream.read_avail s 1 hs.1 (by have := hs1.2; omega)
    have hh' : s.holds s.pos ([c] ++ (cs ++ [0])) := hh
    rw [IStream.holds_append] at hh'
    have hh1 : s.bytes s.pos 1 = [c] := hh'.1
    have hc : c ≠ 0 := hnz c (List.mem_cons_self _ _)
    have hrec := ih k (acc ++ [c]) (range.map (BitstreamRange.debit 1)) (s.advance 1)
      (fun b hb => hnz b (List.mem_cons_of_mem _ hb)) hh'.2
      (BitstreamRange.covers_debit range 1 _ hb1) (IStream.avail_advance s 1 _ hs1)
      (by simp at hfuel ⊢; omega)
    unfold read_string_loop
    rw [show ((1 : Int)) = ((1 : Nat) : Int) from rfl, e1]
    dsimp only
    rw [e2, hh1]
    have hf : (s.advance 1).failbit = false := hs.1
    simp only [Bool.not_true, Bool.false_eq_true, if_false, hf, List.getD_cons_zero, hc]
    rw [hrec, BitstreamRange.debit_debit, IStream.advance_advance]
    simp [Nat.add_comm, Nat.add_left_comm]

/-- On a source that holds `str` and a NUL at the cursor, within budget, `read_string` returns `str` and consumes `str` and the NUL. -/
theorem read_string_holds (str : List Nat) (range : List BitstreamRange) (s : IStream)
    (hnz : ∀ b ∈ str, b ≠ 0) (hh : s.holds s.pos (str ++ [0]))
    (hb : BitstreamRange.covers range (str.length + 1)) (hs : s.avail (str.length + 1)) :
    read_string range s
      = (str, range.map (BitstreamRange.debit (str.length + 1)), s.advance (str.length + 1)) := by
  unfold read_string
  rw [read_string_loop_holds str _ [] range s hnz hh hb hs
    (Nat.le_succ_of_le (BitstreamRange.covers_remaining range _ hb))]
  rfl

/-! ## The header decoder -/

/-- The header decoder after its two reads when the size field is not 1. -/
theorem BoxHeader.parse_short (hdr0 : BoxHeader) (range : List BitstreamRange)
    (s : IStream) (v1 v2 : Nat) (rg1 rg2 : List BitstreamRange) (s1 s2 : IStream)
    (r1 : read32 range s = (v1, rg1, s1)) (r2 : read32 rg1 s1 = (v2, rg2, s2)) (h1 : ¬ v1 = 1) :
    BoxHeader.parse hdr0 range s
      = BoxHeader.parse_uuid { hdr0 with m_size := v1, m_type := v2, m_header_size := 8 }
          rg2 s2 := by
  unfold BoxHeader.parse BoxHeader.parse_uuid
  rw [r1]
  dsimp only
  rw [r2]
  dsimp only
  rw [if_neg h1]
  dsimp only
  split
  · split <;> rfl
  · rfl

/-- The header decoder after its four reads when the size field is 1. -/
theorem BoxHeader.parse_long (hdr0 : BoxHeader) (range : List BitstreamRange)
    (s : IStream) (v2 v3 v4 : Nat) (rg1 rg2 rg3 rg4 : List BitstreamRange)
    (s1 s2 s3 s4 : IStream)
    (r1 : read32 range s = (1, rg1, s1)) (r2 : read32 rg1 s1 = (v2, rg2, s2))
    (r3 : read32 rg2 s2 = (v3, rg3, s3)) (r4 : read32 rg3 s3 = (v4, rg4, s4)) :
    BoxHeader.parse hdr0 range s
      = BoxHeader.parse_uuid
          { hdr0 with m_size := ((v3 <<< 32) ||| v4) % 2 ^ 64, m_type := v2,
                      m_header_size := 8 + 8 } rg4 s4 := by
  unfold BoxHeader.parse BoxHeader.parse_uuid
  rw [r1]
  dsimp only
  rw [r2]
  dsimp only
  rw [if_pos rfl]
  dsimp only
  rw [r3]
  dsimp only
  rw [r4]
  dsimp only
  split
  · split <;> rfl
  · rfl

/-- The read of the extended type leaves size and type alone, and the header size as well unless the type is `uuid`. -/
theorem BoxHeader.parse_uuid_fields (hdr : BoxHeader) (range : List BitstreamRange)
    (s : IStream) :
    (BoxHeader.parse_uuid hdr range s).2.1.m_type = hdr.m_type ∧
    (BoxHeader.parse_uuid hdr range s).2.1.m_size = hdr.m_size ∧
    (hdr.m_type ≠ fourcc "uuid" →
      (BoxHeader.parse_uuid hdr range s).2.1.m_header_size = hdr.m_header_size) := by
  unfold BoxHeader.parse_uuid
  split
  · split
    · exact ⟨rfl, rfl, fun h => absurd ‹_› h⟩
    · exact ⟨rfl, rfl, fun h => absurd ‹_› h⟩
  · exact ⟨rfl, rfl, fun _ => rfl⟩

/-- The read of the extended type when budget and source hold it. -/
theorem BoxHeader.parse_uuid_covers (hdr : BoxHeader) (range : List BitstreamRange)
    (s : IStream)
    (hb : BitstreamRange.covers range (if hdr.m_type = fourcc "uuid" then 16 else 0))
    (hs : s.avail (if hdr.m_type = fourcc "uuid" then 16 else 0)) :
    (BoxHeader.parse_uuid hdr range s).2.1.m_header_size
      = hdr.m_header_size + (if hdr.m_type = fourcc "uuid" then 16 else 0) ∧
    (BoxHeader.parse_uuid hdr range s).2.2.2
      = s.advance (if hdr.m_type = fourcc "uuid" then 16 else 0) := by
  unfold BoxHeader.parse_uuid
  by_cases h : hdr.m_type = fourcc "uuid"
  · rw [if_pos h] at hb hs
    have e1 := BitstreamRange.read_covers range 16 (by decide) s hb
    have e2 := IStream.read_avail s 16 hs.1 hs.2
    rw [if_pos h, if_pos h, show ((16 : Int)) = ((16 : Nat) : Int) from rfl, e1]
    dsimp only
    rw [if_pos rfl, e2]
    exact ⟨rfl, rfl⟩
  · rw [if_neg h, if_neg h]
    exact ⟨rfl, rfl⟩

/-- The full box header decoder on a source that holds the version byte and the three flag bytes. -/
theorem BoxHeader.parse_full_box_header_holds (hdr : BoxHeader) (range : List BitstreamRange)
    (s : IStream) (ver f0 f1 f2 : Nat) (hr : BitstreamRange.covers range 4) (hs : s.avail 4)
    (hh : s.holds s.pos [ver, f0, f1, f2]) :
    hdr.parse_full_box_header range s
      = (BitstreamRange.get_error (range.map (BitstreamRange.debit 4)),
          { hdr with m_version := ver, m_flags := be [f0, f1, f2], m_is_full_box := true,
                     m_header_size := (hdr.m_header_size + 4) % 2 ^ 32 },
          range.map (BitstreamRange.debit 4), s.advance 4) := by
  have hlt := IStream.holds_lt s s.pos _ hh
  have h0 : ver < 256 := hlt ver (by simp)
  have h1 : f0 < 256 := hlt f0 (by simp)
  have h2 : f1 < 256 := hlt f1 (by simp)
  have h3 : f2 < 256 := hlt f2 (by simp)
  unfold BoxHeader.parse_full_box_header
  rw [read32_holds range s [ver, f0, f1, f2] rfl hr hs hh]
  dsimp only
  rw [be_version ver f0 f1 f2 h1 h2 h3 h0, be_flags ver f0 f1 f2 h1 h2 h3]

/-! ## The generic box -/

/-- The read of the extended type of a `uuid` header when budget and source hold it. -/
theorem BoxHeader.parse_uuid_of_uuid (hdr : BoxHeader) (range : List BitstreamRange)
    (s : IStream) (h : hdr.m_type = fourcc "uuid")
    (hb : BitstreamRange.covers range 16) (hs : s.avail 16) :
    BoxHeader.parse_uuid hdr range s
      = (BitstreamRange.get_error (range.map (BitstreamRange.debit 16)),
          { hdr with m_uuid_type := s.bytes s.pos 16, m_header_size := hdr.m_header_size + 16 },
          range.map (BitstreamRange.debit 16), s.advance 16) := by
  unfold BoxHeader.parse_uuid
  have e1 := BitstreamRange.read_covers range 16 (by decide) s hb
  have e2 := IStream.read_avail s 16 hs.1 hs.2
  rw [if_pos h, show ((16 : Int)) = ((16 : Nat) : Int) from rfl, e1]
  dsimp only
  rw [if_pos rfl, e2]

/-- No extended type is read when the type is not `uuid`. -/
theorem BoxHeader.parse_uuid_of_ne (hdr : BoxHeader) (range : List BitstreamRange)
    (s : IStream) (h : hdr.m_type ≠ fourcc "uuid") :
    BoxHeader.parse_uuid hdr range s = (BitstreamRange.get_error range, hdr, range, s) := by
  unfold BoxHeader.parse_uuid
  rw [if_neg h]

/-- When the budgets of the range and of the ranges enclosing it and the source hold the complete header, `BoxHeader::parse` decodes it, debits every range by its length and moves the cursor by its length. -/
theorem BoxHeader.parse_complete (hdr0 : BoxHeader) (range : List BitstreamRange)
    (s : IStream) (hb : BitstreamRange.covers range (BoxHeader.encoded_size s))
    (hs : s.avail (BoxHeader.encoded_size s)) :
    BoxHeader.parse hdr0 range s
      = (BitstreamRange.get_error (range.map (BitstreamRange.debit (BoxHeader.encoded_size s))),
          BoxHeader.decoded hdr0 s,
          range.map (BitstreamRange.debit (BoxHeader.encoded_size s)),
          s.advance (BoxHeader.encoded_size s)) := by
  unfold BoxHeader.decoded
  unfold BoxHeader.encoded_size at hb hs ⊢
  have hb8 : BitstreamRange.covers range (4 + 4) := BitstreamRange.covers_mono range _ _ hb (by omega)
  have hs8 : s.avail (4 + 4) := IStream.avail_mono s _ _ hs (by omega)
  have r1 := read32_covers range s (BitstreamRange.covers_mono range _ _ hb8 (by omega))
    (IStream.avail_mono s _ _ hs8 (by omega))
  have r2 := read32_covers _ _ (BitstreamRange.covers_debit range 4 4 hb8)
    (IStream.avail_advance s 4 4 hs8)
  rw [IStream.bytes_advance, IStream.pos_advance] at r2
  by_cases h1 : be (s.bytes s.pos 4) = 1
  · rw [if_pos h1] at hb hs
    simp only [if_pos h1]
    have hb16 : BitstreamRange.covers range (4 + (4 + (4 + 4))) :=
      BitstreamRange.covers_mono range _ _ hb (by omega)
    have hs16 : s.avail (4 + (4 + (4 + 4))) := IStream.avail_mono s _ _ hs (by omega)
    have hb2 := BitstreamRange.covers_debit _ 4 (4 + 4)
      (BitstreamRange.covers_debit range 4 (4 + (4 + 4)) hb16)
    have hs2 := IStream.avail_advance _ 4 (4 + 4) (IStream.avail_advance s 4 (4 + (4 + 4)) hs16)
    have r3 := read32_covers _ _ (BitstreamRange.covers_mono _ _ _ hb2 (by omega))
      (IStream.avail_mono _ _ _ hs2 (by omega))
    have r4 := read32_covers _ _ (BitstreamRange.covers_debit _ 4 4 hb2)
      (IStream.avail_advance _ 4 4 hs2)
    simp only [IStream.bytes_advance, IStream.pos_advance] at r3 r4
    rw [h1] at r1
    rw [BoxHeader.parse_long hdr0 range s _ _ _ _ _ _ _ _ _ _ _ r1 r2 r3 r4]
    simp only [BitstreamRange.debit_debit, IStream.advance_advance]
    rw [be_shift _ _ (be_bytes_lt s _) (be_bytes_lt s _)]
    by_cases hu : be (s.bytes (s.pos + 4) 4) = fourcc "uuid"
    · rw [if_pos hu] at hb hs
      simp only [if_pos hu]
      rw [BoxHeader.parse_uuid_of_uuid _ _ _ hu
        (BitstreamRange.covers_debit range _ _ (BitstreamRange.covers_mono range _ _ hb (by omega)))
        (IStream.avail_advance s _ _ (IStream.avail_mono s _ _ hs (by omega)))]
      simp only [BitstreamRange.debit_debit, IStream.advance_advance, IStream.bytes_advance,
        IStream.pos_advance, Nat.add_assoc]
    · simp only [if_neg hu]
      rw [BoxHeader.parse_uuid_of_ne _ _ _ hu]
  · rw [if_neg h1] at hb hs
    simp only [if_neg h1]
    rw [BoxHeader.parse_short hdr0 range s _ _ _ _ _ _ r1 r2 h1]
    simp only [BitstreamRange.debit_debit, IStream.advance_advance]
    by_cases hu : be (s.bytes (s.pos + 4) 4) = fourcc "uuid"
    · rw [if_pos hu] at hb hs
      simp only [if_pos hu]
      rw [BoxHeader.parse_uuid_of_uuid _ _ _ hu
        (BitstreamRange.covers_debit range _ _ (BitstreamRange.covers_mono range _ _ hb (by omega)))
        (IStream.avail_advance s _ _ (IStream.avail_mono s _ _ hs (by omega)))]
      simp only [BitstreamRange.debit_debit, IStream.advance_advance, IStream.bytes_advance,
        IStream.pos_advance, Nat.add_assoc, Nat.add_zero]
    · simp only [if_neg hu]
      rw [BoxHeader.parse_uuid_of_ne _ _ _ hu]

/-- A debit leaves the error flag alone. -/
theorem BitstreamRange.error_map_debit (range : List BitstreamRange) (n : Nat)
    (hne : range ≠ []) :
    BitstreamRange.error (range.map (BitstreamRange.debit n)) = BitstreamRange.error range := by
  cases range with
  | nil => exact absurd rfl hne
  | cons r parent => rfl

/-- A relative seek over bytes that the source holds moves the cursor. -/
theorem IStream.seekg_cur_avail (s : IStream) (k : Nat) (h : s.avail k) :
    s.seekg_cur (k : Int) = s.advance k := by
  unfold IStream.seekg_cur IStream.advance
  have h2 := h.2
  rw [h.1]
  have e1 : ¬ ((s.pos : Int) + (k : Int) < 0) := by omega
  have e2 : ¬ ((s.size : Int) < (s.pos : Int) + (k : Int)) := by omega
  simp only [Bool.false_eq_true, if_false, e1, e2, decide_False, Bool.and_false]
  congr 1

/-- A type code without a box class of its own is decoded by `Box::parse`. -/
theorem Box.dispatch_generic (read_children : List BitstreamRange → IStream → Step (List Box))
    (hdr : BoxHeader) (boxrange : List BitstreamRange) (istr : IStream)
    (h : hdr.m_type ∉ Box.known_types) :
    Box.dispatch read_children hdr boxrange istr
      = some (Box.generic hdr, (Box.parse hdr boxrange istr).2.1,
          (Box.parse hdr boxrange istr).2.2) := by
  simp only [Box.known_types, List.mem_cons, List.mem_singleton, List.not_mem_nil, not_or,
    or_false] at h
  obtain ⟨h1, h2, h3, h4, h5, h6, h7, h8, h9, h10, h11⟩ := h
  unfold Box.dispatch
  rw [if_neg h1, if_neg h2, if_neg h3, if_neg h4, if_neg h5, if_neg h6, if_neg h7, if_neg h8,
    if_neg h9, if_neg h10, if_neg h11]

/-- The generic body decoder on a box whose content is shorter than `2^31` bytes and lies within the budgets and the source: the content is skipped and debited. -/
theorem Box.parse_small (hdr : BoxHeader) (parent : List BitstreamRange) (s : IStream)
    (hsize : hdr.m_size < 2 ^ 64) (hhs : hdr.m_header_size ≤ hdr.m_size)
    (hsmall : hdr.m_size - hdr.m_header_size < 2 ^ 31) (h0 : hdr.m_size ≠ 0)
    (hb : ∀ q ∈ parent, hdr.m_size - hdr.m_header_size ≤ q.m_remaining)
    (hs : s.avail (hdr.m_size - hdr.m_header_size)) :
    Box.parse hdr (BitstreamRange.new hdr.content_size parent) s
      = (BitstreamRange.get_error
            ((BitstreamRange.new hdr.content_size parent).map
              (BitstreamRange.debit (hdr.m_size - hdr.m_header_size))),
          (BitstreamRange.new hdr.content_size parent).map
            (BitstreamRange.debit (hdr.m_size - hdr.m_header_size)),
          s.advance (hdr.m_size - hdr.m_header_size)) := by
  have hc : hdr.content_size = hdr.m_size - hdr.m_header_size := by
    unfold BoxHeader.content_size
    have : hdr.m_header_size % 2 ^ 64 = hdr.m_header_size := Nat.mod_eq_of_lt (by omega)
    rw [this]
    omega
  have hcov : BitstreamRange.covers (BitstreamRange.new hdr.content_size parent)
      (hdr.m_size - hdr.m_header_size) := by
    refine ⟨by simp [BitstreamRange.new], ?_⟩
    intro q hq
    simp only [BitstreamRange.new, List.mem_cons] at hq
    rcases hq with rfl | hq
    · rw [hc]
    · exact hb q hq
  unfold Box.parse
  rw [if_neg h0]
  dsimp only
  rw [hc, to_int_of_lt _ hsmall, ← hc,
    BitstreamRange.read_covers _ _ (by omega) s (by rw [hc]; rw [hc] at hcov; exact hcov)]
  dsimp only
  rw [if_pos rfl, hc, to_streamoff_of_lt _ (by omega), IStream.seekg_cur_avail s _ hs]

/-- A decoded box size fits 64 bits. -/
theorem BoxHeader.decoded_size_lt (hdr0 : BoxHeader) (s : IStream) :
    (BoxHeader.decoded hdr0 s).m_size < 2 ^ 64 := by
  unfold BoxHeader.decoded
  dsimp only
  have h1 := be_bytes_lt s s.pos
  have h2 := be_bytes_lt s (s.pos + 8)
  have h3 := be_bytes_lt s (s.pos + 12)
  split <;> omega

/-- A box of unknown type whose declared size `S` is at least the header length, with less than `2^31` content bytes, within the budget of the range and of every range enclosing it and present in the source: `Box::read` returns the generic variant, the cursor is `S` bytes past the start of the box, and every range is debited by exactly `S`. -/
theorem Box.read_generic (fuel : Nat) (range : List BitstreamRange) (s : IStream)
    (herr : BitstreamRange.error range = false)
    (htype : (BoxHeader.decoded {} s).m_type ∉ Box.known_types)
    (hhs : BoxHeader.encoded_size s ≤ (BoxHeader.decoded {} s).m_size)
    (hsmall : (BoxHeader.decoded {} s).m_size - BoxHeader.encoded_size s < 2 ^ 31)
    (hb : BitstreamRange.covers range (BoxHeader.decoded {} s).m_size)
    (hs : s.avail (BoxHeader.decoded {} s).m_size) :
    Box.read (fuel + 1) range s
      = some (some (Box.generic (BoxHeader.decoded {} s)),
          range.map (BitstreamRange.debit (BoxHeader.decoded {} s).m_size),
          s.advance (BoxHeader.decoded {} s).m_size) := by
  have hH : (BoxHeader.decoded {} s).m_header_size = BoxHeader.encoded_size s := rfl
  have hsum : BoxHeader.encoded_size s
      + ((BoxHeader.decoded {} s).m_size - BoxHeader.encoded_size s)
      = (BoxHeader.decoded {} s).m_size := by omega
  have h8 : 8 ≤ BoxHeader.encoded_size s := by unfold BoxHeader.encoded_size; omega
  have hb' : BitstreamRange.covers range (BoxHeader.encoded_size s
      + ((BoxHeader.decoded {} s).m_size - BoxHeader.encoded_size s)) := by rw [hsum]; exact hb
  have hs' : s.avail (BoxHeader.encoded_size s
      + ((BoxHeader.decoded {} s).m_size - BoxHeader.encoded_size s)) := by rw [hsum]; exact hs
  have hp := Box.parse_small (BoxHeader.decoded {} s)
    (range.map (BitstreamRange.debit (BoxHeader.encoded_size s)))
    (s.advance (BoxHeader.encoded_size s)) (BoxHeader.decoded_size_lt {} s)
    (by rw [hH]; exact hhs) (by rw [hH]; exact hsmall) (by omega)
    (by rw [hH]; exact (BitstreamRange.covers_debit range _ _ hb').2)
    (by rw [hH]; exact IStream.avail_advance s _ _ hs')
  unfold Box.read
  rw [BoxHeader.parse_complete {} range s (BitstreamRange.covers_mono range _ _ hb hhs)
    (IStream.avail_mono s _ _ hs hhs)]
  dsimp only
  rw [BitstreamRange.error_map_debit range _ hb.1, herr]
  simp only [Bool.false_eq_true, if_false]
  rw [Box.dispatch_generic _ _ _ _ htype, hp]
  dsimp only
  rw [hH, IStream.advance_advance, hsum]
  simp only [BitstreamRange.new, List.map_cons, List.tail_cons]
  rw [BitstreamRange.debit_debit, hsum]

/-- An instance of `Box.read_generic`: a `free` box of 12 bytes followed by another box. -/
theorem Box.read_generic_example :
    Box.read 1 (BitstreamRange.new 20 [])
        (IStream.of_list [0, 0, 0, 12, 102, 114, 101, 101, 1, 2, 3, 4,
          0, 0, 0, 8, 102, 114, 101, 101])
      = some (some (Box.generic { m_size := 12, m_header_size := 8, m_type := fourcc "free" }),
          [⟨8, false, false⟩],
          (IStream.of_list [0, 0, 0, 12, 102, 114, 101, 101, 1, 2, 3, 4,
            0, 0, 0, 8, 102, 114, 101, 101]).advance 12) :=
  Box.read_generic 0 (BitstreamRange.new 20 [])
    (IStream.of_list [0, 0, 0, 12, 102, 114, 101, 101, 1, 2, 3, 4, 0, 0, 0, 8, 102, 114, 101, 101])
    (by decide) (by decide) (by decide) (by decide) (by decide) (by decide)

/-! ## The range reader: claims C1 and C2 -/

/-- Claim C1, amended: for a byte count `n` with `0 <= n < 2^31` and a range with
`remaining = r` (whatever its ancestors), `read(n)` succeeds and leaves
`remaining = r - n` if and only if `n <= r`; in every other case it fails, sets
`error = true` and leaves `remaining = 0`. -/
theorem read_success_iff (r : BitstreamRange) (parent : List BitstreamRange) (n : Nat)
    (hn : n < 2 ^ 31) (s : IStream) :
    (((BitstreamRange.read (r :: parent) (n : Int) s).1 = true ∧
        BitstreamRange.remaining (BitstreamRange.read (r :: parent) (n : Int) s).2.1
          = r.m_remaining - n) ↔ n ≤ r.m_remaining) ∧
    (¬ n ≤ r.m_remaining →
      (BitstreamRange.read (r :: parent) (n : Int) s).1 = false ∧
      BitstreamRange.error (BitstreamRange.read (r :: parent) (n : Int) s).2.1 = true ∧
      BitstreamRange.remaining (BitstreamRange.read (r :: parent) (n : Int) s).2.1 = 0) := by
  have hu : to_uint64 (n : Int) = n := to_uint64_natCast n (by omega)
  by_cases h : n ≤ r.m_remaining
  · rw [BitstreamRange.read_cons_le r parent n s (by rw [hu]; exact h), hu]
    exact ⟨⟨fun _ => h, fun _ => ⟨rfl, rfl⟩⟩, fun hc => absurd h hc⟩
  · by_cases h0 : r.m_remaining = 0
    · rw [BitstreamRange.read_cons_zero r parent n s (by rw [hu]; exact h) h0]
      exact ⟨⟨fun hc => Bool.noConfusion hc.1, fun hc => absurd hc h⟩,
        fun _ => ⟨rfl, rfl, h0⟩⟩
    · rw [BitstreamRange.read_cons_short r parent n s (by rw [hu]; exact h) h0]
      exact ⟨⟨fun hc => Bool.noConfusion hc.1, fun hc => absurd hc h⟩,
        fun _ => ⟨rfl, rfl, rfl⟩⟩

/-- Claim C1, amended, at `r = 10`, `n = 4`. -/
theorem read_success_iff_witness :
    (((BitstreamRange.read [⟨10, false, false⟩] ((4 : Nat) : Int) (IStream.of_list [])).1 = true ∧
        BitstreamRange.remaining
          (BitstreamRange.read [⟨10, false, false⟩] ((4 : Nat) : Int) (IStream.of_list [])).2.1
          = 10 - 4) ↔ 4 ≤ 10) ∧
    (¬ 4 ≤ 10 →
      (BitstreamRange.read [⟨10, false, false⟩] ((4 : Nat) : Int) (IStream.of_list [])).1 = false ∧
      BitstreamRange.error
        (BitstreamRange.read [⟨10, false, false⟩] ((4 : Nat) : Int) (IStream.of_list [])).2.1 = true ∧
      BitstreamRange.remaining
        (BitstreamRange.read [⟨10, false, false⟩] ((4 : Nat) : Int) (IStream.of_list [])).2.1 = 0) :=
  read_success_iff ⟨10, false, false⟩ [] 4 (by decide) (IStream.of_list [])

/-- Claim C1 as stated fails at `n = 0`, `r = 0`: the claim makes `read(0)` fail on
an exhausted range (`r > 0` does not hold), the code takes the branch
`m_remaining >= n` and succeeds without setting the error flag. -/
theorem read_zero_at_eof_succeeds :
    ¬ ((((BitstreamRange.read [⟨0, true, false⟩] 0 (IStream.of_list [])).1 = true ∧
          BitstreamRange.remaining (BitstreamRange.read [⟨0, true, false⟩] 0 (IStream.of_list [])).2.1
            = 0 - 0) ↔ ((0 : Nat) ≤ 0 ∧ 0 < (0 : Nat))) ∧
       (¬ ((0 : Nat) ≤ 0 ∧ 0 < (0 : Nat)) →
          (BitstreamRange.read [⟨0, true, false⟩] 0 (IStream.of_list [])).1 = false ∧
          BitstreamRange.error (BitstreamRange.read [⟨0, true, false⟩] 0 (IStream.of_list [])).2.1
            = true ∧
          BitstreamRange.remaining (BitstreamRange.read [⟨0, true, false⟩] 0 (IStream.of_list [])).2.1
            = 0)) := by
  decide

/-- Claim C2 on two chains whose child has a larger budget than its parent. With
the budgets 10, 2, 100 (child, parent, grandparent), `read(4)` succeeds and
debits the child by 4, the parent by 2 and the grandparent by 2. With the
budgets 8, 0, 8, the state of the ranges of `file_nested_overrun` when the first
compatible brand is read, `read(4)` succeeds and debits the child by 4 and
neither ancestor. -/
theorem read_child_larger_than_parent :
    (BitstreamRange.read [⟨10, false, false⟩, ⟨2, false, false⟩, ⟨100, false, false⟩] 4
        (IStream.of_list [])).1 = true ∧
    (BitstreamRange.read [⟨10, false, false⟩, ⟨2, false, false⟩, ⟨100, false, false⟩] 4
        (IStream.of_list [])).2.1 = [⟨6, false, false⟩, ⟨0, true, true⟩, ⟨98, false, false⟩] ∧
    (BitstreamRange.read [⟨8, false, false⟩, ⟨0, true, false⟩, ⟨8, false, false⟩] 4
        (IStream.of_list [])).1 = true ∧
    (BitstreamRange.read [⟨8, false, false⟩, ⟨0, true, false⟩, ⟨8, false, false⟩] 4
        (IStream.of_list [])).2.1 = [⟨4, false, false⟩, ⟨0, true, true⟩, ⟨8, false, false⟩] := by
  decide

/-! ## Nested boxes: claim C3 -/

/-- Claim C3 on the file `file_nested_overrun`: the range `R` of the `iprp` box is
granted `L = 16` bytes from position `p = 8`, so it ends at position 24, and the
root range has 24 bytes left when `R` is created. The `ftyp` box inside `R`
declares 24 bytes; `read_children` on `R` decodes its compatible brands from
the bytes 24..31, after the end of `R`, and leaves the cursor at 32. A second
file that agrees with the first on the positions below `p + L = 24` yields
other brands. The last part is the same run started by `Box::read` on the root
range of the whole file. -/
theorem nested_box_reads_past_enclosing_box :
    (Box.read_children 2 [] (BitstreamRange.new 16 [⟨24, false, false⟩])
        { IStream.of_list file_nested_overrun with pos := 8 }).map
        (fun r => (r.1.map Box.compatible_brands, r.2.2.pos))
      = some ([[be [0, 0, 0, 8], be [102, 114, 101, 101]]], 32) ∧
    (Box.read_children 2 [] (BitstreamRange.new 16 [⟨24, false, false⟩])
        { IStream.of_list file_nested_overrun_alt with pos := 8 }).map
        (fun r => (r.1.map Box.compatible_brands, r.2.2.pos))
      = some ([[be [0, 0, 0, 9], be [115, 107, 105, 112]]], 32) ∧
    file_nested_overrun.take (8 + 16) = file_nested_overrun_alt.take (8 + 16) ∧
    (Box.read 3 (BitstreamRange.new 32 []) (IStream.of_list file_nested_overrun)).map
        (fun r => (r.1.map (fun b => b.children.map Box.compatible_brands), r.2.1, r.2.2.pos))
      = some (some [[be [0, 0, 0, 8], be [102, 114, 101, 101]]], [⟨8, false, false⟩], 32) := by
  decide!

/-! ## The box header: claims C4, C5 and C6 -/

/-- Claim C4: when the budget of the range (and of the ranges enclosing it) and the
source hold the 8 bytes of the header, or 16 when the 32-bit size field is 1,
`BoxHeader::parse` yields the type as the big-endian value of bytes 4..7; for a
size field `S != 1` the size is `S` and the header size is 8 unless the type is
`uuid`; for a size field 1 the size is `high * 2^32 + low` of the two 32-bit
words at bytes 8..15 and the header size is 16 unless the type is `uuid`. -/
theorem header_parse_recovers_size_and_type (hdr0 : BoxHeader) (range : List BitstreamRange)
    (s : IStream)
    (hb : BitstreamRange.covers range (if be (s.bytes s.pos 4) = 1 then 16 else 8))
    (hs : s.avail (if be (s.bytes s.pos 4) = 1 then 16 else 8)) :
    (BoxHeader.parse hdr0 range s).2.1.m_type = be (s.bytes (s.pos + 4) 4) ∧
    (be (s.bytes s.pos 4) ≠ 1 →
      (BoxHeader.parse hdr0 range s).2.1.m_size = be (s.bytes s.pos 4) ∧
      ((BoxHeader.parse hdr0 range s).2.1.m_type ≠ fourcc "uuid" →
        (BoxHeader.parse hdr0 range s).2.1.m_header_size = 8)) ∧
    (be (s.bytes s.pos 4) = 1 →
      (BoxHeader.parse hdr0 range s).2.1.m_size
        = be (s.bytes (s.pos + 8) 4) * 2 ^ 32 + be (s.bytes (s.pos + 12) 4) ∧
      ((BoxHeader.parse hdr0 range s).2.1.m_type ≠ fourcc "uuid" →
        (BoxHeader.parse hdr0 range s).2.1.m_header_size = 16)) := by
  have hb8 : BitstreamRange.covers range (4 + 4) :=
    BitstreamRange.covers_mono range _ _ hb (by split <;> omega)
  have hs8 : s.avail (4 + 4) := IStream.avail_mono s _ _ hs (by split <;> omega)
  have r1 := read32_covers range s (BitstreamRange.covers_mono range _ _ hb8 (by omega))
    (IStream.avail_mono s _ _ hs8 (by omega))
  have r2 := read32_covers _ _ (BitstreamRange.covers_debit range 4 4 hb8)
    (IStream.avail_advance s 4 4 hs8)
  rw [IStream.bytes_advance, IStream.pos_advance] at r2
  by_cases h1 : be (s.bytes s.pos 4) = 1
  · rw [if_pos h1] at hb hs
    have hb16 : BitstreamRange.covers range (4 + (4 + (4 + 4))) := hb
    have hs16 : s.avail (4 + (4 + (4 + 4))) := hs
    have hb2 := BitstreamRange.covers_debit _ 4 (4 + 4)
      (BitstreamRange.covers_debit range 4 (4 + (4 + 4)) hb16)
    have hs2 := IStream.avail_advance _ 4 (4 + 4) (IStream.avail_advance s 4 (4 + (4 + 4)) hs16)
    have r3 := read32_covers _ _ (BitstreamRange.covers_mono _ _ _ hb2 (by omega))
      (IStream.avail_mono _ _ _ hs2 (by omega))
    have r4 := read32_covers _ _ (BitstreamRange.covers_debit _ 4 4 hb2)
      (IStream.avail_advance _ 4 4 hs2)
    simp only [IStream.bytes_advance, IStream.pos_advance] at r3 r4
    rw [h1] at r1
    have hp := BoxHeader.parse_long hdr0 range s _ _ _ _ _ _ _ _ _ _ _ r1 r2 r3 r4
    have hf := BoxHeader.parse_uuid_fields
      { hdr0 with m_size := ((be (s.bytes (s.pos + 4 + 4) 4) <<< 32) |||
                    be (s.bytes (s.pos + 4 + 4 + 4) 4)) % 2 ^ 64,
                  m_type := be (s.bytes (s.pos + 4) 4), m_header_size := 8 + 8 }
      (List.map (BitstreamRange.debit 4) (List.map (BitstreamRange.debit 4)
        (List.map (BitstreamRange.debit 4) (List.map (BitstreamRange.debit 4) range))))
      (((((s.advance 4).advance 4).advance 4).advance 4))
    rw [← hp] at hf
    dsimp only at hf
    rw [be_shift _ _ (be_bytes_lt s _) (be_bytes_lt s _)] at hf
    refine ⟨hf.1, fun hc => absurd h1 hc, fun _ => ⟨?_, ?_⟩⟩
    · rw [hf.2.1, Nat.add_assoc s.pos 4 4, Nat.add_assoc s.pos (4 + 4) 4]
    · intro hne
      rw [hf.1] at hne
      exact hf.2.2 hne
  · have hp := BoxHeader.parse_short hdr0 range s _ _ _ _ _ _ r1 r2 h1
    have hf := BoxHeader.parse_uuid_fields
      { hdr0 with m_size := be (s.bytes s.pos 4), m_type := be (s.bytes (s.pos + 4) 4),
                  m_header_size := 8 }
      (List.map (BitstreamRange.debit 4) (List.map (BitstreamRange.debit 4) range))
      ((s.advance 4).advance 4)
    rw [← hp] at hf
    dsimp only at hf
    refine ⟨hf.1, fun _ => ⟨hf.2.1, ?_⟩, fun hc => absurd hc h1⟩
    intro hne
    rw [hf.1] at hne
    exact hf.2.2 hne

/-- Claim C4 on a header with the size field 1 and the 64-bit size `2 * 2^32 + 24`. -/
theorem header_parse_recovers_size_and_type_witness :
    BitstreamRange.covers (BitstreamRange.new 100 [⟨200, false, false⟩]) 16 ∧
    (IStream.of_list [0, 0, 0, 1, 109, 100, 97, 116, 0, 0, 0, 2, 0, 0, 0, 24]).avail 16 ∧
    (BoxHeader.parse {} (BitstreamRange.new 100 [⟨200, false, false⟩])
      (IStream.of_list [0, 0, 0, 1, 109, 100, 97, 116, 0, 0, 0, 2, 0, 0, 0, 24])).2.1.m_size
        = 2 * 2 ^ 32 + 24 := by
  refine ⟨by decide, by decide, ?_⟩
  have h := header_parse_recovers_size_and_type {} (BitstreamRange.new 100 [⟨200, false, false⟩])
    (IStream.of_list [0, 0, 0, 1, 109, 100, 97, 116, 0, 0, 0, 2, 0, 0, 0, 24])
    (by decide) (by decide)
  exact (h.2.2 (by decide)).1

/-- Claim C5, amended: when the budget of the range (and of the ranges enclosing
it) and the source hold the complete header (8 bytes, 8 more when the size field
is 1, 16 more when the type is `uuid`), the header size after `BoxHeader::parse`
equals the number of source bytes consumed. -/
theorem header_size_eq_bytes_consumed (hdr0 : BoxHeader) (range : List BitstreamRange)
    (s : IStream) (hb : BitstreamRange.covers range (BoxHeader.encoded_size s))
    (hs : s.avail (BoxHeader.encoded_size s)) :
    (BoxHeader.parse hdr0 range s).2.2.2.pos
      = s.pos + (BoxHeader.parse hdr0 range s).2.1.m_header_size ∧
    (BoxHeader.parse hdr0 range s).2.1.m_header_size = BoxHeader.encoded_size s := by
  unfold BoxHeader.encoded_size at hb hs ⊢
  have hb8 : BitstreamRange.covers range (4 + 4) := BitstreamRange.covers_mono range _ _ hb (by omega)
  have hs8 : s.avail (4 + 4) := IStream.avail_mono s _ _ hs (by omega)
  have r1 := read32_covers range s (BitstreamRange.covers_mono range _ _ hb8 (by omega))
    (IStream.avail_mono s _ _ hs8 (by omega))
  have r2 := read32_covers _ _ (BitstreamRange.covers_debit range 4 4 hb8)
    (IStream.avail_advance s 4 4 hs8)
  rw [IStream.bytes_advance, IStream.pos_advance] at r2
  by_cases h1 : be (s.bytes s.pos 4) = 1
  · rw [if_pos h1] at hb hs ⊢
    have hb16 : BitstreamRange.covers range (4 + (4 + (4 + 4))) :=
      BitstreamRange.covers_mono range _ _ hb (by omega)
    have hs16 : s.avail (4 + (4 + (4 + 4))) := IStream.avail_mono s _ _ hs (by omega)
    have hb2 := BitstreamRange.covers_debit _ 4 (4 + 4)
      (BitstreamRange.covers_debit range 4 (4 + (4 + 4)) hb16)
    have hs2 := IStream.avail_advance _ 4 (4 + 4) (IStream.avail_advance s 4 (4 + (4 + 4)) hs16)
    have r3 := read32_covers _ _ (BitstreamRange.covers_mono _ _ _ hb2 (by omega))
      (IStream.avail_mono _ _ _ hs2 (by omega))
    have r4 := read32_covers _ _ (BitstreamRange.covers_debit _ 4 4 hb2)
      (IStream.avail_advance _ 4 4 hs2)
    simp only [IStream.bytes_advance, IStream.pos_advance] at r3 r4
    rw [h1] at r1
    rw [BoxHeader.parse_long hdr0 range s _ _ _ _ _ _ _ _ _ _ _ r1 r2 r3 r4]
    simp only [BitstreamRange.debit_debit, IStream.advance_advance] at *
    have hu := BoxHeader.parse_uuid_covers
      { hdr0 with m_size := ((be (s.bytes (s.pos + 4 + 4) 4) <<< 32) |||
                    be (s.bytes (s.pos + 4 + 4 + 4) 4)) % 2 ^ 64,
                  m_type := be (s.bytes (s.pos + 4) 4), m_header_size := 8 + 8 }
      (List.map (BitstreamRange.debit (4 + 4 + 4 + 4)) range) (s.advance (4 + 4 + 4 + 4))
      (BitstreamRange.covers_debit range _ _ (BitstreamRange.covers_mono range _ _ hb (by
        dsimp only; omega)))
      (IStream.avail_advance s _ _ (IStream.avail_mono s _ _ hs (by dsimp only; omega)))
    dsimp only at hu
    rw [hu.1, hu.2, IStream.pos_advance, IStream.pos_advance]
    omega
  · rw [if_neg h1] at hb hs ⊢
    rw [BoxHeader.parse_short hdr0 range s _ _ _ _ _ _ r1 r2 h1]
    simp only [BitstreamRange.debit_debit, IStream.advance_advance] at *
    have hu := BoxHeader.parse_uuid_covers
      { hdr0 with m_size := be (s.bytes s.pos 4), m_type := be (s.bytes (s.pos + 4) 4),
                  m_header_size := 8 }
      (List.map (BitstreamRange.debit (4 + 4)) range) (s.advance (4 + 4))
      (BitstreamRange.covers_debit range _ _ (BitstreamRange.covers_mono range _ _ hb (by
        dsimp only; omega)))
      (IStream.avail_advance s _ _ (IStream.avail_mono s _ _ hs (by dsimp only; omega)))
    dsimp only at hu
    rw [hu.1, hu.2, IStream.pos_advance, IStream.pos_advance]
    omega

/-- Claim C5, amended, on a `uuid` header of 24 bytes. -/
theorem header_size_eq_bytes_consumed_witness :
    BitstreamRange.covers (BitstreamRange.new 40 [])
      (BoxHeader.encoded_size (IStream.of_list ([0, 0, 0, 40, 117, 117, 105, 100] ++
        List.range 16 ++ [7, 7, 7, 7, 7, 7, 7, 7]))) ∧
    (BoxHeader.parse {} (BitstreamRange.new 40 [])
      (IStream.of_list ([0, 0, 0, 40, 117, 117, 105, 100] ++ List.range 16 ++
        [7, 7, 7, 7, 7, 7, 7, 7]))).2.2.2.pos = 24 := by
  refine ⟨by decide, ?_⟩
  have h := header_size_eq_bytes_consumed {} (BitstreamRange.new 40 [])
    (IStream.of_list ([0, 0, 0, 40, 117, 117, 105, 100] ++ List.range 16 ++
      [7, 7, 7, 7, 7, 7, 7, 7])) (by decide) (by decide)
  rw [h.1, h.2]
  decide

/-- Claim C5 as stated fails on a truncated source: with 6 bytes in the source the
header decoder consumes 6 bytes and sets the header size to 8. -/
theorem header_size_on_truncated_source :
    (BoxHeader.parse {} (BitstreamRange.new 24 [])
      (IStream.of_list [0, 0, 0, 24, 102, 116])).2.1.m_header_size = 8 ∧
    (IStream.of_list [0, 0, 0, 24, 102, 116]).pos = 0 ∧
    (BoxHeader.parse {} (BitstreamRange.new 24 [])
      (IStream.of_list [0, 0, 0, 24, 102, 116])).2.2.2.pos = 6 := by
  decide

/-- Claim C6 on two `uuid` headers: the string has two hyphens, after the bytes 8
and 12, instead of the 8-4-4-4-12 grouping, and only the first byte is padded to
two digits. -/
theorem uuid_type_string_grouping :
    BoxHeader.get_type_string
        { m_type := fourcc "uuid",
          m_uuid_type := [0x10, 0x11, 0x12, 0x13, 0x14, 0x15, 0x16, 0x17, 0x18, 0x19, 0x1a,
            0x1b, 0x1c, 0x1d, 0x1e, 0x1f] }
      = "1011121314151617-18191a1b-1c1d1e1f" ∧
    BoxHeader.get_type_string
        { m_type := fourcc "uuid",
          m_uuid_type := [0, 1, 2, 3, 4, 5, 6, 7, 8, 9, 10, 11, 12, 13, 14, 15] }
      = "001234567-89ab-cdef" := by
  decide!

/-! ## The cursor after a box: claims C7 and C8 -/

/-- Claim C7 on `file_huge_box`: the box of unknown type has the declared size
`S = 2^31 + 8`, all of it in the source and within the budget `2^31 + 16` of the
parent. `Box::read` returns a generic box, but the content size `2^31` does not
fit the `int` parameter of `read`: the parent ends with no budget left and the
error flag set, and the cursor at `2^32 + 16` instead of `S` (for a stream
that refuses to seek past its end: at the end of the source, in the fail
state). -/
theorem generic_box_of_2GiB_not_skipped :
    (Box.read 1 (BitstreamRange.new (2 ^ 31 + 16) []) file_huge_box).map
        (fun r => (r.1.map Box.is_generic, r.2.1, r.2.2.pos, r.2.2.failbit))
      = some (some true, [⟨0, true, true⟩], 2 ^ 32 + 16, false) ∧
    (Box.read 1 (BitstreamRange.new (2 ^ 31 + 16) [])
        { file_huge_box with strict_seek := true }).map
        (fun r => (r.1.map Box.is_generic, r.2.1, r.2.2.pos, r.2.2.failbit))
      = some (some true, [⟨0, true, true⟩], 2 ^ 31 + 16, true) := by
  decide!

/-- Claim C8 on `file_pitm_trailing`: the `pitm` box declares 16 bytes and its decoder
consumes 14; after `Box::read` the cursor is at 14, not at 16, and the parent has
10 bytes of budget left, not 8. -/
theorem pitm_trailing_bytes_not_skipped :
    (Box.read 1 (BitstreamRange.new 24 []) (IStream.of_list file_pitm_trailing)).map
        (fun r => (r.1.map Box.pitm_item_ID, r.2.1, r.2.2.pos))
      = some (some (some 1), [⟨10, false, false⟩], 14) := by
  decide!

/-! ## The item information entry: claims C9 and C10 -/

/-- Claim C9: on a well-formed `infe` content of version 0 or 1 within budget
(version and flags, two 16-bit fields, three NUL-terminated strings), the
decoder yields the item ID and the protection index as the big-endian values of
the two fields, the item name, the content type and the content encoding as the
three strings in that order, and leaves item type and URI type empty; the
content is consumed exactly. -/
theorem infe_version_0_1_fields (hdr : BoxHeader) (range : List BitstreamRange) (s : IStream)
    (ver f0 f1 f2 ih il ph pl : Nat) (name ctype cenc : List Nat)
    (hver : ver ≤ 1)
    (hname : ∀ b ∈ name, b ≠ 0) (hctype : ∀ b ∈ ctype, b ≠ 0) (hcenc : ∀ b ∈ cenc, b ≠ 0)
    (hh : s.holds s.pos ([ver, f0, f1, f2] ++ ([ih, il] ++ ([ph, pl] ++
      ((name ++ [0]) ++ ((ctype ++ [0]) ++ (cenc ++ [0])))))))
    (hr : BitstreamRange.covers range
      (4 + (2 + (2 + ((name.length + 1) + ((ctype.length + 1) + (cenc.length + 1)))))))
    (hs : s.avail
      (4 + (2 + (2 + ((name.length + 1) + ((ctype.length + 1) + (cenc.length + 1))))))) :
    (Box_infe.parse hdr range s).2.1.m_item_ID = ih * 256 + il ∧
    (Box_infe.parse hdr range s).2.1.m_item_protection_index = ph * 256 + pl ∧
    (Box_infe.parse hdr range s).2.1.m_item_name = name ∧
    (Box_infe.parse hdr range s).2.1.m_content_type = ctype ∧
    (Box_infe.parse hdr range s).2.1.m_content_encoding = cenc ∧
    (Box_infe.parse hdr range s).2.1.m_item_type = [] ∧
    (Box_infe.parse hdr range s).2.1.m_item_uri_type = [] ∧
    (Box_infe.parse hdr range s).2.2.2.pos = s.pos +
      (4 + (2 + (2 + ((name.length + 1) + ((ctype.length + 1) + (cenc.length + 1)))))) := by
  rw [IStream.holds_append] at hh
  obtain ⟨hh0, hh⟩ := hh
  rw [IStream.holds_append] at hh
  obtain ⟨hh1, hh⟩ := hh
  rw [IStream.holds_append] at hh
  obtain ⟨hh2, hh⟩ := hh
  rw [IStream.holds_append] at hh
  obtain ⟨hh3, hh⟩ := hh
  rw [IStream.holds_append] at hh
  obtain ⟨hh4, hh5⟩ := hh
  have e0 := BoxHeader.parse_full_box_header_holds hdr range s ver f0 f1 f2
    (BitstreamRange.covers_mono _ _ _ hr (by omega)) (IStream.avail_mono _ _ _ hs (by omega)) hh0
  have hr1 := BitstreamRange.covers_debit range 4 _ hr
  have hs1 := IStream.avail_advance s 4 _ hs
  have e1 := read16_holds _ _ [ih, il] rfl
    (BitstreamRange.covers_mono _ _ _ hr1 (by omega)) (IStream.avail_mono _ _ _ hs1 (by omega)) hh1
  have hr2 := BitstreamRange.covers_debit _ 2 _ hr1
  have hs2 := IStream.avail_advance _ 2 _ hs1
  have e2 := read16_holds _ _ [ph, pl] rfl
    (BitstreamRange.covers_mono _ _ _ hr2 (by omega)) (IStream.avail_mono _ _ _ hs2 (by omega)) hh2
  have hr3 := BitstreamRange.covers_debit _ 2 _ hr2
  have hs3 := IStream.avail_advance _ 2 _ hs2
  have e3 := read_string_holds name _ _ hname hh3
    (BitstreamRange.covers_mono _ _ _ hr3 (by omega)) (IStream.avail_mono _ _ _ hs3 (by omega))
  have hr4 := BitstreamRange.covers_debit _ (name.length + 1) _ hr3
  have hs4 := IStream.avail_advance _ (name.length + 1) _ hs3
  have hh4' : ((((s.advance 4).advance 2).advance 2).advance (name.length + 1)).holds
      ((((s.advance 4).advance 2).advance 2).advance (name.length + 1)).pos (ctype ++ [0]) := by
    simpa [IStream.holds, IStream.advance, IStream.bytes, Nat.add_assoc] using hh4
  have e4 := read_string_holds ctype _ _ hctype hh4'
    (BitstreamRange.covers_mono _ _ _ hr4 (by omega)) (IStream.avail_mono _ _ _ hs4 (by omega))
  have hr5 := BitstreamRange.covers_debit _ (ctype.length + 1) _ hr4
  have hs5 := IStream.avail_advance _ (ctype.length + 1) _ hs4
  have hh5' : (((((s.advance 4).advance 2).advance 2).advance (name.length + 1)).advance
        (ctype.length + 1)).holds
      (((((s.advance 4).advance 2).advance 2).advance (name.length + 1)).advance
        (ctype.length + 1)).pos (cenc ++ [0]) := by
    simpa [IStream.holds, IStream.advance, IStream.bytes, Nat.add_assoc] using hh5
  have e5 := read_string_holds cenc _ _ hcenc hh5' hr5 hs5
  unfold Box_infe.parse
  rw [e0]
  dsimp only
  rw [if_pos hver, e1]
  dsimp only
  rw [e2]
  dsimp only
  rw [e3]
  dsimp only
  rw [e4]
  dsimp only
  rw [e5]
  refine ⟨?_, ?_, rfl, rfl, rfl, rfl, rfl, ?_⟩
  · simp [be, List.foldl]
  · simp [be, List.foldl]
  · simp only [IStream.advance]
    omega

/-- Claim C9 on a content with item ID 5, protection index 1, name `ab`, content type `c` and an empty content encoding. -/
theorem infe_version_0_1_fields_witness :
    (IStream.of_list [0, 0, 0, 0, 0, 5, 0, 1, 97, 98, 0, 99, 0, 0]).holds 0
      ([0, 0, 0, 0] ++ ([0, 5] ++ ([0, 1] ++ (([97, 98] ++ [0]) ++ (([99] ++ [0]) ++
        ([] ++ [0])))))) ∧
    (Box_infe.parse {} (BitstreamRange.new 14 [⟨30, false, false⟩])
      (IStream.of_list [0, 0, 0, 0, 0, 5, 0, 1, 97, 98, 0, 99, 0, 0])).2.1.m_item_name
        = [97, 98] ∧
    (Box_infe.parse {} (BitstreamRange.new 14 [⟨30, false, false⟩])
      (IStream.of_list [0, 0, 0, 0, 0, 5, 0, 1, 97, 98, 0, 99, 0, 0])).2.1.m_item_ID = 5 := by
  have h := infe_version_0_1_fields {} (BitstreamRange.new 14 [⟨30, false, false⟩])
    (IStream.of_list [0, 0, 0, 0, 0, 5, 0, 1, 97, 98, 0, 99, 0, 0])
    0 0 0 0 0 5 0 1 [97, 98] [99] [] (by decide) (by decide) (by decide) (by decide)
    (by decide) (by decide) (by decide)
  exact ⟨by decide, h.2.2.1, h.1⟩

/-- Claim C10 on `infe_body_v2` (version 2, item type `hvc1`, item name `Name`): the
decoder reads a second 32-bit word after the item type field and takes the item
type from it, so the decoded item type is `Name` and the item name is empty. -/
theorem infe_item_type_read_twice :
    (Box_infe.parse {} (BitstreamRange.new 17 []) (IStream.of_list infe_body_v2)).2.1.m_item_type
      = [78, 97, 109, 101] ∧
    (Box_infe.parse {} (BitstreamRange.new 17 []) (IStream.of_list infe_body_v2)).2.1.m_item_name
      = [] ∧
    to_fourcc (be [104, 118, 99, 49]) = [104, 118, 99, 49] := by
  decide!

/-! ## Reads on a chain of ranges that all hold the bytes -/

/-- Debiting every range of a chain by `n` relates the chains by `debited n`. -/
theorem BitstreamRange.debited_map (range : List BitstreamRange) (n : Nat)
    (h : BitstreamRange.covers range n) :
    BitstreamRange.debited n range (range.map (BitstreamRange.debit n)) := by
  obtain ⟨-, hall⟩ := h
  unfold BitstreamRange.debited
  induction range with
  | nil => exact List.Forall₂.nil
  | cons r rs ih =>
    refine List.Forall₂.cons ⟨?_, rfl⟩ (ih (fun q hq => hall q (List.mem_cons_of_mem _ hq)))
    have := hall r (List.mem_cons_self _ _)
    simp only [BitstreamRange.debit]
    omega

/-- A chain is `debited 0` from itself. -/
theorem BitstreamRange.debited_zero (range : List BitstreamRange) :
    BitstreamRange.debited 0 range range := by
  unfold BitstreamRange.debited
  induction range with
  | nil => exact List.Forall₂.nil
  | cons r rs ih => exact List.Forall₂.cons ⟨rfl, rfl⟩ ih

/-- Two debits in a row add up. -/
theorem BitstreamRange.debited_trans (a b : Nat) :
    ∀ (r1 r2 r3 : List BitstreamRange), BitstreamRange.debited a r1 r2 →
      BitstreamRange.debited b r2 r3 → BitstreamRange.debited (a + b) r1 r3 := by
  intro r1
  unfold BitstreamRange.debited
  induction r1 with
  | nil =>
    intro r2 r3 h12 h23
    cases h12
    cases h23
    exact List.Forall₂.nil
  | cons x xs ih =>
    intro r2 r3 h12 h23
    cases h12 with
    | cons hx hxs =>
      cases h23 with
      | cons hy hys =>
        exact List.Forall₂.cons ⟨by omega, by rw [hy.2, hx.2]⟩ (ih _ _ hxs hys)

/-- A chain that covers `a + k` bytes covers `k` bytes after a debit of `a`. -/
theorem BitstreamRange.covers_debited (a k : Nat) :
    ∀ (r1 r2 : List BitstreamRange), BitstreamRange.covers r1 (a + k) →
      BitstreamRange.debited a r1 r2 → BitstreamRange.covers r2 k := by
  intro r1 r2 hc hd
  obtain ⟨hne, hall⟩ := hc
  unfold BitstreamRange.debited at hd
  constructor
  · intro h
    subst h
    cases hd
    exact hne rfl
  · clear hne
    induction hd with
    | nil => intro q hq; cases hq
    | cons hx _ ih =>
      intro q hq
      rcases List.mem_cons.1 hq with rfl | hq
      · have := hall _ (List.mem_cons_self _ _)
        omega
      · exact ih (fun q hq => hall q (List.mem_cons_of_mem _ hq)) q hq

/-- A debit leaves the error flag of the range as it was. -/
theorem BitstreamRange.error_debited (a : Nat) (r1 r2 : List BitstreamRange)
    (hd : BitstreamRange.debited a r1 r2) :
    BitstreamRange.error r2 = BitstreamRange.error r1 := by
  unfold BitstreamRange.debited at hd
  cases hd with
  | nil => rfl
  | cons hx _ => exact hx.2

/-- A debit of `a` lowers the budget of the range by `a`. -/
theorem BitstreamRange.remaining_debited (a : Nat) (r1 r2 : List BitstreamRange)
    (hd : BitstreamRange.debited a r1 r2) (hne : r1 ≠ []) :
    BitstreamRange.remaining r2 + a = BitstreamRange.remaining r1 := by
  unfold BitstreamRange.debited at hd
  cases hd with
  | nil => exact absurd rfl hne
  | cons hx _ => exact hx.1

/-- A chain and source that are ready for `a ++ rest` are ready for `a`. -/
theorem ready_append (range : List BitstreamRange) (s : IStream) (a rest : List Nat)
    (h : ready range s (a ++ rest)) : ready range s a := by
  obtain ⟨hc, hs, hh⟩ := h
  rw [List.length_append] at hc hs
  exact ⟨BitstreamRange.covers_mono _ _ _ hc (Nat.le_add_right _ _),
    IStream.avail_mono _ _ _ hs (Nat.le_add_right _ _), ((IStream.holds_append _ _ _ _).1 hh).1⟩

/-- After `a` is consumed, chain and source are ready for the bytes that follow `a`. -/
theorem ready_step (range range' : List BitstreamRange) (s : IStream) (a rest : List Nat)
    (h : ready range s (a ++ rest)) (hd : BitstreamRange.debited a.length range range') :
    ready range' (s.advance a.length) rest := by
  obtain ⟨hc, hs, hh⟩ := h
  rw [List.length_append] at hc hs
  exact ⟨BitstreamRange.covers_debited _ _ _ _ hc hd, IStream.avail_advance _ _ _ hs,
    ((IStream.holds_append _ _ _ _).1 hh).2⟩

/-- When the byte `b` is next, `read8` returns it, debits one byte and leaves the rest ready. -/
theorem read8_ready (range : List BitstreamRange) (s : IStream) (b : Nat) (rest : List Nat)
    (h : ready range s (b :: rest)) :
    ∃ range', read8 range s = (b, range', s.advance 1) ∧
      BitstreamRange.debited 1 range range' ∧ ready range' (s.advance 1) rest := by
  have h1 : ready range s [b] := ready_append range s [b] rest h
  obtain ⟨hc, hs, hh⟩ := h1
  have hd := BitstreamRange.debited_map range 1 hc
  refine ⟨range.map (BitstreamRange.debit 1), ?_, hd, ready_step range _ s [b] rest h hd⟩
  have e1 := BitstreamRange.read_covers range 1 (by decide) s hc
  have e2 := IStream.read_avail s 1 hs.1 hs.2
  have hb : s.bytes s.pos 1 = [b] := hh
  unfold read8
  rw [show ((1 : Int)) = ((1 : Nat) : Int) from rfl, e1]
  dsimp only
  rw [e2, hb]
  have hf : (s.advance 1).failbit = false := hs.1
  simp [hf]

/-- When the two bytes `a` are next, `read16` returns their big-endian value, debits two bytes
and leaves the rest ready. -/
theorem read16_ready (range : List BitstreamRange) (s : IStream) (a rest : List Nat)
    (ha : a.length = 2) (h : ready range s (a ++ rest)) :
    ∃ range', read16 range s = (be a, range', s.advance 2) ∧
      BitstreamRange.debited 2 range range' ∧ ready range' (s.advance 2) rest := by
  have h1 := ready_append range s a rest h
  obtain ⟨hc, hs, hh⟩ := h1
  rw [ha] at hc hs
  have hd := BitstreamRange.debited_map range 2 hc
  refine ⟨range.map (BitstreamRange.debit 2), read16_holds range s a ha hc hs hh, hd, ?_⟩
  have := ready_step range _ s a rest h (by rw [ha]; exact hd)
  rw [ha] at this
  exact this

/-- When the four bytes `a` are next, `read32` returns their big-endian value, debits four bytes
and leaves the rest ready. -/
theorem read32_ready (range : List BitstreamRange) (s : IStream) (a rest : List Nat)
    (ha : a.length = 4) (h : ready range s (a ++ rest)) :
    ∃ range', read32 range s = (be a, range', s.advance 4) ∧
      BitstreamRange.debited 4 range range' ∧ ready range' (s.advance 4) rest := by
  have h1 := ready_append range s a rest h
  obtain ⟨hc, hs, hh⟩ := h1
  rw [ha] at hc hs
  have hd := BitstreamRange.debited_map range 4 hc
  refine ⟨range.map (BitstreamRange.debit 4), read32_holds range s a ha hc hs hh, hd, ?_⟩
  have := ready_step range _ s a rest h (by rw [ha]; exact hd)
  rw [ha] at this
  exact this

/-! ## The item location box: claims C11 and C12 -/

/-- The big-endian value of a concatenation. -/
theorem be_append (l1 l2 : List Nat) : be (l1 ++ l2) = be l1 * 256 ^ l2.length + be l2 := by
  unfold be
  rw [List.foldl_append]
  generalize List.foldl (fun acc b => acc * 256 + b) 0 l1 = x
  induction l2 generalizing x with
  | nil => simp
  | cons y ys ih =>
    simp only [List.foldl_cons]
    rw [ih (x * 256 + y), ih (0 * 256 + y)]
    simp only [List.length_cons, pow_succ]
    ring

/-- A field of selector `size` in `iloc`: selector 4 reads the next four bytes, selector 8 the
next eight, as one big-endian value; any other selector reads nothing and gives 0. -/
theorem Box_iloc.read_sized_ready (size : Nat) (range : List BitstreamRange) (s : IStream)
    (a rest : List Nat) (ha : a.length = Box_iloc.field_width size)
    (h : ready range s (a ++ rest)) :
    ∃ range', Box_iloc.read_sized size range s = (be a, range', s.advance a.length) ∧
      BitstreamRange.debited a.length range range' ∧
      ready range' (s.advance a.length) rest := by
  unfold Box_iloc.field_width at ha
  unfold Box_iloc.read_sized
  by_cases h4 : size = 4
  · rw [if_pos h4] at ha
    rw [if_pos h4, ha]
    exact read32_ready range s a rest ha h
  · rw [if_neg h4] at ha
    rw [if_neg h4]
    by_cases h8 : size = 8
    · rw [if_pos h8] at ha
      rw [if_pos h8]
      have hsplit : a = a.take 4 ++ a.drop 4 := (List.take_append_drop 4 a).symm
      have ht : (a.take 4).length = 4 := by rw [List.length_take, ha]; rfl
      have hdr : (a.drop 4).length = 4 := by rw [List.length_drop, ha]
      have h' : ready range s (a.take 4 ++ (a.drop 4 ++ rest)) := by
        rw [← List.append_assoc, ← hsplit]; exact h
      obtain ⟨r1, e1, d1, h1⟩ := read32_ready range s (a.take 4) _ ht h'
      obtain ⟨r2, e2, d2, h2⟩ := read32_ready r1 _ (a.drop 4) _ hdr h1
      refine ⟨r2, ?_, ?_, ?_⟩
      · rw [e1]
        dsimp only
        rw [e2, IStream.advance_advance, ha]
        have hlo : be (a.drop 4) < 2 ^ 32 := by
          have := be_lt (a.drop 4) (fun b hb =>
            IStream.holds_lt _ _ _ h1.2.2 b (List.mem_append_left _ hb))
          rw [hdr] at this
          exact this
        have hhi : be (a.take 4) < 2 ^ 32 := by
          have := be_lt (a.take 4) (fun b hb =>
            IStream.holds_lt _ _ _ h'.2.2 b (List.mem_append_left _ hb))
          rw [ht] at this
          exact this
        have hv : ((be (a.take 4) <<< 32) % 2 ^ 64) ||| be (a.drop 4) = be a := by
          have e : (be (a.take 4) <<< 32) % 2 ^ 64 = 2 ^ 32 * be (a.take 4) := by
            rw [Nat.shiftLeft_eq, Nat.mul_comm]
            apply Nat.mod_eq_of_lt
            omega
          rw [e, ← Nat.mul_add_lt_is_or hlo]
          conv_rhs => rw [hsplit, be_append, hdr]
          norm_num
          ring
        rw [hv]
      · have := BitstreamRange.debited_trans 4 4 range r1 r2 d1 d2
        rw [ha]
        exact this
      · rw [IStream.advance_advance] at h2
        rw [ha]
        exact h2
    · rw [if_neg h8] at ha
      rw [if_neg h8]
      have hnil : a = [] := List.length_eq_zero.1 ha
      subst hnil
      exact ⟨range, rfl, BitstreamRange.debited_zero range, h⟩

/-- The version and flags word of a full box, when its four bytes are next. -/
theorem BoxHeader.parse_full_box_header_ready (hdr : BoxHeader) (range : List BitstreamRange)
    (s : IStream) (ver f0 f1 f2 : Nat) (rest : List Nat)
    (h : ready range s ([ver, f0, f1, f2] ++ rest)) :
    ∃ range', hdr.parse_full_box_header range s
        = (BitstreamRange.get_error range',
            { hdr with m_version := ver, m_flags := be [f0, f1, f2], m_is_full_box := true,
                       m_header_size := (hdr.m_header_size + 4) % 2 ^ 32 },
            range', s.advance 4) ∧
      BitstreamRange.debited 4 range range' ∧ ready range' (s.advance 4) rest := by
  have h1 := ready_append range s _ rest h
  obtain ⟨hc, hs, hh⟩ := h1
  have hd := BitstreamRange.debited_map range 4 hc
  exact ⟨range.map (BitstreamRange.debit 4),
    BoxHeader.parse_full_box_header_holds hdr range s ver f0 f1 f2 hc hs hh, hd,
    ready_step range _ s [ver, f0, f1, f2] rest h hd⟩

/-- The three nibbles that `Box_iloc::parse` takes from the 16-bit selector word. -/
theorem Box_iloc.selectors (os ls bs x : Nat) (hos : os < 16) (hls : ls < 16) (hbs : bs < 16)
    (hx : x < 16) :
    (be [os * 16 + ls, bs * 16 + x] >>> 12) &&& 0xF = os ∧
    (be [os * 16 + ls, bs * 16 + x] >>> 8) &&& 0xF = ls ∧
    (be [os * 16 + ls, bs * 16 + x] >>> 4) &&& 0xF = bs := by
  have hm : (0xF : Nat) = 2 ^ 4 - 1 := rfl
  simp only [hm, Nat.and_pow_two_sub_one_eq_mod, Nat.shiftRight_eq_div_pow, be, List.foldl]
  refine ⟨?_, ?_, ?_⟩ <;> omega

/-- Claim C11: for every value of the three width selectors (the offset, length and base-offset
nibbles of the selector word) and every `iloc` content with one item of one extent laid out with
these widths, within the budget of every range and present in the source, `Box_iloc::parse`
returns exactly that item: `base_offset`, `extent.offset` and `extent.length` are the big-endian
values of their fields, four bytes for selector 4, eight bytes for selector 8 and no byte (value
0) for any other selector, and the cursor has advanced by the length of the layout. -/
theorem iloc_single_item_single_extent (hdr : BoxHeader) (range : List BitstreamRange)
    (s : IStream) (ver f0 f1 f2 os ls bs x : Nat) (id dri bo off len rest : List Nat)
    (hos : os < 16) (hls : ls < 16) (hbs : bs < 16) (hx : x < 16)
    (hid : id.length = 2) (hdri : dri.length = 2)
    (hbo : bo.length = Box_iloc.field_width bs)
    (hoff : off.length = Box_iloc.field_width os)
    (hlen : len.length = Box_iloc.field_width ls)
    (herr : BitstreamRange.error range = false)
    (h : ready range s ([ver, f0, f1, f2] ++ ([os * 16 + ls, bs * 16 + x] ++ ([0, 1] ++
      (id ++ (dri ++ (bo ++ ([0, 1] ++ (off ++ (len ++ rest)))))))))) :
    (Box_iloc.parse hdr range s).2.1.m_items
      = [{ item_ID := be id, data_reference_index := be dri, base_offset := be bo,
           extents := [{ offset := be off, length := be len }] }] ∧
    (Box_iloc.parse hdr range s).2.2.2
      = s.advance (4 + 2 + 2 + 2 + 2 + bo.length + 2 + off.length + len.length) := by
  obtain ⟨r0, e0, d0, h0⟩ := BoxHeader.parse_full_box_header_ready hdr range s ver f0 f1 f2 _ h
  obtain ⟨r1, e1, d1, h1⟩ := read16_ready r0 _ [os * 16 + ls, bs * 16 + x] _ rfl h0
  obtain ⟨r2, e2, d2, h2⟩ := read16_ready r1 _ [0, 1] _ rfl h1
  obtain ⟨r3, e3, d3, h3⟩ := read16_ready r2 _ id _ hid h2
  obtain ⟨r4, e4, d4, h4⟩ := read16_ready r3 _ dri _ hdri h3
  obtain ⟨r5, e5, d5, h5⟩ := Box_iloc.read_sized_ready bs r4 _ bo _ hbo h4
  obtain ⟨r6, e6, d6, h6⟩ := read16_ready r5 _ [0, 1] _ rfl h5
  obtain ⟨r7, e7, d7, h7⟩ := Box_iloc.read_sized_ready os r6 _ off _ hoff h6
  obtain ⟨r8, e8, d8, _⟩ := Box_iloc.read_sized_ready ls r7 _ len _ hlen h7
  obtain ⟨s1, s2, s3⟩ := Box_iloc.selectors os ls bs x hos hls hbs hx
  have herr8 : BitstreamRange.error r8 = false := by
    rw [BitstreamRange.error_debited _ _ _ d8, BitstreamRange.error_debited _ _ _ d7,
      BitstreamRange.error_debited _ _ _ d6, BitstreamRange.error_debited _ _ _ d5,
      BitstreamRange.error_debited _ _ _ d4, BitstreamRange.error_debited _ _ _ d3,
      BitstreamRange.error_debited _ _ _ d2, BitstreamRange.error_debited _ _ _ d1,
      BitstreamRange.error_debited _ _ _ d0, herr]
  have hone : be [0, 1] = 1 := rfl
  unfold Box_iloc.parse
  rw [e0]
  dsimp only
  rw [e1]
  dsimp only
  rw [e2, s1, s2, s3, hone]
  dsimp only
  unfold Box_iloc.parse_items
  rw [e3]
  dsimp only
  rw [e4]
  dsimp only
  rw [e5]
  dsimp only
  rw [e6, hone]
  dsimp only
  unfold Box_iloc.parse_extents
  rw [e7]
  dsimp only
  rw [e8]
  dsimp only
  unfold Box_iloc.parse_extents
  dsimp only
  rw [herr8]
  unfold Box_iloc.parse_items
  refine ⟨rfl, ?_⟩
  dsimp only
  simp only [IStream.advance_advance]

/-- An instance of claim C11: offsets of 8 bytes, no length field, base offset of 4 bytes. -/
theorem iloc_single_item_single_extent_witness :
    ready (BitstreamRange.new 30 [⟨60, false, false⟩])
      (IStream.of_list [0, 0, 0, 0, 0x80, 0x40, 0, 1, 0, 7, 0, 2, 0, 0, 1, 0, 0, 1,
        0, 0, 0, 1, 0, 0, 0, 5])
      ([0, 0, 0, 0] ++ ([8 * 16 + 0, 4 * 16 + 0] ++ ([0, 1] ++ ([0, 7] ++ ([0, 2] ++
        ([0, 0, 1, 0] ++ ([0, 1] ++ ([0, 0, 0, 1, 0, 0, 0, 5] ++ ([] ++ [])))))))))  ∧
    (Box_iloc.parse {} (BitstreamRange.new 30 [⟨60, false, false⟩])
      (IStream.of_list [0, 0, 0, 0, 0x80, 0x40, 0, 1, 0, 7, 0, 2, 0, 0, 1, 0, 0, 1,
        0, 0, 0, 1, 0, 0, 0, 5])).2.1.m_items
      = [{ item_ID := 7, data_reference_index := 2, base_offset := 256,
           extents := [{ offset := 2 ^ 32 + 5, length := 0 }] }] := by
  have h := iloc_single_item_single_extent {} (BitstreamRange.new 30 [⟨60, false, false⟩])
    (IStream.of_list [0, 0, 0, 0, 0x80, 0x40, 0, 1, 0, 7, 0, 2, 0, 0, 1, 0, 0, 1,
      0, 0, 0, 1, 0, 0, 0, 5])
    0 0 0 0 8 0 4 0 [0, 7] [0, 2] [0, 0, 1, 0] [0, 0, 0, 1, 0, 0, 0, 5] [] []
    (by decide) (by decide) (by decide) (by decide) (by decide) (by decide) (by decide)
    (by decide) (by decide) (by decide) (by decide)
  exact ⟨by decide, h.1⟩

/-! ## Reads on an exhausted range: claim C18 -/

/-- A read of one or more bytes on a range with nothing left fails, sets the error flag and
touches neither the ancestors nor the source. -/
theorem BitstreamRange.read_exhausted (r : BitstreamRange) (parent : List BitstreamRange)
    (n : Nat) (hn0 : 0 < n) (hn : n < 2 ^ 64) (s : IStream) (h : r.m_remaining = 0) :
    BitstreamRange.read (r :: parent) (n : Int) s
      = (false, { r with m_error := true } :: parent, s) :=
  BitstreamRange.read_cons_zero r parent n s
    (by rw [to_uint64_natCast n hn, h]; omega) h

/-- Claim C18: on a range in the error state or at EOF (so with `remaining = 0`), `read8`,
`read16` and `read32` return 0 and `read_string` returns the empty string, the source and the
ancestors are unchanged, and the range is in the error state afterwards, so the same holds for
every later read. -/
theorem reads_on_exhausted_range (r : BitstreamRange) (parent : List BitstreamRange)
    (s : IStream)
    (heof : r.m_end_reached = true ↔ r.m_remaining = 0)
    (herr : r.m_error = true → r.m_remaining = 0)
    (h : r.m_error = true ∨ r.m_end_reached = true) :
    read8 (r :: parent) s = (0, { r with m_error := true } :: parent, s) ∧
    read16 (r :: parent) s = (0, { r with m_error := true } :: parent, s) ∧
    read32 (r :: parent) s = (0, { r with m_error := true } :: parent, s) ∧
    read_string (r :: parent) s = ([], { r with m_error := true } :: parent, s) ∧
    BitstreamRange.error ({ r with m_error := true } :: parent) = true ∧
    (({ r with m_error := true } : BitstreamRange).m_error = true ∨
      ({ r with m_error := true } : BitstreamRange).m_end_reached = true) := by
  have h0 : r.m_remaining = 0 := by
    rcases h with h | h
    · exact herr h
    · exact heof.1 h
  have e1 := BitstreamRange.read_exhausted r parent 1 (by decide) (by decide) s h0
  have e2 := BitstreamRange.read_exhausted r parent 2 (by decide) (by decide) s h0
  have e4 := BitstreamRange.read_exhausted r parent 4 (by decide) (by decide) s h0
  refine ⟨?_, ?_, ?_, ?_, rfl, Or.inl rfl⟩
  · unfold read8
    rw [show ((1 : Int)) = ((1 : Nat) : Int) from rfl, e1]
    rfl
  · unfold read16
    rw [show ((2 : Int)) = ((2 : Nat) : Int) from rfl, e2]
    rfl
  · unfold read32
    rw [show ((4 : Int)) = ((4 : Nat) : Int) from rfl, e4]
    rfl
  · unfold read_string
    have hr : BitstreamRange.remaining (r :: parent) = 0 := h0
    rw [hr]
    unfold read_string_loop
    rw [show ((1 : Int)) = ((1 : Nat) : Int) from rfl, e1]
    rfl

/-- An instance of claim C18: a range at EOF inside a parent with seven bytes left. -/
theorem reads_on_exhausted_range_witness :
    read32 [⟨0, true, false⟩, ⟨7, false, false⟩] (IStream.of_list [1, 2, 3, 4, 5])
        = (0, [⟨0, true, true⟩, ⟨7, false, false⟩], IStream.of_list [1, 2, 3, 4, 5]) ∧
    read_string [⟨0, true, false⟩, ⟨7, false, false⟩] (IStream.of_list [1, 2, 3, 4, 5])
        = ([], [⟨0, true, true⟩, ⟨7, false, false⟩], IStream.of_list [1, 2, 3, 4, 5]) := by
  have h := reads_on_exhausted_range ⟨0, true, false⟩ [⟨7, false, false⟩]
    (IStream.of_list [1, 2, 3, 4, 5]) (by decide) (by decide) (by decide)
  exact ⟨h.2.2.1, h.2.2.2.1⟩

/-! ## Strings: claim C17 -/

/-- A read of one byte never moves the cursor: no range is left with a part of it. -/
theorem BitstreamRange.read_one_stream (s : IStream) :
    ∀ range : List BitstreamRange, (BitstreamRange.read range 1 s).2.2 = s := by
  intro range
  induction range with
  | nil => rfl
  | cons r parent ih =>
    have hu : to_uint64 (1 : Int) = 1 := to_uint64_natCast 1 (by decide)
    by_cases h : 1 ≤ r.m_remaining
    · rw [BitstreamRange.read_cons_le r parent 1 s (by rw [hu]; exact h)]
      exact ih
    · have h0 : r.m_remaining = 0 := by omega
      rw [BitstreamRange.read_cons_zero r parent 1 s (by rw [hu]; exact h) h0]

/-- A read of one byte on a range that has one. -/
theorem BitstreamRange.read_one (r : BitstreamRange) (parent : List BitstreamRange)
    (s : IStream) (h : 1 ≤ r.m_remaining) :
    BitstreamRange.read (r :: parent) 1 s
      = (true,
          { m_remaining := r.m_remaining - 1, m_end_reached := decide (r.m_remaining - 1 = 0),
            m_error := r.m_error } :: (BitstreamRange.read parent 1 s).2.1, s) := by
  have hu : to_uint64 (1 : Int) = 1 := to_uint64_natCast 1 (by decide)
  rw [BitstreamRange.read_cons_le r parent 1 s (by rw [hu]; exact h), hu,
    BitstreamRange.read_one_stream]

/-- The loop of `read_string` when a NUL lies within budget and source: the bytes before it are
returned and the cursor is behind the NUL. -/
theorem read_string_loop_found (str : List Nat) :
    ∀ (fuel : Nat) (acc : List Nat) (r : BitstreamRange) (parent : List BitstreamRange)
      (s : IStream),
      (∀ b ∈ str, b ≠ 0) → s.holds s.pos (str ++ [0]) → s.avail (str.length + 1) →
      str.length + 1 ≤ r.m_remaining → str.length + 1 ≤ fuel →
      (read_string_loop fuel acc (r :: parent) s).1 = acc ++ str ∧
      (read_string_loop fuel acc (r :: parent) s).2.2 = s.advance (str.length + 1) := by
  induction str with
  | nil =>
    intro fuel acc r parent s _ hh hs hr hfuel
    obtain ⟨k, rfl⟩ : ∃ k, fuel = k + 1 := ⟨fuel - 1, by simp at hfuel; omega⟩
    have e1 := BitstreamRange.read_one r parent s (by simpa using hr)
    have e2 := IStream.read_avail s 1 hs.1 hs.2
    have hh1 : s.bytes s.pos 1 = [0] := hh
    unfold read_string_loop
    rw [e1]
    dsimp only
    rw [e2, hh1]
    have hf : (s.advance 1).failbit = false := hs.1
    simp [hf]
  | cons c cs ih =>
    intro fuel acc r parent s hnz hh hs hr hfuel
    obtain ⟨k, rfl⟩ : ∃ k, fuel = k + 1 := ⟨fuel - 1, by simp at hfuel; omega⟩
    simp only [List.length_cons] at hs hr hfuel
    have hs1 : s.avail (1 + (cs.length + 1)) := by
      rw [Nat.add_comm]; exact hs
    have e1 := BitstreamRange.read_one r parent s (by omega)
    have e2 := IStream.read_avail s 1 hs.1 (by have := hs.2; omega)
    have hh' : s.holds s.pos ([c] ++ (cs ++ [0])) := hh
    rw [IStream.holds_append] at hh'
    have hh1 : s.bytes s.pos 1 = [c] := hh'.1
    have hc : c ≠ 0 := hnz c (List.mem_cons_self _ _)
    have hrec := ih k (acc ++ [c])
      { m_remaining := r.m_remaining - 1, m_end_reached := decide (r.m_remaining - 1 = 0),
        m_error := r.m_error } (BitstreamRange.read parent 1 s).2.1 (s.advance 1)
      (fun b hb => hnz b (List.mem_cons_of_mem _ hb)) hh'.2
      (IStream.avail_advance s 1 _ hs1) (by dsimp only; omega) (by omega)
    unfold read_string_loop
    rw [e1]
    dsimp only
    rw [e2, hh1]
    have hf : (s.advance 1).failbit = false := hs.1
    simp only [Bool.not_true, Bool.false_eq_true, if_false, hf, List.getD_cons_zero, hc]
    rw [hrec.1, hrec.2, IStream.advance_advance]
    simp [Nat.add_comm, Nat.add_left_comm]

/-- The loop of `read_string` when the budget or the source ends before a NUL: the result is
empty. -/
theorem read_string_loop_not_found (str : List Nat) :
    ∀ (fuel : Nat) (acc : List Nat) (r : BitstreamRange) (parent : List BitstreamRange)
      (s : IStream),
      (∀ b ∈ str, b ≠ 0) → s.holds s.pos str → s.failbit = false →
      s.pos + str.length ≤ s.size → str.length ≤ r.m_remaining →
      (str.length = r.m_remaining ∨ s.pos + str.length = s.size) →
      r.m_remaining + 1 ≤ fuel →
      (read_string_loop fuel acc (r :: parent) s).1 = [] := by
  induction str with
  | nil =>
    intro fuel acc r parent s _ _ hf hsz hr hout hfuel
    obtain ⟨k, rfl⟩ : ∃ k, fuel = k + 1 := ⟨fuel - 1, by omega⟩
    have hu : to_uint64 (1 : Int) = 1 := to_uint64_natCast 1 (by decide)
    unfold read_string_loop
    by_cases h1 : 1 ≤ r.m_remaining
    · have hend : s.pos = s.size := by
        rcases hout with h | h
        · simp at h; omega
        · simpa using h
      rw [BitstreamRange.read_one r parent s h1]
      dsimp only
      have e2 : s.read 1 = (s.bytes s.pos (s.size - s.pos) ++ List.replicate (1 - (s.size - s.pos)) 0,
          { s with pos := s.pos + (s.size - s.pos), failbit := true }) := by
        unfold IStream.read
        rw [hf]
        simp only [Bool.false_eq_true, if_false]
        rw [if_neg (by decide), if_neg (by omega)]
      rw [e2]
      simp
    · have h0 : r.m_remaining = 0 := by omega
      rw [BitstreamRange.read_cons_zero r parent 1 s (by rw [hu]; exact h1) h0]
      rfl
  | cons c cs ih =>
    intro fuel acc r parent s hnz hh hf hsz hr hout hfuel
    obtain ⟨k, rfl⟩ : ∃ k, fuel = k + 1 := ⟨fuel - 1, by omega⟩
    simp only [List.length_cons] at hsz hr hout
    have e1 := BitstreamRange.read_one r parent s (by omega)
    have e2 := IStream.read_avail s 1 hf (by omega)
    have hh' : s.holds s.pos ([c] ++ cs) := hh
    rw [IStream.holds_append] at hh'
    have hh1 : s.bytes s.pos 1 = [c] := hh'.1
    have hc : c ≠ 0 := hnz c (List.mem_cons_self _ _)
    have hrec := ih k (acc ++ [c])
      { m_remaining := r.m_remaining - 1, m_end_reached := decide (r.m_remaining - 1 = 0),
        m_error := r.m_error } (BitstreamRange.read parent 1 s).2.1 (s.advance 1)
      (fun b hb => hnz b (List.mem_cons_of_mem _ hb)) hh'.2 hf
      (by simp only [IStream.advance]; omega) (by dsimp only; omega)
      (by simp only [IStream.advance]; omega) (by dsimp only; omega)
    unfold read_string_loop
    rw [e1]
    dsimp only
    rw [e2, hh1]
    have hf2 : (s.advance 1).failbit = false := hf
    simp only [Bool.not_true, Bool.false_eq_true, if_false, hf2, List.getD_cons_zero, hc]
    exact hrec

/-- A read of `n` bytes moves the cursor forward by at most `n`. -/
theorem IStream.read_pos (s : IStream) (n : Nat) :
    s.pos ≤ (s.read n).2.pos ∧ (s.read n).2.pos ≤ s.pos + n := by
  unfold IStream.read
  split
  · exact ⟨Nat.le_refl _, Nat.le_add_right _ _⟩
  · split
    · exact ⟨Nat.le_refl _, Nat.le_add_right _ _⟩
    · split
      · exact ⟨Nat.le_add_right _ _, Nat.le_refl _⟩
      · dsimp only
        omega

/-- The loop of `read_string` moves the cursor forward by at most the budget of the range. -/
theorem read_string_loop_pos (fuel : Nat) :
    ∀ (acc : List Nat) (range : List BitstreamRange) (s : IStream),
      s.pos ≤ (read_string_loop fuel acc range s).2.2.pos ∧
      (read_string_loop fuel acc range s).2.2.pos ≤ s.pos + BitstreamRange.remaining range := by
  induction fuel with
  | zero =>
    intro acc range s
    exact ⟨Nat.le_refl _, Nat.le_add_right _ _⟩
  | succ k ih =>
    intro acc range s
    cases range with
    | nil => exact ⟨Nat.le_refl _, Nat.le_add_right _ _⟩
    | cons r parent =>
      have hu : to_uint64 (1 : Int) = 1 := to_uint64_natCast 1 (by decide)
      unfold read_string_loop
      by_cases h1 : 1 ≤ r.m_remaining
      · rw [BitstreamRange.read_one r parent s h1]
        dsimp only
        have hp := IStream.read_pos s 1
        generalize s.read 1 = rd at hp
        obtain ⟨buf, s1⟩ := rd
        dsimp only at hp ⊢
        simp only [BitstreamRange.remaining, Bool.not_true, Bool.false_eq_true, if_false]
        by_cases hfail : s1.failbit = true
        · rw [if_pos hfail]
          dsimp only
          omega
        · rw [if_neg hfail]
          by_cases hz : buf.getD 0 0 = 0
          · rw [if_pos hz]
            dsimp only
            omega
          · rw [if_neg hz]
            have hrec := ih (acc ++ [buf.getD 0 0])
              ({ m_remaining := r.m_remaining - 1,
                 m_end_reached := decide (r.m_remaining - 1 = 0),
                 m_error := r.m_error } :: (BitstreamRange.read parent 1 s).2.1) s1
            simp only [BitstreamRange.remaining] at hrec
            omega
      · have h0 : r.m_remaining = 0 := by omega
        rw [BitstreamRange.read_cons_zero r parent 1 s (by rw [hu]; exact h1) h0]
        exact ⟨Nat.le_refl _, Nat.le_add_right _ _⟩

/-- Claim C17: for every range (whatever its ancestors) and source, `read_string` returns the
bytes before the first NUL and leaves the cursor behind the NUL when the NUL lies within the
remaining budget and the source; it returns the empty string when the budget or the source runs
out before a NUL; and the cursor never moves back nor beyond the budget of the range. -/
theorem read_string_returns_bytes_before_nul (r : BitstreamRange)
    (parent : List BitstreamRange) (s : IStream) :
    (∀ str : List Nat, (∀ b ∈ str, b ≠ 0) → s.holds s.pos (str ++ [0]) →
      s.avail (str.length + 1) → str.length + 1 ≤ r.m_remaining →
      (read_string (r :: parent) s).1 = str ∧
      (read_string (r :: parent) s).2.2 = s.advance (str.length + 1)) ∧
    (∀ str : List Nat, (∀ b ∈ str, b ≠ 0) → s.holds s.pos str → s.failbit = false →
      s.pos + str.length ≤ s.size → str.length ≤ r.m_remaining →
      (str.length = r.m_remaining ∨ s.pos + str.length = s.size) →
      (read_string (r :: parent) s).1 = []) ∧
    (s.pos ≤ (read_string (r :: parent) s).2.2.pos ∧
      (read_string (r :: parent) s).2.2.pos ≤ s.pos + r.m_remaining) := by
  refine ⟨?_, ?_, ?_⟩
  · intro str hnz hh hs hr
    exact read_string_loop_found str _ [] r parent s hnz hh hs hr
      (by simp only [BitstreamRange.remaining]; omega)
  · intro str hnz hh hf hsz hr hout
    exact read_string_loop_not_found str _ [] r parent s hnz hh hf hsz hr hout
      (by simp only [BitstreamRange.remaining]; omega)
  · exact read_string_loop_pos _ [] (r :: parent) s

/-- An instance of claim C17: the string `ab` with budget 3, and the same source with budget 2. -/
theorem read_string_returns_bytes_before_nul_witness :
    (read_string [⟨3, false, false⟩, ⟨1, false, false⟩] (IStream.of_list [97, 98, 0, 99])).1
      = [97, 98] ∧
    (read_string [⟨3, false, false⟩, ⟨1, false, false⟩] (IStream.of_list [97, 98, 0, 99])).2.2
      = (IStream.of_list [97, 98, 0, 99]).advance 3 ∧
    (read_string [⟨2, false, false⟩, ⟨1, false, false⟩] (IStream.of_list [97, 98, 0, 99])).1
      = [] := by
  have h := read_string_returns_bytes_before_nul ⟨3, false, false⟩ [⟨1, false, false⟩]
    (IStream.of_list [97, 98, 0, 99])
  have h2 := read_string_returns_bytes_before_nul ⟨2, false, false⟩ [⟨1, false, false⟩]
    (IStream.of_list [97, 98, 0, 99])
  have a := h.1 [97, 98] (by decide) (by decide) (by decide) (by decide)
  exact ⟨a.1, a.2, h2.2.1 [97, 98] (by decide) (by decide) (by decide) (by decide) (by decide)
    (by decide)⟩

/-! ## A source that ends inside the data: claims C19 and C12 -/

/-- Claim C19 fails on the 6-byte source `00 00 00 18 66 74` read with a budget of 24: the
source ends inside the type field, yet `BoxHeader::parse` returns `Ok`, the error flag of the
range is clear, and `Box::read` returns a box. -/
theorem header_cut_in_type_field_gives_box :
    (BoxHeader.parse {} (BitstreamRange.new 24 []) (IStream.of_list file_truncated_header)).1
      = Error.Ok ∧
    BitstreamRange.error
      (BoxHeader.parse {} (BitstreamRange.new 24 []) (IStream.of_list file_truncated_header)).2.2.1
      = false ∧
    (BoxHeader.parse {} (BitstreamRange.new 24 [])
      (IStream.of_list file_truncated_header)).2.2.2.failbit = true ∧
    (Box.read 1 (BitstreamRange.new 24 []) (IStream.of_list file_truncated_header)).map
        (fun r => r.1.map Box.is_generic) = some (some true) := by
  decide!

/-- Claim C12 fails on an `iloc` content whose source ends inside the last field of its only
item: the read of the extent length does not complete, yet the item is in the list, with length
0. -/
theorem iloc_item_with_failed_last_read_is_kept :
    (Box_iloc.parse {} (BitstreamRange.new 18 []) (IStream.of_list iloc_body_truncated)).2.1.m_items
      = [{ item_ID := 7, data_reference_index := 0, base_offset := 0,
           extents := [{ offset := 0, length := 0 }] }] ∧
    (Box_iloc.parse {} (BitstreamRange.new 18 [])
      (IStream.of_list iloc_body_truncated)).2.2.2.failbit = true := by
  decide!

/-! ## The parameter sets of the decoder configuration: claim C15 -/

/-- A left fold that appends is a concatenation. -/
theorem foldl_append_flatMap {α : Type} (f : α → List Nat) (g : List Nat → α → List Nat)
    (hg : ∀ d x, g d x = d ++ f x) :
    ∀ (l : List α) (d : List Nat), l.foldl g d = d ++ l.flatMap f := by
  intro l
  induction l with
  | nil => intro d; simp
  | cons x xs ih =>
    intro d
    rw [List.foldl_cons, ih, hg, List.flatMap_cons, List.append_assoc]

/-- Claim C15: for every `hvcC` box, `get_headers` is the concatenation, over the arrays in
order and the units of each array in order, of the start code `00 00 01` and the bytes of the
unit; its length is the sum over the units of `3 + unit length`. -/
theorem get_headers_eq_start_code_units (box : Box_hvcC) :
    box.get_headers
      = box.m_nal_array.flatMap (fun array =>
          array.m_nal_units.flatMap (fun unit => [0, 0, 1] ++ unit)) ∧
    box.get_headers.length
      = (box.m_nal_array.map (fun array =>
          (array.m_nal_units.map (fun unit => 3 + unit.length)).sum)).sum := by
  have h1 : box.get_headers
      = box.m_nal_array.flatMap (fun array =>
          array.m_nal_units.flatMap (fun unit => [0, 0, 1] ++ unit)) := by
    unfold Box_hvcC.get_headers
    rw [foldl_append_flatMap
      (fun array : NalArray => array.m_nal_units.flatMap (fun unit => [0, 0, 1] ++ unit))
      _ (fun d array => foldl_append_flatMap (fun unit => [0, 0, 1] ++ unit) _
        (fun d unit => by simp) array.m_nal_units d)]
    simp
  refine ⟨h1, ?_⟩
  rw [h1]
  generalize box.m_nal_array = arrays
  induction arrays with
  | nil => rfl
  | cons a as ih =>
    rw [List.flatMap_cons, List.length_append, ih, List.map_cons, List.sum_cons]
    congr 1
    generalize a.m_nal_units = units
    induction units with
    | nil => rfl
    | cons u us ihu =>
      rw [List.flatMap_cons, List.length_append, ihu, List.map_cons, List.sum_cons]
      simp only [List.length_append, List.length_cons, List.length_nil]

/-! ## The file type box: claim C20 -/

/-- Advancing by no byte changes nothing. -/
theorem IStream.advance_zero (s : IStream) : s.advance 0 = s := rfl

/-- The loop of `Box_ftyp::parse` over brands that are next in the source. -/
theorem Box_ftyp.parse_brands_ready (brands : List (List Nat)) :
    ∀ (acc : List Nat) (range : List BitstreamRange) (s : IStream) (rest : List Nat),
      (∀ b ∈ brands, b.length = 4) → ready range s (brands.flatten ++ rest) →
      ∃ range', Box_ftyp.parse_brands brands.length acc range s
          = (acc ++ brands.map be, range', s.advance (4 * brands.length)) ∧
        BitstreamRange.debited (4 * brands.length) range range' ∧
        ready range' (s.advance (4 * brands.length)) rest := by
  induction brands with
  | nil =>
    intro acc range s rest _ h
    exact ⟨range, by simp [Box_ftyp.parse_brands, IStream.advance_zero],
      BitstreamRange.debited_zero range, h⟩
  | cons b bs ih =>
    intro acc range s rest hlen h
    have hb : b.length = 4 := hlen b (List.mem_cons_self _ _)
    rw [List.flatten_cons, List.append_assoc] at h
    obtain ⟨r1, e1, d1, h1⟩ := read32_ready range s b (bs.flatten ++ rest) hb h
    obtain ⟨r2, e2, d2, h2⟩ := ih (acc ++ [be b]) r1 (s.advance 4) rest
      (fun x hx => hlen x (List.mem_cons_of_mem _ hx)) h1
    refine ⟨r2, ?_, ?_, ?_⟩
    · rw [List.length_cons, Box_ftyp.parse_brands, e1]
      dsimp only
      rw [e2, IStream.advance_advance]
      simp [Nat.mul_add, Nat.add_comm]
    · have := BitstreamRange.debited_trans 4 (4 * bs.length) range r1 r2 d1 d2
      rw [List.length_cons, Nat.mul_add, Nat.mul_one, Nat.add_comm]
      exact this
    · rw [IStream.advance_advance] at h2
      rw [List.length_cons, Nat.mul_add, Nat.mul_one, Nat.add_comm]
      exact h2

/-- Claim C20, amended: for an `ftyp` content of `L = 8 + 4 * n` bytes with `n < 2^31`, within
the budget of every range and present in the source, `Box_ftyp::parse` reads the major brand and
the minor version as the first two big-endian words and then exactly `(L - 8) / 4` brands, the
next words in order; the cursor has advanced by `L` and nothing of the budget of the box is
left. -/
theorem ftyp_reads_body_exactly (hdr : BoxHeader) (range : List BitstreamRange) (s : IStream)
    (major minor : List Nat) (brands : List (List Nat))
    (hmajor : major.length = 4) (hminor : minor.length = 4)
    (hbrands : ∀ b ∈ brands, b.length = 4) (hn : brands.length < 2 ^ 31)
    (hsize : hdr.content_size = 8 + 4 * brands.length)
    (hrem : BitstreamRange.remaining range = hdr.content_size)
    (h : ready range s (major ++ (minor ++ (brands.flatten ++ [])))) :
    (Box_ftyp.parse hdr range s).2.1.m_major_brand = be major ∧
    (Box_ftyp.parse hdr range s).2.1.m_minor_version = be minor ∧
    (Box_ftyp.parse hdr range s).2.1.m_compatible_brands = brands.map be ∧
    (Box_ftyp.parse hdr range s).2.1.m_compatible_brands.length = (hdr.content_size - 8) / 4 ∧
    (Box_ftyp.parse hdr range s).2.2.2 = s.advance hdr.content_size ∧
    BitstreamRange.remaining (Box_ftyp.parse hdr range s).2.2.1 = 0 := by
  obtain ⟨r1, e1, d1, h1⟩ := read32_ready range s major _ hmajor h
  obtain ⟨r2, e2, d2, h2⟩ := read32_ready r1 _ minor _ hminor h1
  obtain ⟨r3, e3, d3, _⟩ := Box_ftyp.parse_brands_ready brands [] r2 _ [] hbrands h2
  have hcount : (to_int (to_uint64 ((hdr.content_size : Int) - 8) / 4)).toNat
      = brands.length := by
    have e0 : ((hdr.content_size : Int) - 8) = ((4 * brands.length : Nat) : Int) := by
      rw [hsize]; push_cast; ring
    have e : to_uint64 ((hdr.content_size : Int) - 8) / 4 = brands.length := by
      rw [e0, to_uint64_natCast _ (by omega)]
      exact Nat.mul_div_cancel_left _ (by decide)
    rw [e, to_int_of_lt _ hn]
    simp
  have hd := BitstreamRange.debited_trans _ _ _ _ _
    (BitstreamRange.debited_trans _ _ _ _ _ d1 d2) d3
  have hrem3 := BitstreamRange.remaining_debited _ range r3 hd h.1.1
  unfold Box_ftyp.parse
  rw [e1]
  dsimp only
  rw [e2]
  dsimp only
  rw [hcount, e3]
  dsimp only
  refine ⟨rfl, rfl, by simp, ?_, ?_, ?_⟩
  · rw [hsize]; simp
  · rw [IStream.advance_advance, IStream.advance_advance, hsize]
    congr 1
    omega
  · omega

/-- An instance of claim C20: a content of 16 bytes with two brands. -/
theorem ftyp_reads_body_exactly_witness :
    ready (BitstreamRange.new 16 [⟨40, false, false⟩])
      (IStream.of_list [104, 101, 105, 99, 0, 0, 0, 0, 109, 105, 102, 49, 104, 101, 105, 99])
      ([104, 101, 105, 99] ++ ([0, 0, 0, 0] ++
        ([[109, 105, 102, 49], [104, 101, 105, 99]].flatten ++ []))) ∧
    (Box_ftyp.parse { m_size := 24, m_header_size := 8, m_type := fourcc "ftyp" }
      (BitstreamRange.new 16 [⟨40, false, false⟩])
      (IStream.of_list [104, 101, 105, 99, 0, 0, 0, 0, 109, 105, 102, 49, 104, 101, 105,
        99])).2.1.m_compatible_brands
      = [be [109, 105, 102, 49], be [104, 101, 105, 99]] ∧
    BitstreamRange.remaining
      (Box_ftyp.parse { m_size := 24, m_header_size := 8, m_type := fourcc "ftyp" }
        (BitstreamRange.new 16 [⟨40, false, false⟩])
        (IStream.of_list [104, 101, 105, 99, 0, 0, 0, 0, 109, 105, 102, 49, 104, 101, 105,
          99])).2.2.1 = 0 := by
  have h := ftyp_reads_body_exactly { m_size := 24, m_header_size := 8, m_type := fourcc "ftyp" }
    (BitstreamRange.new 16 [⟨40, false, false⟩])
    (IStream.of_list [104, 101, 105, 99, 0, 0, 0, 0, 109, 105, 102, 49, 104, 101, 105, 99])
    [104, 101, 105, 99] [0, 0, 0, 0] [[109, 105, 102, 49], [104, 101, 105, 99]]
    (by decide) (by decide) (by decide) (by decide) (by decide) (by decide) (by decide)
  exact ⟨by decide, h.2.2.1, h.2.2.2.2.2⟩

/-- Claim C20 as stated fails for `L = 10`: no brand is read ((10 - 8) / 4 = 0), the cursor
stops after 8 bytes and two bytes of the content are left unread. -/
theorem ftyp_body_not_multiple_of_four :
    (Box_ftyp.parse { m_size := 18, m_header_size := 8, m_type := fourcc "ftyp" }
      (BitstreamRange.new 10 [])
      (IStream.of_list [104, 101, 105, 99, 0, 0, 0, 0, 109, 105])).2.1.m_compatible_brands
      = [] ∧
    (Box_ftyp.parse { m_size := 18, m_header_size := 8, m_type := fourcc "ftyp" }
      (BitstreamRange.new 10 [])
      (IStream.of_list [104, 101, 105, 99, 0, 0, 0, 0, 109, 105])).2.2.2.pos = 8 ∧
    BitstreamRange.remaining
      (Box_ftyp.parse { m_size := 18, m_header_size := 8, m_type := fourcc "ftyp" }
        (BitstreamRange.new 10 [])
        (IStream.of_list [104, 101, 105, 99, 0, 0, 0, 0, 109, 105])).2.2.1 = 2 ∧
    (10 - 8) / 4 = 0 := by
  decide!

/-! ## The decoder configuration box: claims C13 and C14 -/

/-- The loop over the six constraint bytes: eight flags per byte, the most significant bit
first. -/
theorem Box_hvcC.parse_constraint_flags_ready (cs : List Nat) :
    ∀ (flags : List Bool) (range : List BitstreamRange) (s : IStream) (rest : List Nat),
      ready range s (cs ++ rest) →
      ∃ range', Box_hvcC.parse_constraint_flags cs.length flags range s
          = (flags ++ cs.flatMap Box_hvcC.byte_flags, range', s.advance cs.length) ∧
        BitstreamRange.debited cs.length range range' ∧
        ready range' (s.advance cs.length) rest := by
  induction cs with
  | nil =>
    intro flags range s rest h
    exact ⟨range, by simp [Box_hvcC.parse_constraint_flags, IStream.advance_zero],
      BitstreamRange.debited_zero range, h⟩
  | cons c cs ih =>
    intro flags range s rest h
    have hc : c < 256 := IStream.holds_lt _ _ _ h.2.2 c (by simp)
    obtain ⟨r1, e1, d1, h1⟩ := read8_ready range s c (cs ++ rest) h
    obtain ⟨r2, e2, d2, h2⟩ := ih (flags ++ Box_hvcC.byte_flags c) r1 (s.advance 1) rest h1
    have hbits : (List.range 8).map (fun b => decide ((((c % 2 ^ 8) >>> (7 - b)) &&& 1) ≠ 0))
        = Box_hvcC.byte_flags c := by
      unfold Box_hvcC.byte_flags
      apply List.map_congr_left
      intro b _
      have hm : (1 : Nat) = 2 ^ 1 - 1 := rfl
      rw [Nat.mod_eq_of_lt (by omega : c < 2 ^ 8), Nat.shiftRight_eq_div_pow]
      conv_lhs => rw [hm, Nat.and_pow_two_sub_one_eq_mod]
      have := Nat.mod_two_eq_zero_or_one (c / 2 ^ (7 - b))
      rcases this with h0 | h0 <;> simp [h0]
    refine ⟨r2, ?_, ?_, ?_⟩
    · rw [List.length_cons, Box_hvcC.parse_constraint_flags, e1]
      dsimp only
      rw [hbits, e2, IStream.advance_advance, List.flatMap_cons, List.append_assoc,
        Nat.add_comm]
    · have := BitstreamRange.debited_trans 1 cs.length range r1 r2 d1 d2
      rw [List.length_cons, Nat.add_comm]
      exact this
    · rw [IStream.advance_advance] at h2
      rw [List.length_cons, Nat.add_comm]
      exact h2

/-- The 22 bytes of the fixed part of `hvcC`: `Box_hvcC::parse` continues with the NAL arrays on
the fields of `after_fixed_part`. -/
theorem Box_hvcC.parse_fixed_part (hdr : BoxHeader) (range : List BitstreamRange) (s : IStream)
    (cv b1 : Nat) (pc cs : List Nat) (lvl : Nat) (ms : List Nat) (par cf bl bc : Nat)
    (fr : List Nat) (last : Nat) (rest : List Nat)
    (hpc : pc.length = 4) (hcs : cs.length = 6) (hms : ms.length = 2) (hfr : fr.length = 2)
    (h : ready range s ([cv, b1] ++ (pc ++ (cs ++ ([lvl] ++ (ms ++ ([par, cf, bl, bc] ++
      (fr ++ ([last] ++ rest))))))))) :
    ∃ range', Box_hvcC.parse hdr range s
        = Box_hvcC.parse_arrays_part
            (Box_hvcC.after_fixed_part hdr cv b1 pc cs lvl ms par cf bl bc fr last)
            range' (s.advance 22) ∧
      BitstreamRange.debited 22 range range' ∧ ready range' (s.advance 22) rest := by
  obtain ⟨r1, e1, d1, h1⟩ := read8_ready range s cv _ h
  obtain ⟨r2, e2, d2, h2⟩ := read8_ready r1 _ b1 _ h1
  obtain ⟨r3, e3, d3, h3⟩ := read32_ready r2 _ pc _ hpc h2
  obtain ⟨r4, e4, d4, h4⟩ := Box_hvcC.parse_constraint_flags_ready cs [] r3 _ _ h3
  rw [hcs, List.nil_append] at e4
  rw [hcs] at d4 h4
  obtain ⟨r5, e5, d5, h5⟩ := read8_ready r4 _ lvl _ h4
  obtain ⟨r6, e6, d6, h6⟩ := read16_ready r5 _ ms _ hms h5
  obtain ⟨r7, e7, d7, h7⟩ := read8_ready r6 _ par _ h6
  obtain ⟨r8, e8, d8, h8⟩ := read8_ready r7 _ cf _ h7
  obtain ⟨r9, e9, d9, h9⟩ := read8_ready r8 _ bl _ h8
  obtain ⟨r10, e10, d10, h10⟩ := read8_ready r9 _ bc _ h9
  obtain ⟨r11, e11, d11, h11⟩ := read16_ready r10 _ fr _ hfr h10
  obtain ⟨r12, e12, d12, h12⟩ := read8_ready r11 _ last _ h11
  simp only [IStream.advance_advance] at e2 e3 e4 e5 e6 e7 e8 e9 e10 e11 e12 h12
  refine ⟨r12, ?_, ?_, h12⟩
  · unfold Box_hvcC.parse Box_hvcC.parse_arrays_part Box_hvcC.after_fixed_part
    rw [e1]
    dsimp only
    rw [e2]
    dsimp only
    rw [e3]
    dsimp only
    rw [e4]
    dsimp only
    rw [e5]
    dsimp only
    rw [e6]
    dsimp only
    rw [e7]
    dsimp only
    rw [e8]
    dsimp only
    rw [e9]
    dsimp only
    rw [e10]
    dsimp only
    rw [e11]
    dsimp only
    rw [e12]
  · have t1 := BitstreamRange.debited_trans _ _ _ _ _ d1 d2
    have t2 := BitstreamRange.debited_trans _ _ _ _ _ t1 d3
    have t3 := BitstreamRange.debited_trans _ _ _ _ _ t2 d4
    have t4 := BitstreamRange.debited_trans _ _ _ _ _ t3 d5
    have t5 := BitstreamRange.debited_trans _ _ _ _ _ t4 d6
    have t6 := BitstreamRange.debited_trans _ _ _ _ _ t5 d7
    have t7 := BitstreamRange.debited_trans _ _ _ _ _ t6 d8
    have t8 := BitstreamRange.debited_trans _ _ _ _ _ t7 d9
    have t9 := BitstreamRange.debited_trans _ _ _ _ _ t8 d10
    have t10 := BitstreamRange.debited_trans _ _ _ _ _ t9 d11
    exact BitstreamRange.debited_trans _ _ _ _ _ t10 d12

/-- The second part of `Box_hvcC::parse` changes no field but the list of arrays. -/
theorem Box_hvcC.parse_arrays_part_fields (box0 : Box_hvcC) (range : List BitstreamRange)
    (s : IStream) :
    (Box_hvcC.parse_arrays_part box0 range s).2.1
      = { box0 with
          m_nal_array := (Box_hvcC.parse_arrays_part box0 range s).2.1.m_nal_array } := by
  unfold Box_hvcC.parse_arrays_part
  rcases read8 range s with ⟨n, r1, s1⟩
  dsimp only

/-- Masking with 1 is the remainder modulo 2. -/
theorem and_one (x : Nat) : x &&& 1 = x % 2 := Nat.and_pow_two_sub_one_eq_mod x 1

/-- Masking with 3 is the remainder modulo 4. -/
theorem and_three (x : Nat) : x &&& 3 = x % 4 := Nat.and_pow_two_sub_one_eq_mod x 2

/-- Masking with 7 is the remainder modulo 8. -/
theorem and_seven (x : Nat) : x &&& 7 = x % 8 := Nat.and_pow_two_sub_one_eq_mod x 3

/-- Masking with `0x1F` is the remainder modulo 32. -/
theorem and_31 (x : Nat) : x &&& 0x1F = x % 32 := Nat.and_pow_two_sub_one_eq_mod x 5

/-- Masking with `0x3F` is the remainder modulo 64. -/
theorem and_63 (x : Nat) : x &&& 0x3F = x % 64 := Nat.and_pow_two_sub_one_eq_mod x 6

/-- Masking with `0x0FFF` is the remainder modulo 4096. -/
theorem and_4095 (x : Nat) : x &&& 0x0FFF = x % 4096 := Nat.and_pow_two_sub_one_eq_mod x 12

/-- Claim C13, amended: for every `hvcC` content whose 22 bytes of the fixed part are within the
budget of every range and present in the source, the packed fields are: profile space = bits
7..6 of byte 1, tier flag = bit 5, profile idc = bits 4..0; constraint flag `8*i + b` = bit `7 -
b` of constraint byte `i`; min spatial segmentation = the 16-bit field modulo 4096; parallelism
type and chroma format = byte modulo 4; luma and chroma bit depth = (byte modulo 8) + 8;
constant frame rate = bits 7..6 of the last byte, temporal layers = bits 5..3,
temporal-id-nested = bit 2, length size = (bits 1..0) + 1. The byte `0xA5` gives 2, 1, 5. -/
theorem hvcC_fixed_part_fields (hdr : BoxHeader) (range : List BitstreamRange) (s : IStream)
    (cv b1 : Nat) (pc cs : List Nat) (lvl : Nat) (ms : List Nat) (par cf bl bc : Nat)
    (fr : List Nat) (last : Nat)
    (hpc : pc.length = 4) (hcs : cs.length = 6) (hms : ms.length = 2) (hfr : fr.length = 2)
    (h : ready range s ([cv, b1] ++ (pc ++ (cs ++ ([lvl] ++ (ms ++ ([par, cf, bl, bc] ++
      (fr ++ ([last] ++ []))))))))) :
    (Box_hvcC.parse hdr range s).2.1.m_configuration_version = cv ∧
    (Box_hvcC.parse hdr range s).2.1.m_general_profile_space = b1 / 64 % 4 ∧
    (Box_hvcC.parse hdr range s).2.1.m_general_tier_flag = decide (b1 / 32 % 2 = 1) ∧
    (Box_hvcC.parse hdr range s).2.1.m_general_profile_idc = b1 % 32 ∧
    (Box_hvcC.parse hdr range s).2.1.m_general_profile_compatibility_flags = be pc ∧
    (Box_hvcC.parse hdr range s).2.1.m_general_constraint_indicator_flags.length = 48 ∧
    (∀ i b, i < 6 → b < 8 →
      (Box_hvcC.parse hdr range s).2.1.m_general_constraint_indicator_flags.getD (8 * i + b) false
        = decide (cs.getD i 0 / 2 ^ (7 - b) % 2 = 1)) ∧
    (Box_hvcC.parse hdr range s).2.1.m_general_level_idc = lvl ∧
    (Box_hvcC.parse hdr range s).2.1.m_min_spatial_segmentation_idc = be ms % 4096 ∧
    (Box_hvcC.parse hdr range s).2.1.m_parallelism_type = par % 4 ∧
    (Box_hvcC.parse hdr range s).2.1.m_chroma_format = cf % 4 ∧
    (Box_hvcC.parse hdr range s).2.1.m_bit_depth_luma = bl % 8 + 8 ∧
    (Box_hvcC.parse hdr range s).2.1.m_bit_depth_chroma = bc % 8 + 8 ∧
    (Box_hvcC.parse hdr range s).2.1.m_avg_frame_rate = be fr ∧
    (Box_hvcC.parse hdr range s).2.1.m_constant_frame_rate = last / 64 % 4 ∧
    (Box_hvcC.parse hdr range s).2.1.m_num_temporal_layers = last / 8 % 8 ∧
    (Box_hvcC.parse hdr range s).2.1.m_temporal_id_nested = last / 4 % 2 ∧
    (Box_hvcC.parse hdr range s).2.1.m_length_size = last % 4 + 1 := by
  have hlt := IStream.holds_lt _ _ _ h.2.2
  have hcv : cv < 256 := hlt cv (by simp)
  have hb1 : b1 < 256 := hlt b1 (by simp)
  have hlvl : lvl < 256 := hlt lvl (by simp)
  have hlast : last < 256 := hlt last (by simp)
  obtain ⟨r, e, _, _⟩ := Box_hvcC.parse_fixed_part hdr range s cv b1 pc cs lvl ms par cf bl bc
    fr last [] hpc hcs hms hfr h
  rw [e, Box_hvcC.parse_arrays_part_fields]
  dsimp only [Box_hvcC.after_fixed_part]
  have m8 : ∀ v, v < 256 → v % 2 ^ 8 = v := fun v hv => Nat.mod_eq_of_lt (by omega)
  rw [m8 cv hcv, m8 b1 hb1, m8 lvl hlvl, m8 last hlast]
  have hcs6 : ∃ c0 c1 c2 c3 c4 c5, cs = [c0, c1, c2, c3, c4, c5] := by
    match cs, hcs with
    | [c0, c1, c2, c3, c4, c5], _ => exact ⟨c0, c1, c2, c3, c4, c5, rfl⟩
  obtain ⟨c0, c1, c2, c3, c4, c5, rfl⟩ := hcs6
  refine ⟨rfl, ?_, ?_, ?_, rfl, rfl, ?_, rfl, ?_, ?_, ?_, ?_, ?_, rfl, ?_, ?_, ?_, ?_⟩
  · simp only [and_three, Nat.shiftRight_eq_div_pow, Nat.reducePow]
  · simp only [and_one, Nat.shiftRight_eq_div_pow, Nat.reducePow]
    rcases Nat.mod_two_eq_zero_or_one (b1 / 32) with h0 | h0 <;> simp [h0]
  · simp only [and_31]
  · intro i b hi hb
    interval_cases i <;> interval_cases b <;> rfl
  · simp only [and_4095]
  · simp only [and_three]
  · simp only [and_three]
  · simp only [and_seven]
  · simp only [and_seven]
  · simp only [and_three, Nat.shiftRight_eq_div_pow, Nat.reducePow]
  · simp only [and_seven, Nat.shiftRight_eq_div_pow, Nat.reducePow]
  · simp only [and_one, Nat.shiftRight_eq_div_pow, Nat.reducePow]
  · simp only [and_three]

/-- An instance of claim C13: the profile byte `0xA5` gives 2, 1, 5 and six constraint bytes
`0xFF` give 48 true flags. -/
theorem hvcC_fixed_part_fields_witness :
    ready (BitstreamRange.new 23 []) (IStream.of_list (hvcC_body 0xA5 0xFF))
      ([1, 0xA5] ++ ([0, 0, 0, 1] ++ ([0xFF, 0xFF, 0xFF, 0xFF, 0xFF, 0xFF] ++ ([93] ++
        ([0xF0, 0] ++ ([0xFC, 0xFD, 0xF8, 0xF8] ++ ([0, 0] ++ ([0x0F] ++ [])))))))) ∧
    (Box_hvcC.parse {} (BitstreamRange.new 23 [])
      (IStream.of_list (hvcC_body 0xA5 0xFF))).2.1.m_general_profile_space = 2 ∧
    (Box_hvcC.parse {} (BitstreamRange.new 23 [])
      (IStream.of_list (hvcC_body 0xA5 0xFF))).2.1.m_general_tier_flag = true ∧
    (Box_hvcC.parse {} (BitstreamRange.new 23 [])
      (IStream.of_list (hvcC_body 0xA5 0xFF))).2.1.m_general_profile_idc = 5 ∧
    (Box_hvcC.parse {} (BitstreamRange.new 23 [])
      (IStream.of_list (hvcC_body 0xA5 0xFF))).2.1.m_general_constraint_indicator_flags
      = List.replicate 48 true := by
  have h := hvcC_fixed_part_fields {} (BitstreamRange.new 23 [])
    (IStream.of_list (hvcC_body 0xA5 0xFF)) 1 0xA5 [0, 0, 0, 1]
    [0xFF, 0xFF, 0xFF, 0xFF, 0xFF, 0xFF] 93 [0xF0, 0] 0xFC 0xFD 0xF8 0xF8 [0, 0] 0x0F
    (by decide) (by decide) (by decide) (by decide) (by decide)
  exact ⟨by decide, h.2.1, h.2.2.1, h.2.2.2.1, by decide!⟩

/-- Claim C13 as stated fails in its example: the profile byte `0x65` decodes to profile space
1, tier flag 1 and profile idc 5, not to 2, 1, 5. -/
theorem hvcC_profile_byte_0x65 :
    (Box_hvcC.parse {} (BitstreamRange.new 23 [])
      (IStream.of_list (hvcC_body 0x65 0xFF))).2.1.m_general_profile_space = 1 ∧
    (Box_hvcC.parse {} (BitstreamRange.new 23 [])
      (IStream.of_list (hvcC_body 0x65 0xFF))).2.1.m_general_tier_flag = true ∧
    (Box_hvcC.parse {} (BitstreamRange.new 23 [])
      (IStream.of_list (hvcC_body 0x65 0xFF))).2.1.m_general_profile_idc = 5 := by
  decide!

/-- The two bytes of a 16-bit length. -/
theorem be_div_mod (x : Nat) : be [x / 256, x % 256] = x := by
  simp only [be, List.foldl]
  omega

/-- The payload of a NAL unit that is next in the source. -/
theorem Box_hvcC.read_unit_ready (range : List BitstreamRange) (s : IStream) (u rest : List Nat)
    (hu : u.length < 65536) (h : ready range s (u ++ rest)) :
    ∃ range', BitstreamRange.read range (u.length : Int) s = (true, range', s) ∧
      s.read u.length = (u, s.advance u.length) ∧
      BitstreamRange.debited u.length range range' ∧ ready range' (s.advance u.length) rest := by
  obtain ⟨hc, hs, hh⟩ := ready_append range s u rest h
  have hd := BitstreamRange.debited_map range u.length hc
  refine ⟨range.map (BitstreamRange.debit u.length),
    BitstreamRange.read_covers range u.length (by omega) s hc, ?_, hd,
    ready_step range _ s u rest h hd⟩
  rw [IStream.read_avail s u.length hs.1 hs.2]
  have hb : s.bytes s.pos u.length = u := hh
  rw [hb]

/-- The loop over the units of one array, for units laid out as length and payload. -/
theorem Box_hvcC.parse_units_ready (units : List (List Nat)) :
    ∀ (acc : List (List Nat)) (range : List BitstreamRange) (s : IStream) (rest : List Nat),
      (∀ u ∈ units, u.length < 65536) →
      ready range s (hvcC_units_layout units ++ rest) →
      ∃ range', Box_hvcC.parse_units units.length acc range s
          = (acc ++ units, range', s.advance (hvcC_units_layout units).length) ∧
        BitstreamRange.debited (hvcC_units_layout units).length range range' ∧
        ready range' (s.advance (hvcC_units_layout units).length) rest := by
  induction units with
  | nil =>
    intro acc range s rest _ h
    exact ⟨range, by simp [Box_hvcC.parse_units, hvcC_units_layout, IStream.advance_zero],
      BitstreamRange.debited_zero range, h⟩
  | cons u us ih =>
    intro acc range s rest hlen h
    have hu : u.length < 65536 := hlen u (by simp)
    have hl : hvcC_units_layout (u :: us)
        = [u.length / 256, u.length % 256] ++ (u ++ hvcC_units_layout us) := by
      simp [hvcC_units_layout]
    rw [hl, List.append_assoc, List.append_assoc] at h
    obtain ⟨r1, e1, d1, h1⟩ := read16_ready range s [u.length / 256, u.length % 256] _ rfl h
    rw [be_div_mod] at e1
    obtain ⟨r2, e2, e3, d2, h2⟩ := Box_hvcC.read_unit_ready r1 _ u _ hu h1
    obtain ⟨r3, e4, d3, h3⟩ := ih (acc ++ [u]) r2 _ rest
      (fun v hv => hlen v (List.mem_cons_of_mem _ hv)) h2
    have hlen2 : (hvcC_units_layout (u :: us)).length
        = 2 + u.length + (hvcC_units_layout us).length := by
      rw [hl]
      simp only [List.length_append, List.length_cons, List.length_nil]
      omega
    simp only [IStream.advance_advance] at e4 h3
    rw [hlen2]
    refine ⟨r3, ?_, ?_, h3⟩
    · rw [List.length_cons, Box_hvcC.parse_units, e1]
      dsimp only
      rw [e2]
      dsimp only
      rw [if_pos rfl, e3]
      dsimp only
      rw [IStream.advance_advance, e4, List.append_assoc]
      rfl
    · exact BitstreamRange.debited_trans _ _ _ _ _
        (BitstreamRange.debited_trans _ _ _ _ _ d1 d2) d3

/-- The loop over the arrays, for arrays laid out as header byte, unit count and units. -/
theorem Box_hvcC.parse_arrays_ready (arrays : List (Nat × List (List Nat))) :
    ∀ (acc : List NalArray) (range : List BitstreamRange) (s : IStream) (rest : List Nat),
      (∀ a ∈ arrays, ∀ u ∈ a.2, u.length < 65536) →
      ready range s (hvcC_arrays_layout arrays ++ rest) →
      ∃ range', Box_hvcC.parse_arrays arrays.length acc range s
          = (acc ++ arrays.map hvcC_array_of, range',
              s.advance (hvcC_arrays_layout arrays).length) ∧
        BitstreamRange.debited (hvcC_arrays_layout arrays).length range range' ∧
        ready range' (s.advance (hvcC_arrays_layout arrays).length) rest := by
  induction arrays with
  | nil =>
    intro acc range s rest _ h
    exact ⟨range, by simp [Box_hvcC.parse_arrays, hvcC_arrays_layout, IStream.advance_zero],
      BitstreamRange.debited_zero range, h⟩
  | cons a as ih =>
    intro acc range s rest hlen h
    have hl : hvcC_arrays_layout (a :: as)
        = [a.1] ++ ([a.2.length / 256, a.2.length % 256] ++
            (hvcC_units_layout a.2 ++ hvcC_arrays_layout as)) := by
      simp [hvcC_arrays_layout]
    rw [hl, List.append_assoc, List.append_assoc, List.append_assoc] at h
    have ha : a.1 < 256 := IStream.holds_lt _ _ _ h.2.2 a.1 (by simp)
    obtain ⟨r1, e1, d1, h1⟩ := read8_ready range s a.1 _ h
    obtain ⟨r2, e2, d2, h2⟩ := read16_ready r1 _ [a.2.length / 256, a.2.length % 256] _ rfl h1
    rw [be_div_mod] at e2
    obtain ⟨r3, e3, d3, h3⟩ := Box_hvcC.parse_units_ready a.2 [] r2 _ _
      (hlen a (by simp)) h2
    rw [List.nil_append] at e3
    obtain ⟨r4, e4, d4, h4⟩ := ih (acc ++ [hvcC_array_of a]) r3 _ rest
      (fun b hb => hlen b (List.mem_cons_of_mem _ hb)) h3
    have hlen2 : (hvcC_arrays_layout (a :: as)).length
        = 1 + 2 + (hvcC_units_layout a.2).length + (hvcC_arrays_layout as).length := by
      rw [hl]
      simp only [List.length_append, List.length_cons, List.length_nil]
      omega
    simp only [IStream.advance_advance] at e2 e3 e4 h4
    rw [hlen2]
    have hdec : NalArray.mk (((a.1 % 2 ^ 8) >>> 6) &&& 1) ((a.1 % 2 ^ 8) &&& 0x3F) a.2
        = hvcC_array_of a := by
      unfold hvcC_array_of
      rw [Nat.mod_eq_of_lt (by omega : a.1 < 2 ^ 8), and_one, and_63,
        Nat.shiftRight_eq_div_pow]
    refine ⟨r4, ?_, ?_, h4⟩
    · rw [List.length_cons, Box_hvcC.parse_arrays, e1]
      dsimp only
      rw [e2]
      dsimp only
      rw [e3]
      dsimp only
      rw [hdec, e4, List.append_assoc]
      rfl
    · exact BitstreamRange.debited_trans _ _ _ _ _
        (BitstreamRange.debited_trans _ _ _ _ _
          (BitstreamRange.debited_trans _ _ _ _ _ d1 d2) d3) d4

/-- Claim C14: for every `hvcC` content made of the 22 bytes of the fixed part, the array count
and the arrays laid out as header byte, 16-bit unit count and units (16-bit length and payload),
within the budget of every range and present in the source, the decoded arrays are those of the
stream in order: as many arrays as the count says, NAL unit type = low 6 bits of the header
byte, and the units of each array are exactly the payloads in order. -/
theorem hvcC_nal_arrays_mirror_stream (hdr : BoxHeader) (range : List BitstreamRange)
    (s : IStream) (fixed : List Nat) (arrays : List (Nat × List (List Nat))) (rest : List Nat)
    (hfixed : fixed.length = 22)
    (hunits : ∀ a ∈ arrays, ∀ u ∈ a.2, u.length < 65536)
    (h : ready range s (fixed ++ ([arrays.length] ++ (hvcC_arrays_layout arrays ++ rest)))) :
    (Box_hvcC.parse hdr range s).2.1.m_nal_array = arrays.map hvcC_array_of ∧
    ((Box_hvcC.parse hdr range s).2.1.m_nal_array.map
        (fun array => array.m_NAL_unit_type)) = arrays.map (fun a => a.1 % 64) ∧
    ((Box_hvcC.parse hdr range s).2.1.m_nal_array.map
        (fun array => array.m_nal_units)) = arrays.map (fun a => a.2) := by
  have key : (Box_hvcC.parse hdr range s).2.1.m_nal_array = arrays.map hvcC_array_of := by
    match fixed, hfixed with
    | [cv, b1, p0, p1, p2, p3, c0, c1, c2, c3, c4, c5, lvl, m0, m1, par, cf, bl, bc, f0, f1,
        last], _ =>
      obtain ⟨r1, e1, d1, h1⟩ := Box_hvcC.parse_fixed_part hdr range s cv b1 [p0, p1, p2, p3]
        [c0, c1, c2, c3, c4, c5] lvl [m0, m1] par cf bl bc [f0, f1] last
        ([arrays.length] ++ (hvcC_arrays_layout arrays ++ rest)) rfl rfl rfl rfl h
      obtain ⟨r2, e2, d2, h2⟩ := read8_ready r1 _ arrays.length _ h1
      obtain ⟨r3, e3, d3, h3⟩ := Box_hvcC.parse_arrays_ready arrays [] r2 _ rest hunits h2
      rw [List.nil_append] at e3
      rw [e1]
      unfold Box_hvcC.parse_arrays_part
      rw [e2]
      dsimp only
      rw [e3]
  refine ⟨key, ?_, ?_⟩
  · rw [key, List.map_map]
    rfl
  · rw [key, List.map_map]
    rfl

/-- An instance of claim C14: two arrays with one and two units. -/
theorem hvcC_nal_arrays_mirror_stream_witness :
    ready (BitstreamRange.new 41 [])
      (IStream.of_list ((hvcC_body 0xA5 0xFF).take 22 ++ ([2] ++
        (hvcC_arrays_layout [(0xA0, [[1, 2, 3]]), (0x21, [[4], [5, 6]])] ++ []))))
      ((hvcC_body 0xA5 0xFF).take 22 ++ ([2] ++
        (hvcC_arrays_layout [(0xA0, [[1, 2, 3]]), (0x21, [[4], [5, 6]])] ++ []))) ∧
    (Box_hvcC.parse {} (BitstreamRange.new 41 [])
      (IStream.of_list ((hvcC_body 0xA5 0xFF).take 22 ++ ([2] ++
        (hvcC_arrays_layout [(0xA0, [[1, 2, 3]]), (0x21, [[4], [5, 6]])] ++ []))))).2.1.m_nal_array
      = [{ m_array_completeness := 0, m_NAL_unit_type := 32, m_nal_units := [[1, 2, 3]] },
         { m_array_completeness := 0, m_NAL_unit_type := 33, m_nal_units := [[4], [5, 6]] }] :=
  ⟨by decide!,
   (hvcC_nal_arrays_mirror_stream {} (BitstreamRange.new 41 [])
      (IStream.of_list ((hvcC_body 0xA5 0xFF).take 22 ++ ([2] ++
        (hvcC_arrays_layout [(0xA0, [[1, 2, 3]]), (0x21, [[4], [5, 6]])] ++ []))))
      ((hvcC_body 0xA5 0xFF).take 22) [(0xA0, [[1, 2, 3]]), (0x21, [[4], [5, 6]])] []
      (by decide) (by decide) (by decide!)).1⟩

/-! ## The elementary stream of the items: claims C16 and C21 -/

/-- The four bytes of a 32-bit length. -/
theorem be_length_bytes (n : Nat) (h : n < 2 ^ 32) :
    be [n / 2 ^ 24 % 256, n / 2 ^ 16 % 256, n / 2 ^ 8 % 256, n % 256] = n := by
  simp only [be, List.foldl]
  omega

/-- One pass of the loop of `read_all_data` on a complete unit with a payload shorter than `2^32
- 4` bytes: start code and payload are appended, and the consumed counter grows by `4 + length`. -/
theorem Box_iloc.read_unit_holds (data : List Nat) (s : IStream) (b : Nat) (unit : List Nat)
    (hf : s.failbit = false) (hlen : unit.length < 2 ^ 32 - 4)
    (hs : s.pos + (4 + unit.length) ≤ s.size)
    (hh : s.holds s.pos ([unit.length / 2 ^ 24 % 256, unit.length / 2 ^ 16 % 256,
      unit.length / 2 ^ 8 % 256, unit.length % 256] ++ unit)) :
    Box_iloc.read_unit data s b
      = (data ++ ([0, 0, 1] ++ unit), s.advance (4 + unit.length),
          (b + (unit.length + 4)) % 2 ^ 64) := by
  obtain ⟨h1, h2⟩ := (IStream.holds_append s s.pos _ unit).1 hh
  have e1 := IStream.read_avail s 4 hf (by omega)
  have e2 := IStream.read_avail (s.advance 4) unit.length hf
    (by simp only [IStream.advance]; omega)
  have hb1 : s.bytes s.pos 4 = [unit.length / 2 ^ 24 % 256, unit.length / 2 ^ 16 % 256,
      unit.length / 2 ^ 8 % 256, unit.length % 256] := h1
  have hb2 : (s.advance 4).bytes (s.advance 4).pos unit.length = unit := h2
  have hsz := be_four (unit.length / 2 ^ 24 % 256) (unit.length / 2 ^ 16 % 256)
    (unit.length / 2 ^ 8 % 256) (unit.length % 256) (Nat.mod_lt _ (by decide))
    (Nat.mod_lt _ (by decide)) (Nat.mod_lt _ (by decide)) (Nat.mod_lt _ (by decide))
  rw [be_length_bytes _ (by omega)] at hsz
  unfold Box_iloc.read_unit
  rw [e1, hb1]
  dsimp only
  simp only [List.getD_cons_zero, List.getD_cons_succ]
  rw [hsz, e2, hb2, IStream.advance_advance, Nat.mod_eq_of_lt (by omega : unit.length + 4 < 2 ^ 32)]
  simp

/-- The layout of a sequence of units, unit by unit. -/
theorem iloc_units_layout_cons (unit : List Nat) (units : List (List Nat)) :
    iloc_units_layout (unit :: units)
      = ([unit.length / 2 ^ 24 % 256, unit.length / 2 ^ 16 % 256, unit.length / 2 ^ 8 % 256,
          unit.length % 256] ++ unit) ++ iloc_units_layout units := by
  simp [iloc_units_layout]

/-- The elementary stream of two sequences of units. -/
theorem iloc_units_output_append (a b : List (List Nat)) :
    iloc_units_output (a ++ b) = iloc_units_output a ++ iloc_units_output b := by
  simp [iloc_units_output]

/-- The loop of `read_all_data` over an extent that consists of complete units with payloads
shorter than `2^32 - 4` bytes: it stops at the end of the extent and has appended start code and
payload of every unit. -/
theorem Box_iloc.read_extent_units (length : Nat) (hl : length < 2 ^ 64) :
    ∀ (units : List (List Nat)) (fuel : Nat) (data : List Nat) (s : IStream) (b : Nat),
      units ≠ [] → (∀ unit ∈ units, unit.length < 2 ^ 32 - 4) → s.failbit = false →
      s.pos + (iloc_units_layout units).length ≤ s.size →
      s.holds s.pos (iloc_units_layout units) →
      b + (iloc_units_layout units).length = length → units.length ≤ fuel →
      Box_iloc.read_extent fuel length data s b
        = some (data ++ iloc_units_output units,
            s.advance (iloc_units_layout units).length) := by
  intro units
  induction units with
  | nil => intro _ _ _ _ h; exact absurd rfl h
  | cons u us ih =>
    intro fuel data s b _ hlen hf hs hh hb hfuel
    have hu : u.length < 2 ^ 32 - 4 := hlen u (List.mem_cons_self _ _)
    rw [iloc_units_layout_cons] at hs hh hb
    rw [List.length_append] at hs hb
    have hp4 : ([u.length / 2 ^ 24 % 256, u.length / 2 ^ 16 % 256, u.length / 2 ^ 8 % 256,
        u.length % 256] ++ u).length = 4 + u.length := by
      simp only [List.length_append, List.length_cons, List.length_nil]
    rw [hp4] at hs hb
    obtain ⟨h1, h2⟩ := (IStream.holds_append s s.pos _ _).1 hh
    rw [hp4] at h2
    have hunit := Box_iloc.read_unit_holds data s b u hf hu (by omega) h1
    have hmod : (b + (u.length + 4)) % 2 ^ 64 = b + (4 + u.length) :=
      by rw [Nat.mod_eq_of_lt (by omega)]; omega
    rw [hmod] at hunit
    cases fuel with
    | zero => simp at hfuel
    | succ f =>
      rw [Box_iloc.read_extent, hunit]
      dsimp only
      by_cases hus : us = []
      · subst hus
        have h0 : (iloc_units_layout []).length = 0 := rfl
        rw [h0] at hb
        rw [if_pos (by omega), iloc_units_layout_cons, List.length_append, hp4, h0]
        simp [iloc_units_output]
      · have hpos : 0 < (iloc_units_layout us).length := by
          cases us with
          | nil => exact absurd rfl hus
          | cons v vs =>
            rw [iloc_units_layout_cons]
            simp only [List.length_append, List.length_cons, List.length_nil]
            omega
        rw [if_neg (by omega)]
        rw [ih f (data ++ ([0, 0, 1] ++ u)) (s.advance (4 + u.length)) (b + (4 + u.length)) hus
          (fun v hv => hlen v (List.mem_cons_of_mem _ hv)) hf
          (by simp only [IStream.advance]; omega) h2 (by omega)
          (by simp only [List.length_cons] at hfuel; omega)]
        rw [IStream.advance_advance, iloc_units_layout_cons, List.length_append, hp4]
        simp [iloc_units_output]

/-- Whether a stream holds bytes at a position depends on its data only. -/
theorem IStream.holds_of_data (t s : IStream) (p : Nat) (l : List Nat) (hd : t.data = s.data)
    (h : s.holds p l) : t.holds p l := by
  unfold IStream.holds IStream.bytes at *
  rw [hd]
  exact h

/-- A seek from the beginning to a position inside the source. -/
theorem IStream.seekg_beg_inside (t : IStream) (p : Nat) (hf : t.failbit = false)
    (hp : p ≤ t.size) (hp2 : p < 2 ^ 63) :
    t.seekg_beg (to_streamoff (p % 2 ^ 64)) = { t with pos := p } := by
  rw [Nat.mod_eq_of_lt (by omega), to_streamoff_of_lt p hp2]
  unfold IStream.seekg_beg
  rw [hf]
  simp only [Bool.false_eq_true, if_false]
  rw [if_neg (by omega)]
  have : ¬ ((t.size : Int) < (p : Int)) := by omega
  simp [this]

/-- The loop over the extents of an item whose extents consist of complete units with payloads
shorter than `2^32 - 4` bytes. -/
theorem Box_iloc.read_extents_units (s : IStream) (hsz : s.size < 2 ^ 63) (fuel : Nat)
    (item : Item) :
    ∀ (extents : List Extent) (unitss : List (List (List Nat))) (data : List Nat)
      (t : IStream),
      List.Forall₂ (Box_iloc.extent_holds s item) extents unitss →
      (∀ units ∈ unitss, units.length ≤ fuel) →
      t.data = s.data → t.size = s.size → t.failbit = false →
      ∃ t', Box_iloc.read_extents fuel item extents data t
          = some (data ++ iloc_units_output unitss.flatten, t') ∧
        t'.data = s.data ∧ t'.size = s.size ∧ t'.failbit = false := by
  intro extents unitss data t h
  induction h generalizing data t with
  | nil =>
    intro _ hd hs hf
    exact ⟨t, by simp [Box_iloc.read_extents, iloc_units_output], hd, hs, hf⟩
  | @cons extent units extents unitss hx _ ih =>
    intro hfuel hd hs hf
    obtain ⟨hne, hlen, hL, hin, hh⟩ := hx
    have hseek := IStream.seekg_beg_inside t (extent.offset + item.base_offset) hf
      (by omega) (by omega)
    have hread := Box_iloc.read_extent_units extent.length (by omega) units fuel data
      { t with pos := extent.offset + item.base_offset } 0 hne hlen hf
      (by show extent.offset + item.base_offset + _ ≤ t.size; omega)
      (IStream.holds_of_data _ s _ _ hd hh) (by omega)
      (hfuel units (List.mem_cons_self _ _))
    obtain ⟨t', e', hd', hs', hf'⟩ := ih (data ++ iloc_units_output units)
      (({ t with pos := extent.offset + item.base_offset } : IStream).advance
        (iloc_units_layout units).length)
      (fun u hu => hfuel u (List.mem_cons_of_mem _ hu)) hd hs hf
    refine ⟨t', ?_, hd', hs', hf'⟩
    rw [Box_iloc.read_extents, hseek, hread]
    dsimp only
    rw [e', List.flatten_cons, iloc_units_output_append, List.append_assoc]

/-- The loop over the items when every extent consists of complete units with payloads shorter
than `2^32 - 4` bytes. -/
theorem Box_iloc.read_items_units (s : IStream) (hsz : s.size < 2 ^ 63) (fuel : Nat) :
    ∀ (items : List Item) (unitsss : List (List (List (List Nat)))) (data : List Nat)
      (t : IStream),
      List.Forall₂ (fun item unitss =>
        List.Forall₂ (Box_iloc.extent_holds s item) item.extents unitss) items unitsss →
      (∀ unitss ∈ unitsss, ∀ units ∈ unitss, units.length ≤ fuel) →
      t.data = s.data → t.size = s.size → t.failbit = false →
      ∃ t', Box_iloc.read_items fuel items data t
          = some (data ++ iloc_units_output unitsss.flatten.flatten, t') ∧
        t'.data = s.data ∧ t'.size = s.size ∧ t'.failbit = false := by
  intro items unitsss data t h
  induction h generalizing data t with
  | nil =>
    intro _ hd hs hf
    exact ⟨t, by simp [Box_iloc.read_items, iloc_units_output], hd, hs, hf⟩
  | @cons item unitss items unitsss hx _ ih =>
    intro hfuel hd hs hf
    obtain ⟨t1, e1, hd1, hs1, hf1⟩ := Box_iloc.read_extents_units s hsz fuel item item.extents
      unitss data t hx (hfuel unitss (List.mem_cons_self _ _)) hd hs hf
    obtain ⟨t', e', hd', hs', hf'⟩ := ih (data ++ iloc_units_output unitss.flatten) t1
      (fun u hu => hfuel u (List.mem_cons_of_mem _ hu)) hd1 hs1 hf1
    refine ⟨t', ?_, hd', hs', hf'⟩
    rw [Box_iloc.read_items, e1]
    dsimp only
    rw [e', List.flatten_cons, List.flatten_append, iloc_units_output_append,
      List.append_assoc]

/-- For a source shorter than `2^63` bytes and items whose extents consist of one or more
complete units, each with a payload shorter than `2^32 - 4` bytes, `read_all_data` returns the
start code and the payload of every unit, in item order, extent order and unit order. -/
theorem Box_iloc.read_all_data_units (box : Box_iloc) (s : IStream)
    (unitsss : List (List (List (List Nat)))) (fuel : Nat)
    (hf : s.failbit = false) (hsz : s.size < 2 ^ 63)
    (h : List.Forall₂ (fun item unitss =>
      List.Forall₂ (Box_iloc.extent_holds s item) item.extents unitss) box.m_items unitsss)
    (hfuel : ∀ unitss ∈ unitsss, ∀ units ∈ unitss, units.length ≤ fuel) :
    (Box_iloc.read_all_data fuel box s).map Prod.fst
      = some (iloc_units_output unitsss.flatten.flatten) := by
  obtain ⟨t', e', _⟩ := Box_iloc.read_items_units s hsz fuel box.m_items unitsss [] s h hfuel
    rfl rfl hf
  unfold Box_iloc.read_all_data
  rw [e']
  simp

/-- An extent of two units: the result is start code, unit 1, start code, unit 2. -/
theorem Box_iloc.read_all_data_two_units :
    (Box_iloc.read_all_data 2
        { hdr := {},
          m_items := [
            { item_ID := 1, data_reference_index := 0, base_offset := 2,
              extents := [{ offset := 0, length := 13 }] }] }
        (IStream.of_list [9, 9, 0, 0, 0, 3, 1, 2, 3, 0, 0, 0, 2, 7, 8, 5, 5, 5])).map Prod.fst
      = some [0, 0, 1, 1, 2, 3, 0, 0, 1, 7, 8] := by
  decide!

/-- Claim C16 fails for an extent of `2^32` bytes that is one complete unit (length prefix `FF
FF FF FC`): the unit is read to its end without a failure, but the consumed counter is below the
extent length afterwards, so the loop does not stop there and goes on reading behind the extent. -/
theorem read_all_data_unit_of_4GiB_not_closed :
    (Box_iloc.read_unit [] iloc_source_4GiB 0).2.1.pos = 2 ^ 32 ∧
    (Box_iloc.read_unit [] iloc_source_4GiB 0).2.1.failbit = false ∧
    (Box_iloc.read_unit [] iloc_source_4GiB 0).2.2 < 2 ^ 32 ∧
    (Box_iloc.read_extent 1 (2 ^ 32) [] iloc_source_4GiB 0).isNone = true := by
  decide!

/-- Claim C21 fails for the length prefix `L = 2^32 - 4`: the consumed counter is 0 before the
unit and 0 after it, not `4 + L`. -/
theorem consumed_counter_wraps :
    (Box_iloc.read_unit [] iloc_source_4GiB 0).2.2 = 0 ∧
    be [0xFF, 0xFF, 0xFF, 0xFC] = 2 ^ 32 - 4 ∧
    iloc_source_4GiB.holds 0 [0xFF, 0xFF, 0xFF, 0xFC] := by
  decide!

/-! ## The item ID of version 3: claim C22 -/

/-- Claim C22 fails for an `infe` content of version 3 with the item ID field `00 01 00 02`: the
decoded `item_ID` is 2, not 65538. -/
theorem infe_version_3_item_ID_truncated :
    (Box_infe.parse {} (BitstreamRange.new 20 []) (IStream.of_list infe_body_v3)).2.1.m_item_ID
      = 2 ∧
    be [0, 1, 0, 2] = 65538 ∧
    (IStream.of_list infe_body_v3).holds 4 [0, 1, 0, 2] ∧
    (Box_infe.parse {} (BitstreamRange.new 20 [])
      (IStream.of_list infe_body_v3)).2.1.hdr.m_version = 3 := by
  decide!

/-! ## Trailing bytes of the decoder configuration box: claim C23 -/

/-- Claim C23 fails for an `hvcC` box of declared size 33 with two trailing bytes, read with a
parent budget of 40 from a source of 40 bytes: the cursor has advanced by 33, the parent has 9
bytes left instead of 7. -/
theorem hvcC_trailing_bytes_not_debited_from_parent :
    (Box.read 1 (BitstreamRange.new 40 []) (IStream.of_list file_hvcC_trailing)).map
        (fun r => (r.1.isSome, r.2.1, r.2.2.pos, r.2.2.failbit))
      = some (true, [⟨9, false, false⟩], 33, false) ∧
    (BoxHeader.parse {} (BitstreamRange.new 40 [])
      (IStream.of_list file_hvcC_trailing)).2.1.m_size = 33 ∧
    (BoxHeader.parse {} (BitstreamRange.new 40 [])
      (IStream.of_list file_hvcC_trailing)).2.1.m_type = fourcc "hvcC" := by
  decide!

/-! ## The flags and the budget of a range: claim C25 -/

/-- A `read` keeps the flags of every range of the chain in agreement with its budget and raises
no budget. -/
theorem BitstreamRange.read_consistent (range : List BitstreamRange) :
    ∀ (n : Int) (s : IStream), (∀ q ∈ range, q.consistent) →
      (∀ q ∈ (BitstreamRange.read range n s).2.1, q.consistent) ∧
      List.Forall₂ (fun q q' => q'.m_remaining ≤ q.m_remaining) range
        (BitstreamRange.read range n s).2.1 := by
  induction range with
  | nil =>
    intro n s _
    exact ⟨fun q hq => by simp [BitstreamRange.read] at hq, by simp [BitstreamRange.read]⟩
  | cons r parent ih =>
    intro n s h
    have hr : r.consistent := h r (List.mem_cons_self _ _)
    have hp : ∀ q ∈ parent, q.consistent := fun q hq => h q (List.mem_cons_of_mem _ hq)
    unfold BitstreamRange.read
    by_cases h1 : to_uint64 n ≤ r.m_remaining
    · rw [if_pos h1]
      dsimp only
      obtain ⟨a, b⟩ := ih n s hp
      refine ⟨?_, List.Forall₂.cons (Nat.sub_le _ _) b⟩
      intro q hq
      rcases List.mem_cons.1 hq with rfl | hq
      · refine ⟨by simp, ?_⟩
        intro he
        have := hr.2 he
        dsimp only at he ⊢
        omega
      · exact a q hq
    · rw [if_neg h1]
      by_cases h2 : r.m_remaining = 0
      · rw [if_pos h2]
        dsimp only
        refine ⟨?_, List.Forall₂.cons (Nat.le_refl _) ?_⟩
        · intro q hq
          rcases List.mem_cons.1 hq with rfl | hq
          · exact ⟨hr.1, fun _ => h2⟩
          · exact hp q hq
        · exact List.forall₂_same.2 (fun _ _ => Nat.le_refl _)
      · rw [if_neg h2]
        dsimp only
        obtain ⟨a, b⟩ := ih (to_int r.m_remaining) s hp
        refine ⟨?_, List.Forall₂.cons (Nat.zero_le _) b⟩
        intro q hq
        rcases List.mem_cons.1 hq with rfl | hq
        · exact ⟨by simp, fun _ => rfl⟩
        · exact a q hq

/-- After `set_eof_reached` every range of the chain is at EOF with no budget. -/
theorem BitstreamRange.set_eof_reached_consistent (range : List BitstreamRange) :
    (∀ q ∈ BitstreamRange.set_eof_reached range, q.consistent) ∧
    List.Forall₂ (fun q q' => q'.m_remaining ≤ q.m_remaining) range
      (BitstreamRange.set_eof_reached range) := by
  induction range with
  | nil => exact ⟨fun q hq => by simp [BitstreamRange.set_eof_reached] at hq,
      by simp [BitstreamRange.set_eof_reached]⟩
  | cons r parent ih =>
    unfold BitstreamRange.set_eof_reached
    refine ⟨?_, List.Forall₂.cons (Nat.zero_le _) ih.2⟩
    intro q hq
    rcases List.mem_cons.1 hq with rfl | hq
    · exact ⟨by simp, fun _ => rfl⟩
    · exact ih.1 q hq

/-- Every member function keeps the flags in agreement with the budgets and raises no budget. -/
theorem BitstreamRange.call_consistent (c : RangeCall) (range : List BitstreamRange)
    (s : IStream) (h : ∀ q ∈ range, q.consistent) :
    (∀ q ∈ (BitstreamRange.call c range s).1, q.consistent) ∧
    List.Forall₂ (fun q q' => q'.m_remaining ≤ q.m_remaining) range
      (BitstreamRange.call c range s).1 := by
  cases c with
  | read n => exact BitstreamRange.read_consistent range n s h
  | set_eof_reached => exact BitstreamRange.set_eof_reached_consistent range
  | skip_to_end_of_file =>
    cases range with
    | nil => exact ⟨fun q hq => by simp [BitstreamRange.call,
        BitstreamRange.skip_to_end_of_file] at hq,
        by simp [BitstreamRange.call, BitstreamRange.skip_to_end_of_file]⟩
    | cons r parent =>
      simp only [BitstreamRange.call, BitstreamRange.skip_to_end_of_file]
      refine ⟨?_, List.Forall₂.cons (Nat.zero_le _)
        (List.forall₂_same.2 (fun _ _ => Nat.le_refl _))⟩
      intro q hq
      rcases List.mem_cons.1 hq with rfl | hq
      · exact ⟨by simp, fun _ => rfl⟩
      · exact h q (List.mem_cons_of_mem _ hq)
  | skip_to_end_of_box =>
    cases range with
    | nil => exact ⟨fun q hq => by simp [BitstreamRange.call,
        BitstreamRange.skip_to_end_of_box] at hq,
        by simp [BitstreamRange.call, BitstreamRange.skip_to_end_of_box]⟩
    | cons r parent =>
      have hr : r.consistent := h r (List.mem_cons_self _ _)
      simp only [BitstreamRange.call, BitstreamRange.skip_to_end_of_box]
      by_cases h0 : r.m_remaining = 0
      · rw [if_neg (by simpa using h0)]
        refine ⟨?_, List.Forall₂.cons (Nat.le_refl _)
          (List.forall₂_same.2 (fun _ _ => Nat.le_refl _))⟩
        intro q hq
        rcases List.mem_cons.1 hq with rfl | hq
        · exact ⟨by simpa using h0, hr.2⟩
        · exact h q (List.mem_cons_of_mem _ hq)
      · rw [if_pos h0]
        refine ⟨?_, List.Forall₂.cons (Nat.zero_le _)
          (List.forall₂_same.2 (fun _ _ => Nat.le_refl _))⟩
        intro q hq
        rcases List.mem_cons.1 hq with rfl | hq
        · exact ⟨by simp, fun _ => rfl⟩
        · exact h q (List.mem_cons_of_mem _ hq)

/-- Budgets that did not grow in two steps did not grow. -/
theorem BitstreamRange.not_increased_trans {a b c : List BitstreamRange}
    (h1 : List.Forall₂ (fun q q' => q'.m_remaining ≤ q.m_remaining) a b)
    (h2 : List.Forall₂ (fun q q' => q'.m_remaining ≤ q.m_remaining) b c) :
    List.Forall₂ (fun q q' => q'.m_remaining ≤ q.m_remaining) a c := by
  induction h1 generalizing c with
  | nil => cases h2; exact List.Forall₂.nil
  | cons hab _ ih =>
    cases h2 with
    | cons hbc t => exact List.Forall₂.cons (Nat.le_trans hbc hab) (ih t)

/-- Every sequence of calls keeps the flags in agreement with the budgets and raises no budget. -/
theorem BitstreamRange.calls_consistent (cs : List RangeCall) :
    ∀ (range : List BitstreamRange) (s : IStream), (∀ q ∈ range, q.consistent) →
      (∀ q ∈ (BitstreamRange.calls cs range s).1, q.consistent) ∧
      List.Forall₂ (fun q q' => q'.m_remaining ≤ q.m_remaining) range
        (BitstreamRange.calls cs range s).1 := by
  induction cs with
  | nil =>
    intro range s h
    exact ⟨h, List.forall₂_same.2 (fun _ _ => Nat.le_refl _)⟩
  | cons c cs ih =>
    intro range s h
    obtain ⟨a, b⟩ := BitstreamRange.call_consistent c range s h
    obtain ⟨a2, b2⟩ := ih (BitstreamRange.call c range s).1 (BitstreamRange.call c range s).2 a
    exact ⟨a2, BitstreamRange.not_increased_trans b b2⟩

/-- A sequence of calls can be run in two parts. -/
theorem BitstreamRange.calls_append (cs1 : List RangeCall) :
    ∀ (cs2 : List RangeCall) (range : List BitstreamRange) (s : IStream),
      BitstreamRange.calls (cs1 ++ cs2) range s
        = BitstreamRange.calls cs2 (BitstreamRange.calls cs1 range s).1
            (BitstreamRange.calls cs1 range s).2 := by
  induction cs1 with
  | nil => intro cs2 range s; rfl
  | cons c cs ih =>
    intro cs2 range s
    simp only [List.cons_append, BitstreamRange.calls]
    exact ih cs2 _ _

/-- Claim C25: in every state that a range reaches from its constructor (on ancestors in such a
state) by a sequence of `read`, `skip_to_end_of_box`, `skip_to_end_of_file` and
`set_eof_reached` calls, `eof()` holds exactly when `remaining = 0`, `error()` implies
`remaining = 0`, the same holds for every ancestor, and `remaining` never grows: it is at most
the initial length and at most its value after any earlier part of the sequence. -/
theorem range_flags_agree_with_budget (length : Nat) (parent : List BitstreamRange)
    (s : IStream) (cs1 cs2 : List RangeCall) (hparent : ∀ q ∈ parent, q.consistent) :
    (∀ q ∈ (BitstreamRange.calls cs1 (BitstreamRange.new length parent) s).1, q.consistent) ∧
    (BitstreamRange.eof (BitstreamRange.calls cs1 (BitstreamRange.new length parent) s).1 = true
      ↔ BitstreamRange.remaining
          (BitstreamRange.calls cs1 (BitstreamRange.new length parent) s).1 = 0) ∧
    (BitstreamRange.error (BitstreamRange.calls cs1 (BitstreamRange.new length parent) s).1
        = true →
      BitstreamRange.remaining
        (BitstreamRange.calls cs1 (BitstreamRange.new length parent) s).1 = 0) ∧
    BitstreamRange.remaining
        (BitstreamRange.calls (cs1 ++ cs2) (BitstreamRange.new length parent) s).1
      ≤ BitstreamRange.remaining
          (BitstreamRange.calls cs1 (BitstreamRange.new length parent) s).1 ∧
    BitstreamRange.remaining (BitstreamRange.calls cs1 (BitstreamRange.new length parent) s).1
      ≤ length := by
  have hnew : ∀ q ∈ BitstreamRange.new length parent, q.consistent := by
    intro q hq
    rcases List.mem_cons.1 hq with rfl | hq
    · exact ⟨by simp, fun he => by simp at he⟩
    · exact hparent q hq
  obtain ⟨a, b⟩ := BitstreamRange.calls_consistent cs1 _ s hnew
  obtain ⟨_, b2⟩ := BitstreamRange.calls_consistent cs2 _
    (BitstreamRange.calls cs1 (BitstreamRange.new length parent) s).2 a
  rw [BitstreamRange.calls_append]
  generalize (BitstreamRange.calls cs2
    (BitstreamRange.calls cs1 (BitstreamRange.new length parent) s).1
    (BitstreamRange.calls cs1 (BitstreamRange.new length parent) s).2).1 = c2 at b2
  generalize (BitstreamRange.calls cs1 (BitstreamRange.new length parent) s).1 = c1 at a b b2
  cases c1 with
  | nil => cases b
  | cons q1 l1 =>
    cases c2 with
    | nil => cases b2
    | cons q2 l2 =>
      cases b with
      | cons hq _ =>
        cases b2 with
        | cons hq2 _ =>
          have hc := a q1 (List.mem_cons_self _ _)
          exact ⟨a, hc.1, hc.2, hq2, hq⟩

/-- An instance of claim C25: a range of 10 bytes inside a parent of 5 bytes. -/
theorem range_flags_agree_with_budget_witness :
    (∀ q ∈ [(⟨5, false, false⟩ : BitstreamRange)], q.consistent) ∧
    BitstreamRange.remaining
        (BitstreamRange.calls ([RangeCall.read 4, RangeCall.read 9] ++
          [RangeCall.skip_to_end_of_box, RangeCall.set_eof_reached])
          (BitstreamRange.new 10 [⟨5, false, false⟩]) (IStream.of_list [1, 2, 3, 4, 5])).1
      ≤ BitstreamRange.remaining
          (BitstreamRange.calls [RangeCall.read 4, RangeCall.read 9]
            (BitstreamRange.new 10 [⟨5, false, false⟩]) (IStream.of_list [1, 2, 3, 4, 5])).1 ∧
    (BitstreamRange.calls [RangeCall.read 4, RangeCall.read 9]
      (BitstreamRange.new 10 [⟨5, false, false⟩]) (IStream.of_list [1, 2, 3, 4, 5])).1
      = [⟨0, true, true⟩, ⟨0, true, true⟩] :=
  ⟨by decide,
   (range_flags_agree_with_budget 10 [⟨5, false, false⟩] (IStream.of_list [1, 2, 3, 4, 5])
      [RangeCall.read 4, RangeCall.read 9]
      [RangeCall.skip_to_end_of_box, RangeCall.set_eof_reached] (by decide)).2.2.2.1,
   by decide⟩

/-! ## Nesting without end: claim C24 -/

/-- A read of one or more bytes on a chain above an exhausted range: the ranges above it are
debited, the exhausted range gets the error flag, its ancestors and the source are untouched. -/
theorem BitstreamRange.read_sealed (e : Bool) (rest : List BitstreamRange) (n : Nat)
    (hn0 : 0 < n) (hn : n < 2 ^ 64) (s : IStream) :
    ∀ front : List BitstreamRange, (∀ q ∈ front, n ≤ q.m_remaining) →
      BitstreamRange.read (BitstreamRange.sealed front e rest) (n : Int) s
        = (decide (front ≠ []),
            BitstreamRange.sealed (front.map (BitstreamRange.debit n)) true rest, s) := by
  intro front
  induction front with
  | nil =>
    intro _
    have h := BitstreamRange.read_cons_zero ⟨0, true, e⟩ rest (n : Int) s
      (by rw [to_uint64_natCast n hn]; simp only [not_le]; exact hn0) rfl
    simpa [BitstreamRange.sealed] using h
  | cons r front ih =>
    intro h
    have hr : n ≤ r.m_remaining := h r (List.mem_cons_self _ _)
    have ih2 := ih (fun q hq => h q (List.mem_cons_of_mem _ hq))
    have h1 := BitstreamRange.read_cons_le r (BitstreamRange.sealed front e rest) (n : Int) s
      (by rw [to_uint64_natCast n hn]; exact hr)
    rw [ih2, to_uint64_natCast n hn] at h1
    simpa [BitstreamRange.sealed, BitstreamRange.debit] using h1

/-- The reader `read8` on a chain above an exhausted range. -/
theorem read8_sealed (front : List BitstreamRange) (e : Bool) (rest : List BitstreamRange)
    (s : IStream) (hf : front ≠ []) (hc : ∀ q ∈ front, 1 ≤ q.m_remaining) (hs : s.avail 1) :
    read8 (BitstreamRange.sealed front e rest) s
      = (be (s.bytes s.pos 1),
          BitstreamRange.sealed (front.map (BitstreamRange.debit 1)) true rest,
          s.advance 1) := by
  have h1 := BitstreamRange.read_sealed e rest 1 (by decide) (by decide) s front hc
  have h2 := IStream.read_avail s 1 hs.1 hs.2
  have hf2 : (s.advance 1).failbit = false := hs.1
  unfold read8
  rw [show ((1 : Int)) = ((1 : Nat) : Int) from rfl, h1]
  simp only [hf, ne_eq, not_false_eq_true, decide_True, Bool.not_true, Bool.false_eq_true,
    if_false, h2, hf2]
  rw [IStream.bytes_one]
  simp [be]

/-- The reader `read16` on a chain above an exhausted range. -/
theorem read16_sealed (front : List BitstreamRange) (e : Bool) (rest : List BitstreamRange)
    (s : IStream) (hf : front ≠ []) (hc : ∀ q ∈ front, 2 ≤ q.m_remaining) (hs : s.avail 2) :
    read16 (BitstreamRange.sealed front e rest) s
      = (be (s.bytes s.pos 2),
          BitstreamRange.sealed (front.map (BitstreamRange.debit 2)) true rest,
          s.advance 2) := by
  have h1 := BitstreamRange.read_sealed e rest 2 (by decide) (by decide) s front hc
  have h2 := IStream.read_avail s 2 hs.1 hs.2
  have hf2 : (s.advance 2).failbit = false := hs.1
  unfold read16
  rw [show ((2 : Int)) = ((2 : Nat) : Int) from rfl, h1]
  simp only [hf, ne_eq, not_false_eq_true, decide_True, Bool.not_true, Bool.false_eq_true,
    if_false, h2, hf2]
  rw [IStream.bytes_two]
  simp only [List.getD_cons_zero, List.getD_cons_succ]
  rw [be_two _ _ (Nat.mod_lt _ (by decide)) (Nat.mod_lt _ (by decide))]

/-- The reader `read32` on a chain above an exhausted range. -/
theorem read32_sealed (front : List BitstreamRange) (e : Bool) (rest : List BitstreamRange)
    (s : IStream) (hf : front ≠ []) (hc : ∀ q ∈ front, 4 ≤ q.m_remaining) (hs : s.avail 4) :
    read32 (BitstreamRange.sealed front e rest) s
      = (be (s.bytes s.pos 4),
          BitstreamRange.sealed (front.map (BitstreamRange.debit 4)) true rest,
          s.advance 4) := by
  have h1 := BitstreamRange.read_sealed e rest 4 (by decide) (by decide) s front hc
  have h2 := IStream.read_avail s 4 hs.1 hs.2
  have hf2 : (s.advance 4).failbit = false := hs.1
  unfold read32
  rw [show ((4 : Int)) = ((4 : Nat) : Int) from rfl, h1]
  simp only [hf, ne_eq, not_false_eq_true, decide_True, Bool.not_true, Bool.false_eq_true,
    if_false, h2, hf2]
  rw [IStream.bytes_four]
  simp only [List.getD_cons_zero, List.getD_cons_succ]
  rw [be_four _ _ _ _ (Nat.mod_lt _ (by decide)) (Nat.mod_lt _ (by decide))
    (Nat.mod_lt _ (by decide)) (Nat.mod_lt _ (by decide))]

/-- The lemma `read8_sealed` with value, chain and source given by equations. -/
theorem read8_sealed_eq (front front' : List BitstreamRange) (e : Bool)
    (rest : List BitstreamRange) (s s' : IStream) (v : Nat) (hf : front ≠ [])
    (hc : ∀ q ∈ front, 1 ≤ q.m_remaining) (hs : s.avail 1)
    (hv : be (s.bytes s.pos 1) = v) (hfront : front.map (BitstreamRange.debit 1) = front')
    (hs' : s.advance 1 = s') :
    read8 (BitstreamRange.sealed front e rest) s
      = (v, BitstreamRange.sealed front' true rest, s') := by
  rw [read8_sealed front e rest s hf hc hs, hv, hfront, hs']

/-- The lemma `read16_sealed` with value, chain and source given by equations. -/
theorem read16_sealed_eq (front front' : List BitstreamRange) (e : Bool)
    (rest : List BitstreamRange) (s s' : IStream) (v : Nat) (hf : front ≠ [])
    (hc : ∀ q ∈ front, 2 ≤ q.m_remaining) (hs : s.avail 2)
    (hv : be (s.bytes s.pos 2) = v) (hfront : front.map (BitstreamRange.debit 2) = front')
    (hs' : s.advance 2 = s') :
    read16 (BitstreamRange.sealed front e rest) s
      = (v, BitstreamRange.sealed front' true rest, s') := by
  rw [read16_sealed front e rest s hf hc hs, hv, hfront, hs']

/-- The lemma `read32_sealed` with value, chain and source given by equations. -/
theorem read32_sealed_eq (front front' : List BitstreamRange) (e : Bool)
    (rest : List BitstreamRange) (s s' : IStream) (v : Nat) (hf : front ≠ [])
    (hc : ∀ q ∈ front, 4 ≤ q.m_remaining) (hs : s.avail 4)
    (hv : be (s.bytes s.pos 4) = v) (hfront : front.map (BitstreamRange.debit 4) = front')
    (hs' : s.advance 4 = s') :
    read32 (BitstreamRange.sealed front e rest) s
      = (v, BitstreamRange.sealed front' true rest, s') := by
  rw [read32_sealed front e rest s hf hc hs, hv, hfront, hs']

/-- The header at byte 8 of `file_nesting_cycle`, read on a range of 47 bytes above an exhausted
range: an `hvcC` box of size `2^64 - 8`. -/
theorem cycle_header_hvcC (e : Bool) (rest : List BitstreamRange) :
    BoxHeader.parse {} (BitstreamRange.sealed [⟨47, false, false⟩] e rest)
        ((IStream.of_list file_nesting_cycle).advance 8)
      = (Error.Ok,
          { m_size := 2 ^ 64 - 8, m_header_size := 16, m_type := fourcc "hvcC" },
          BitstreamRange.sealed [⟨31, false, false⟩] true rest,
          (IStream.of_list file_nesting_cycle).advance 24) := by
  rw [BoxHeader.parse_long {} _ _ (fourcc "hvcC") (2 ^ 32 - 1) (2 ^ 32 - 8) _ _ _ _ _ _ _ _
    (read32_sealed_eq [⟨47, false, false⟩] [⟨43, false, false⟩] e rest _
      ((IStream.of_list file_nesting_cycle).advance 12) 1
      (by decide) (by decide) (by decide) (by decide) (by decide) rfl)
    (read32_sealed_eq [⟨43, false, false⟩] [⟨39, false, false⟩] true rest _
      ((IStream.of_list file_nesting_cycle).advance 16) _
      (by decide) (by decide) (by decide) (by decide) (by decide) rfl)
    (read32_sealed_eq [⟨39, false, false⟩] [⟨35, false, false⟩] true rest _
      ((IStream.of_list file_nesting_cycle).advance 20) _
      (by decide) (by decide) (by decide) (by decide) (by decide) rfl)
    (read32_sealed_eq [⟨35, false, false⟩] [⟨31, false, false⟩] true rest _
      ((IStream.of_list file_nesting_cycle).advance 24) _
      (by decide) (by decide) (by decide) (by decide) (by decide) rfl)]
  rw [BoxHeader.parse_uuid_of_ne _ _ _ (by decide)]
  rfl

/-- The header at byte 0 of `file_nesting_cycle`, read on a range of 8 bytes above an exhausted
range: an `ipco` box of size 55; the range is exhausted afterwards. -/
theorem cycle_header_ipco (e : Bool) (rest : List BitstreamRange) :
    BoxHeader.parse {} (BitstreamRange.sealed [⟨8, false, false⟩] e rest)
        (IStream.of_list file_nesting_cycle)
      = (Error.Ok,
          { m_size := 55, m_header_size := 8, m_type := fourcc "ipco" },
          BitstreamRange.sealed [⟨0, true, false⟩] true rest,
          (IStream.of_list file_nesting_cycle).advance 8) := by
  rw [BoxHeader.parse_short {} _ _ 55 (fourcc "ipco") _ _ _ _
    (read32_sealed_eq [⟨8, false, false⟩] [⟨4, false, false⟩] e rest _
      ((IStream.of_list file_nesting_cycle).advance 4) _
      (by decide) (by decide) (by decide) (by decide) (by decide) rfl)
    (read32_sealed_eq [⟨4, false, false⟩] [⟨0, true, false⟩] true rest _
      ((IStream.of_list file_nesting_cycle).advance 8) _
      (by decide) (by decide) (by decide) (by decide) (by decide) rfl)
    (by decide)]
  rw [BoxHeader.parse_uuid_of_ne _ _ _ (by decide)]
  rfl

/-- The loop over the constraint bytes on a chain above an exhausted range. -/
theorem Box_hvcC.parse_constraint_flags_sealed (rest : List BitstreamRange) :
    ∀ (k : Nat) (flags : List Bool) (front : List BitstreamRange) (e : Bool) (s : IStream),
      front ≠ [] → (∀ q ∈ front, k + 1 ≤ q.m_remaining) → s.avail (k + 1) →
      ∃ flags', Box_hvcC.parse_constraint_flags (k + 1) flags
          (BitstreamRange.sealed front e rest) s
        = (flags', BitstreamRange.sealed (front.map (BitstreamRange.debit (k + 1))) true rest,
            s.advance (k + 1)) := by
  intro k
  induction k with
  | zero =>
    intro flags front e s hf hc hs
    rw [Box_hvcC.parse_constraint_flags, read8_sealed front e rest s hf hc hs]
    dsimp only
    rw [Box_hvcC.parse_constraint_flags]
    exact ⟨_, rfl⟩
  | succ k ih =>
    intro flags front e s hf hc hs
    have hc1 : ∀ q ∈ front, 1 ≤ q.m_remaining := fun q hq => by have := hc q hq; omega
    have hs1 : s.avail 1 := IStream.avail_mono s _ _ hs (by omega)
    have hf2 : front.map (BitstreamRange.debit 1) ≠ [] := by simpa using hf
    have hc2 : ∀ q ∈ front.map (BitstreamRange.debit 1), k + 1 ≤ q.m_remaining := by
      intro q hq
      obtain ⟨p, hp, rfl⟩ := List.mem_map.1 hq
      have := hc p hp
      simp only [BitstreamRange.debit]
      omega
    have hs2 : (s.advance 1).avail (k + 1) :=
      IStream.avail_advance s 1 (k + 1) (by rw [Nat.add_comm]; exact hs)
    rw [Box_hvcC.parse_constraint_flags, read8_sealed front e rest s hf hc1 hs1]
    dsimp only
    obtain ⟨fl, hfl⟩ := ih
      (flags ++ (List.range 8).map
        (fun b => decide ((((be (s.bytes s.pos 1)) % 2 ^ 8) >>> (7 - b)) &&& 1 ≠ 0)))
      (front.map (BitstreamRange.debit 1)) true (s.advance 1) hf2 hc2 hs2
    rw [hfl, BitstreamRange.debit_debit, IStream.advance_advance, Nat.add_comm 1 (k + 1)]
    exact ⟨_, rfl⟩

/-- The content of the `hvcC` box of `file_nesting_cycle`: after 23 bytes the range of the box
has `2^64 - 47` bytes left, and `skip_to_end_of_box` moves the cursor from 47 back to 0. -/
theorem cycle_hvcC_parse (hdr : BoxHeader) (rest : List BitstreamRange) :
    ∃ err box, Box_hvcC.parse hdr
        (BitstreamRange.sealed [⟨2 ^ 64 - 24, false, false⟩, ⟨31, false, false⟩] true rest)
        ((IStream.of_list file_nesting_cycle).advance 24)
      = (err, box, BitstreamRange.sealed [⟨0, true, false⟩, ⟨8, false, false⟩] true rest,
          IStream.of_list file_nesting_cycle) := by
  unfold Box_hvcC.parse
  rw [read8_sealed_eq [⟨2 ^ 64 - 24, false, false⟩, ⟨31, false, false⟩]
    [⟨2 ^ 64 - 25, false, false⟩, ⟨30, false, false⟩] true rest
    ((IStream.of_list file_nesting_cycle).advance 24) ((IStream.of_list file_nesting_cycle).advance 25) _
    (by decide) (by decide) (by decide) rfl (by decide) rfl]
  dsimp only
  rw [read8_sealed_eq [⟨2 ^ 64 - 25, false, false⟩, ⟨30, false, false⟩]
    [⟨2 ^ 64 - 26, false, false⟩, ⟨29, false, false⟩] true rest
    ((IStream.of_list file_nesting_cycle).advance 25) ((IStream.of_list file_nesting_cycle).advance 26) _
    (by decide) (by decide) (by decide) rfl (by decide) rfl]
  dsimp only
  rw [read32_sealed_eq [⟨2 ^ 64 - 26, false, false⟩, ⟨29, false, false⟩]
    [⟨2 ^ 64 - 30, false, false⟩, ⟨25, false, false⟩] true rest
    ((IStream.of_list file_nesting_cycle).advance 26) ((IStream.of_list file_nesting_cycle).advance 30) _
    (by decide) (by decide) (by decide) rfl (by decide) rfl]
  dsimp only
  obtain ⟨fl, hfl⟩ := Box_hvcC.parse_constraint_flags_sealed rest 5 []
    [⟨2 ^ 64 - 30, false, false⟩, ⟨25, false, false⟩] true
    ((IStream.of_list file_nesting_cycle).advance 30) (by decide) (by decide) (by decide)
  have hfl2 : Box_hvcC.parse_constraint_flags 6 []
      (BitstreamRange.sealed [⟨2 ^ 64 - 30, false, false⟩, ⟨25, false, false⟩] true rest)
      ((IStream.of_list file_nesting_cycle).advance 30)
      = (fl, BitstreamRange.sealed [⟨2 ^ 64 - 36, false, false⟩, ⟨19, false, false⟩] true rest,
          (IStream.of_list file_nesting_cycle).advance 36) := by
    rw [hfl]
    rfl
  rw [hfl2]
  dsimp only
  rw [read8_sealed_eq [⟨2 ^ 64 - 36, false, false⟩, ⟨19, false, false⟩]
    [⟨2 ^ 64 - 37, false, false⟩, ⟨18, false, false⟩] true rest
    ((IStream.of_list file_nesting_cycle).advance 36) ((IStream.of_list file_nesting_cycle).advance 37) _
    (by decide) (by decide) (by decide) rfl (by decide) rfl]
  dsimp only
  rw [read16_sealed_eq [⟨2 ^ 64 - 37, false, false⟩, ⟨18, false, false⟩]
    [⟨2 ^ 64 - 39, false, false⟩, ⟨16, false, false⟩] true rest
    ((IStream.of_list file_nesting_cycle).advance 37) ((IStream.of_list file_nesting_cycle).advance 39) _
    (by decide) (by decide) (by decide) rfl (by decide) rfl]
  dsimp only
  rw [read8_sealed_eq [⟨2 ^ 64 - 39, false, false⟩, ⟨16, false, false⟩]
    [⟨2 ^ 64 - 40, false, false⟩, ⟨15, false, false⟩] true rest
    ((IStream.of_list file_nesting_cycle).advance 39) ((IStream.of_list file_nesting_cycle).advance 40) _
    (by decide) (by decide) (by decide) rfl (by decide) rfl]
  dsimp only
  rw [read8_sealed_eq [⟨2 ^ 64 - 40, false, false⟩, ⟨15, false, false⟩]
    [⟨2 ^ 64 - 41, false, false⟩, ⟨14, false, false⟩] true rest
    ((IStream.of_list file_nesting_cycle).advance 40) ((IStream.of_list file_nesting_cycle).advance 41) _
    (by decide) (by decide) (by decide) rfl (by decide) rfl]
  dsimp only
  rw [read8_sealed_eq [⟨2 ^ 64 - 41, false, false⟩, ⟨14, false, false⟩]
    [⟨2 ^ 64 - 42, false, false⟩, ⟨13, false, false⟩] true rest
    ((IStream.of_list file_nesting_cycle).advance 41) ((IStream.of_list file_nesting_cycle).advance 42) _
    (by decide) (by decide) (by decide) rfl (by decide) rfl]
  dsimp only
  rw [read8_sealed_eq [⟨2 ^ 64 - 42, false, false⟩, ⟨13, false, false⟩]
    [⟨2 ^ 64 - 43, false, false⟩, ⟨12, false, false⟩] true rest
    ((IStream.of_list file_nesting_cycle).advance 42) ((IStream.of_list file_nesting_cycle).advance 43) _
    (by decide) (by decide) (by decide) rfl (by decide) rfl]
  dsimp only
  rw [read16_sealed_eq [⟨2 ^ 64 - 43, false, false⟩, ⟨12, false, false⟩]
    [⟨2 ^ 64 - 45, false, false⟩, ⟨10, false, false⟩] true rest
    ((IStream.of_list file_nesting_cycle).advance 43) ((IStream.of_list file_nesting_cycle).advance 45) _
    (by decide) (by decide) (by decide) rfl (by decide) rfl]
  dsimp only
  rw [read8_sealed_eq [⟨2 ^ 64 - 45, false, false⟩, ⟨10, false, false⟩]
    [⟨2 ^ 64 - 46, false, false⟩, ⟨9, false, false⟩] true rest
    ((IStream.of_list file_nesting_cycle).advance 45) ((IStream.of_list file_nesting_cycle).advance 46) _
    (by decide) (by decide) (by decide) rfl (by decide) rfl]
  dsimp only
  rw [read8_sealed_eq [⟨2 ^ 64 - 46, false, false⟩, ⟨9, false, false⟩]
    [⟨2 ^ 64 - 47, false, false⟩, ⟨8, false, false⟩] true rest
    ((IStream.of_list file_nesting_cycle).advance 46) ((IStream.of_list file_nesting_cycle).advance 47) 0
    (by decide) (by decide) (by decide) (by decide) (by decide) rfl]
  dsimp only
  rw [Box_hvcC.parse_arrays]
  dsimp only
  exact ⟨_, _, rfl⟩

/-- The `switch` of `Box::read` for the type `hvcC`. -/
theorem Box.dispatch_hvcC (read_children : List BitstreamRange → IStream → Step (List Box))
    (hdr : BoxHeader) (boxrange : List BitstreamRange) (istr : IStream)
    (h : hdr.m_type = fourcc "hvcC") :
    Box.dispatch read_children hdr boxrange istr
      = some (Box.hvcC (Box_hvcC.parse hdr boxrange istr).2.1,
          (Box_hvcC.parse hdr boxrange istr).2.2.1, (Box_hvcC.parse hdr boxrange istr).2.2.2) := by
  unfold Box.dispatch
  rw [h, if_neg (by decide), if_neg (by decide), if_neg (by decide), if_neg (by decide),
    if_neg (by decide), if_neg (by decide), if_neg (by decide), if_neg (by decide),
    if_neg (by decide), if_neg (by decide), if_pos rfl]

/-- The `switch` of `Box::read` for the type `ipco`, when the children are not read to their
end. -/
theorem Box.dispatch_ipco (read_children : List BitstreamRange → IStream → Step (List Box))
    (hdr : BoxHeader) (boxrange : List BitstreamRange) (istr : IStream)
    (h : hdr.m_type = fourcc "ipco") (hnone : read_children boxrange istr = none) :
    Box.dispatch read_children hdr boxrange istr = none := by
  unfold Box.dispatch
  rw [h, if_neg (by decide), if_neg (by decide), if_neg (by decide), if_neg (by decide),
    if_neg (by decide), if_neg (by decide), if_neg (by decide), if_neg (by decide),
    if_pos rfl]
  unfold Box_ipco.parse
  rw [hnone]

/-- The function `Box::read` on an `hvcC` box, from the results of its two steps. -/
theorem Box.read_hvcC (fuel : Nat) (range range1 range2 : List BitstreamRange)
    (s s1 s2 : IStream) (err err2 : Error) (hdr : BoxHeader) (box : Box_hvcC)
    (hh : BoxHeader.parse {} range s = (err, hdr, range1, s1))
    (herr : BitstreamRange.error range1 = false) (ht : hdr.m_type = fourcc "hvcC")
    (hp : Box_hvcC.parse hdr (BitstreamRange.new hdr.content_size range1) s1
      = (err2, box, range2, s2)) :
    Box.read (fuel + 1) range s = some (some (Box.hvcC box), range2.tail, s2) := by
  unfold Box.read
  rw [hh]
  dsimp only
  rw [herr]
  simp only [Bool.false_eq_true, if_false]
  rw [Box.dispatch_hvcC _ _ _ _ ht, hp]

/-- The function `Box::read` on an `ipco` box whose children are not read to their end. -/
theorem Box.read_ipco (fuel : Nat) (range range1 : List BitstreamRange)
    (s s1 : IStream) (err : Error) (hdr : BoxHeader)
    (hh : BoxHeader.parse {} range s = (err, hdr, range1, s1))
    (herr : BitstreamRange.error range1 = false) (ht : hdr.m_type = fourcc "ipco")
    (hc : Box.read_children fuel [] (BitstreamRange.new hdr.content_size range1) s1 = none) :
    Box.read (fuel + 1) range s = none := by
  unfold Box.read
  rw [hh]
  dsimp only
  rw [herr]
  simp only [Bool.false_eq_true, if_false]
  rw [Box.dispatch_ipco _ _ _ _ ht hc]

/-- The first pass inside the `ipco` box, at any nesting level: the `hvcC` box is read, the
range keeps 8 bytes and the cursor is back at 0. -/
theorem cycle_read_hvcC (fuel : Nat) (e : Bool) (rest : List BitstreamRange) :
    ∃ box, Box.read (fuel + 1) (BitstreamRange.sealed [⟨47, false, false⟩] e rest)
        ((IStream.of_list file_nesting_cycle).advance 8)
      = some (some box, BitstreamRange.sealed [⟨8, false, false⟩] true rest,
          IStream.of_list file_nesting_cycle) := by
  obtain ⟨err, box, hp⟩ := cycle_hvcC_parse
    { m_size := 2 ^ 64 - 8, m_header_size := 16, m_type := fourcc "hvcC" } rest
  exact ⟨Box.hvcC box, Box.read_hvcC fuel _ _ _ _ _ _ _ _ _ _
    (cycle_header_hvcC e rest) rfl rfl hp⟩

/-- The second pass inside the `ipco` box, at any nesting level: it returns only if the children
of the next level are read to their end. -/
theorem cycle_read_ipco (fuel : Nat) (e : Bool) (rest : List BitstreamRange)
    (h : Box.read_children fuel []
        (BitstreamRange.sealed [⟨47, false, false⟩] false (⟨0, true, true⟩ :: rest))
        ((IStream.of_list file_nesting_cycle).advance 8) = none) :
    Box.read (fuel + 1) (BitstreamRange.sealed [⟨8, false, false⟩] e rest)
        (IStream.of_list file_nesting_cycle) = none :=
  Box.read_ipco fuel _ _ _ _ _ _ (cycle_header_ipco e rest) rfl rfl h

/-- A pass of `read_children` that reads a box. -/
theorem Box.read_children_some (fuel : Nat) (acc : List Box) (range range1 : List BitstreamRange)
    (s s1 : IStream) (box : Box) (heof : BitstreamRange.eof range = false)
    (h : Box.read fuel range s = some (some box, range1, s1)) :
    Box.read_children (fuel + 1) acc range s = Box.read_children fuel (acc ++ [box]) range1 s1 := by
  conv_lhs => rw [Box.read_children]
  rw [heof, h]
  simp only [Bool.false_eq_true, if_false]

/-- A pass of `read_children` whose call of `Box::read` does not return. -/
theorem Box.read_children_none (fuel : Nat) (acc : List Box) (range : List BitstreamRange)
    (s : IStream) (heof : BitstreamRange.eof range = false)
    (h : Box.read fuel range s = none) :
    Box.read_children (fuel + 1) acc range s = none := by
  unfold Box.read_children
  rw [heof, h]
  simp only [Bool.false_eq_true, if_false]

/-- No call of `Box::read` fits in a recursion bound of 0. -/
theorem Box.read_zero (range : List BitstreamRange) (s : IStream) :
    Box.read 0 range s = none := by
  unfold Box.read
  rfl

/-- No call of `read_children` fits in a recursion bound of 0. -/
theorem Box.read_children_zero (acc : List Box) (range : List BitstreamRange) (s : IStream) :
    Box.read_children 0 acc range s = none := by
  unfold Box.read_children
  rfl

/-- In both states of the cycle, at any nesting level and for any recursion bound,
`read_children` does not return. -/
theorem cycle_never_returns (fuel : Nat) :
    ∀ (acc : List Box) (e : Bool) (rest : List BitstreamRange),
      Box.read_children fuel acc (BitstreamRange.sealed [⟨47, false, false⟩] e rest)
          ((IStream.of_list file_nesting_cycle).advance 8) = none ∧
      Box.read_children fuel acc (BitstreamRange.sealed [⟨8, false, false⟩] e rest)
          (IStream.of_list file_nesting_cycle) = none := by
  induction fuel using Nat.strong_induction_on with
  | _ fuel ih =>
    intro acc e rest
    match fuel, ih with
    | 0, _ => exact ⟨Box.read_children_zero _ _ _, Box.read_children_zero _ _ _⟩
    | 1, _ =>
      exact ⟨Box.read_children_none 0 _ _ _ rfl (Box.read_zero _ _),
        Box.read_children_none 0 _ _ _ rfl (Box.read_zero _ _)⟩
    | f + 2, ih =>
      constructor
      · obtain ⟨box, hb⟩ := cycle_read_hvcC f e rest
        rw [Box.read_children_some (f + 1) acc
          (BitstreamRange.sealed [⟨47, false, false⟩] e rest) _ _ _ box rfl hb]
        exact (ih (f + 1) (by omega) (acc ++ [box]) true rest).2
      · exact Box.read_children_none (f + 1) _ _ _ rfl
          (cycle_read_ipco f e rest (ih f (by omega) [] false (⟨0, true, true⟩ :: rest)).1)

/-- The header at byte 0 of `file_nesting_cycle`, read on the root range of 47 bytes. -/
theorem cycle_top_header :
    BoxHeader.parse {} (BitstreamRange.new 47 []) (IStream.of_list file_nesting_cycle)
      = (Error.Ok, { m_size := 55, m_header_size := 8, m_type := fourcc "ipco" },
          [⟨39, false, false⟩], (IStream.of_list file_nesting_cycle).advance 8) := by
  rfl

/-- The first pass inside the outermost `ipco` box. -/
theorem cycle_top_hvcC (fuel : Nat) :
    ∃ box, Box.read (fuel + 1) [⟨47, false, false⟩, ⟨39, false, false⟩]
        ((IStream.of_list file_nesting_cycle).advance 8)
      = some (some box, [⟨8, false, false⟩, ⟨0, true, false⟩],
          IStream.of_list file_nesting_cycle) :=
  ⟨_, rfl⟩

/-- The children of the outermost `ipco` box are not read to their end, for any recursion bound. -/
theorem cycle_top_children (fuel : Nat) :
    Box.read_children fuel [] [⟨47, false, false⟩, ⟨39, false, false⟩]
      ((IStream.of_list file_nesting_cycle).advance 8) = none := by
  match fuel with
  | 0 => exact Box.read_children_zero _ _ _
  | 1 => exact Box.read_children_none 0 _ _ _ rfl (Box.read_zero _ _)
  | f + 2 =>
    obtain ⟨box, hb⟩ := cycle_top_hvcC f
    rw [Box.read_children_some (f + 1) [] [⟨47, false, false⟩, ⟨39, false, false⟩] _ _ _ box
      rfl hb]
    exact (cycle_never_returns (f + 1) ([] ++ [box]) false []).2

/-- Claim C24 fails on a file of 47 bytes read with a budget of 47: for every bound on the
recursion `read_children` has not returned within the bound, so it does not terminate. Inside
the `ipco` box the pass that reads the `hvcC` box of size `2^64 - 8` leaves the range with 8
bytes (not at EOF) and the cursor at 0, before where it started, and the header of the `ipco`
box is read again as its own child. -/
theorem read_children_nesting_without_end :
    (∀ fuel, Box.read_children fuel [] (BitstreamRange.new 47 [])
        (IStream.of_list file_nesting_cycle) = none) ∧
    (Box.read 1 [⟨47, false, false⟩, ⟨39, false, false⟩]
        ((IStream.of_list file_nesting_cycle).advance 8)).map
        (fun r => (r.1.isSome, r.2.1, r.2.2.pos, r.2.2.failbit))
      = some (true, [⟨8, false, false⟩, ⟨0, true, false⟩], 0, false) ∧
    file_nesting_cycle.length = 47 := by
  refine ⟨?_, by decide!, by decide⟩
  intro fuel
  match fuel with
  | 0 => exact Box.read_children_zero _ _ _
  | 1 => exact Box.read_children_none 0 _ _ _ rfl (Box.read_zero _ _)
  | f + 2 =>
    exact Box.read_children_none (f + 1) _ _ _ rfl
      (Box.read_ipco f _ _ _ _ _ _ cycle_top_header rfl rfl (cycle_top_children f))

end heif
